import Mathlib

/-!
Verification of `deeppavlov/models/vectorizers/dictionary_vectorizer.py`.

The file embeds the two vectorizers of the source module:

* `DictionaryVectorizer` — a flat `word -> set of tag codes` cache built by
  `_train`, with frequency filtering and an optional unknown-token fallback;
* `PymorphyVectorizer` — the morphology path: a per-pos feature trie built by
  `_make_tag_trie` over the canonical tag vocabulary, queried by
  `find_compatible`, wrapped in two memoization caches
  (`_get_word_indexes`, `_get_tag_indexes`) and a batch tensor assembler
  (`__call__`).

Python strings are modelled as `List Char` (code-point lists); Python `dict`s
(which preserve insertion order, update in place, and append new keys at the
end) are modelled as association lists with exactly those semantics; the
growable node arena `self._nodes` / `self._data` is modelled as a pair of
lists indexed by position.  The two unbounded `while` loops of
`find_compatible` are modelled by structurally recursive functions with an
explicit fuel argument; the fuel chosen in `find_compatible` is large enough
for every trie produced by `make_tag_trie` (the arena is a forest in which
every child index strictly exceeds its parent's index).
-/

/-- Python strings are sequences of code points; we model them as `List Char`. -/
abbrev Str : Type := List Char

/-- Conversion from a Lean string literal to the model type. -/
def toL (s : String) : Str := s.toList

/-- Python's `<` on strings: strict lexicographic comparison of code points. -/
def lexLt : Str → Str → Bool
  | [], [] => false
  | [], _ :: _ => true
  | _ :: _, [] => false
  | a :: as, b :: bs => if a < b then true else if b < a then false else lexLt as bs

/-- Python's `<` on pairs of strings: lexicographic comparison of 2-tuples. -/
def pairLt (x y : Str × Str) : Bool :=
  lexLt x.1 y.1 || (x.1 == y.1 && lexLt x.2 y.2)

/-- Non-strict comparison used by the stable sort: `x <= y` iff `not (y < x)`. -/
def pairLe (x y : Str × Str) : Bool := !(pairLt y x)

/-- Python `dict.get`: the value stored at the first (unique) matching key. -/
def getA {α β : Type} [BEq α] : List (α × β) → α → Option β
  | [], _ => none
  | (k, v) :: rest, a => if k == a then some v else getA rest a

/-- Python `dict[k] = v`: update the entry in place if the key is present,
otherwise append the new key at the end (dicts preserve insertion order). -/
def setA {α β : Type} [BEq α] : List (α × β) → α → β → List (α × β)
  | [], a, b => [(a, b)]
  | (k, v) :: rest, a, b => if k == a then (a, b) :: rest else (k, v) :: setA rest a b

/-- Stable insertion of an element into a sorted list (the element goes in
front of the first entry it is `le` to, so earlier elements stay first). -/
def insertSorted {α : Type} (le : α → α → Bool) (a : α) : List α → List α
  | [] => [a]
  | b :: bs => if le a b then a :: b :: bs else b :: insertSorted le a bs

/-- Stable insertion sort; extensionally equal to Python's stable `sorted`
for any total preorder, in particular for tuple comparison. -/
def insSortBy {α : Type} (le : α → α → Bool) : List α → List α
  | [] => []
  | a :: rest => insertSorted le a (insSortBy le rest)

/-- Python `s.split(sep)` for a one-character separator: splits at every
occurrence, keeping empty pieces (`"".split(sep) == [""]`). -/
def splitAll (sep : Char) : Str → List Str
  | [] => [[]]
  | c :: cs =>
    if c = sep then [] :: splitAll sep cs
    else
      match splitAll sep cs with
      | h :: t => (c :: h) :: t
      | [] => [[c]]

/-- Python `s.split(sep, maxsplit=1)` when the separator occurs: the part
before the first occurrence and everything after it.  `none` when the
separator does not occur. -/
def splitFirst (sep : Char) : Str → Option (Str × Str)
  | [] => none
  | c :: rest =>
    if c = sep then some ([], rest)
    else (splitFirst sep rest).map (fun p => (c :: p.1, p.2))

/-- Python `s.split()[0]`: the first whitespace-delimited token.  The source
raises `IndexError` on a string without tokens; tags are never empty, and the
model returns `[]` there. -/
def firstTokenWS (s : Str) : Str :=
  (s.dropWhile Char.isWhitespace).takeWhile (fun c => !c.isWhitespace)

/-- First-occurrence deduplication, the order-insensitive content of a Python
`set` built by successive insertions. -/
def dedupKeepFirst {α : Type} [BEq α] (l : List α) : List α :=
  (l.foldl (fun acc a => if acc.contains a then acc else acc ++ [a]) [])

theorem lexLt_irrefl (s : Str) : lexLt s s = false := by
  induction s with
  | nil => rfl
  | cons a as ih => simp [lexLt, ih]

theorem lexLt_asymm {a b : Str} (h : lexLt a b = true) : lexLt b a = false := by
  induction a generalizing b with
  | nil =>
    cases b with
    | nil => simp [lexLt] at h
    | cons c cs => simp [lexLt]
  | cons x xs ih =>
    cases b with
    | nil => simp [lexLt] at h
    | cons y ys =>
      simp only [lexLt] at h ⊢
      rcases lt_trichotomy x y with hxy | hxy | hxy
      · simp [hxy, not_lt_of_gt hxy]
      · subst hxy
        simp only [lt_irrefl, if_false] at h ⊢
        exact ih h
      · simp [hxy, not_lt_of_gt hxy] at h

theorem lexLt_trans {a b c : Str} (hab : lexLt a b = true) (hbc : lexLt b c = true) :
    lexLt a c = true := by
  induction a generalizing b c with
  | nil =>
    cases c with
    | nil =>
      cases b with
      | nil => exact hab
      | cons y ys => simp [lexLt] at hbc
    | cons z zs => simp [lexLt]
  | cons x xs ih =>
    cases b with
    | nil => simp [lexLt] at hab
    | cons y ys =>
      cases c with
      | nil => simp [lexLt] at hbc
      | cons z zs =>
        simp only [lexLt] at hab hbc ⊢
        rcases lt_trichotomy x y with hxy | hxy | hxy
        · rcases lt_trichotomy y z with hyz | hyz | hyz
          · simp [lt_trans hxy hyz]
          · subst hyz; simp [hxy]
          · simp [hyz, not_lt_of_gt hyz] at hbc
        · subst hxy
          rcases lt_trichotomy x z with hxz | hxz | hxz
          · simp [hxz]
          · subst hxz
            simp only [lt_irrefl, if_false] at hab hbc ⊢
            exact ih hab hbc
          · simp [hxz, not_lt_of_gt hxz] at hbc
        · simp [hxy, not_lt_of_gt hxy] at hab

theorem lexLt_eq_of_not {a b : Str} (h1 : lexLt a b = false) (h2 : lexLt b a = false) :
    a = b := by
  induction a generalizing b with
  | nil =>
    cases b with
    | nil => rfl
    | cons y ys => simp [lexLt] at h1
  | cons x xs ih =>
    cases b with
    | nil => simp [lexLt] at h2
    | cons y ys =>
      simp only [lexLt] at h1 h2
      rcases lt_trichotomy x y with hxy | hxy | hxy
      · simp [hxy] at h1
      · subst hxy
        simp only [lt_irrefl, if_false] at h1 h2
        exact congrArg (x :: ·) (ih h1 h2)
      · simp [hxy, not_lt_of_gt hxy] at h2

theorem getA_setA_self {α β : Type} [BEq α] [LawfulBEq α]
    (m : List (α × β)) (a : α) (b : β) : getA (setA m a b) a = some b := by
  induction m with
  | nil => simp [setA, getA]
  | cons p rest ih =>
    obtain ⟨k, v⟩ := p
    by_cases h : k = a
    · subst h; simp [setA, getA]
    · simp [setA, getA, h, ih]

theorem getA_setA_other {α β : Type} [BEq α] [LawfulBEq α]
    (m : List (α × β)) (a a' : α) (b : β) (h : a' ≠ a) :
    getA (setA m a b) a' = getA m a' := by
  have hne : ∀ k : α, k = a → ¬(k == a') = true := by
    intro k hk hc
    exact h (by rw [← eq_of_beq hc, hk])
  induction m with
  | nil =>
    simp only [setA, getA]
    rw [if_neg (hne a rfl)]
  | cons p rest ih =>
    obtain ⟨k, v⟩ := p
    by_cases hk : k = a
    · subst hk
      simp only [setA, beq_self_eq_true, if_true, getA]
      rw [if_neg (hne k rfl), if_neg (hne k rfl)]
    · simp [setA, getA, hk, ih]

/-! ## The tag trie (`PymorphyVectorizer._make_tag_trie`)

The source keeps a growable arena `self._nodes` (each node a
`defaultdict(dict)` mapping feature key to a dict mapping feature value to a
child index), a parallel list `self._data` of optional terminal codes and a
dict `self._start_nodes_for_pos` of per-pos roots; node `0` is an unused dummy
created by the constructor. -/

/-- One arena node: feature key to (feature value to child index), in
insertion order. -/
abbrev NodeMap : Type := List (Str × List (Str × Nat))

/-- The trie state: `self._nodes`, `self._start_nodes_for_pos`, `self._data`. -/
structure Trie where
  nodes : List NodeMap
  startNodesForPos : List (Str × Nat)
  data : List (Option Nat)

/-- Reading `self._nodes[i]`. -/
def getNode (t : Trie) (i : Nat) : NodeMap := t.nodes.getD i []

/-- Reading `self._data[i]`. -/
def dataAt (t : Trie) (i : Nat) : Option Nat := t.data.getD i none

/-- The child index reached from node `i` along feature pair `(k, v)`. -/
def childAt (t : Trie) (i : Nat) (k v : Str) : Option Nat :=
  (getA (getNode t i) k).bind fun vd => getA vd v

/-- Descending from node `n` along a list of feature pairs. -/
def followPath (t : Trie) : Nat → List (Str × Str) → Option Nat
  | n, [] => some n
  | n, kv :: rest => (childAt t n kv.1 kv.2).bind fun c => followPath t c rest

/-- Reading `self._start_nodes_for_pos.get(pos)`. -/
def rootOf (t : Trie) (pos : Str) : Option Nat := getA t.startNodesForPos pos

/-- Splitting one `key=value` element.  The source builds
`tuple(elem.split("="))` and later unpacks it as a pair, raising `ValueError`
when the number of parts differs from two; canonical tags always have exactly
one `=` per element, and the model returns a junk pair on malformed input. -/
def parseFeat (e : Str) : Str × Str :=
  match splitAll '=' e with
  | [k, v] => (k, v)
  | _ => (e, [])

/-- Parsing one canonical tag string at build time: `pos` before the first
comma and the `|`-separated feature pairs after it, sorted as Python sorts
tuples; a string without a comma is a bare pos with no features. -/
def parseBuildTag (s : Str) : Str × List (Str × Str) :=
  if s.contains ',' then
    match splitFirst ',' s with
    | some p => (p.1, insSortBy pairLe ((splitAll '|' p.2).map parseFeat))
    | none => (s, [])
  else (s, [])

/-- The dict `self._t2i = {tag: i for i, tag in enumerate(self._i2t)}`:
a duplicate tag string keeps its first position but the later index wins. -/
def makeT2i (i2t : List Str) : List (Str × Nat) :=
  i2t.enum.foldl (fun m p => setA m p.2 p.1) []

/-- The trie state right after `self._nodes = [defaultdict(dict)]`,
`self._start_nodes_for_pos = dict()`, `self._data = [None]`. -/
def emptyTrie : Trie := { nodes := [[]], startNodesForPos := [], data := [none] }

/-- The per-feature walk of `_make_tag_trie`: descend into the child keyed by
`key` then `value`, creating the child (a fresh arena slot) when absent,
and return the state together with the final node index. -/
def insertFeats : Trie → Nat → List (Str × Str) → Trie × Nat
  | t, start, [] => (t, start)
  | t, start, kv :: rest =>
    let node := getNode t start
    let valuesDict := (getA node kv.1).getD []
    match getA valuesDict kv.2 with
    | some child => insertFeats t child rest
    | none =>
      let child := t.nodes.length
      let node1 := setA node kv.1 (setA valuesDict kv.2 child)
      insertFeats
        { nodes := t.nodes.set start node1 ++ [[]],
          startNodesForPos := t.startNodesForPos,
          data := t.data ++ [none] }
        child rest

/-- One iteration of the `for tag, code in self._t2i.items()` loop: obtain or
create the root for `pos`, walk the feature pairs, then set
`self._data[last] = code` (overwriting any previous terminal). -/
def insertTag (t : Trie) (pos : Str) (feats : List (Str × Str)) (code : Nat) : Trie :=
  let rs : Trie × Nat :=
    match getA t.startNodesForPos pos with
    | some s => (t, s)
    | none =>
      ({ nodes := t.nodes ++ [[]],
         startNodesForPos := setA t.startNodesForPos pos t.nodes.length,
         data := t.data ++ [none] }, t.nodes.length)
  let te := insertFeats rs.1 rs.2 feats
  { nodes := te.1.nodes, startNodesForPos := te.1.startNodesForPos,
    data := te.1.data.set te.2 (some code) }

/-- `PymorphyVectorizer._make_tag_trie`, as a function of the loaded tag list
`self._i2t`. -/
def make_tag_trie (i2t : List Str) : Trie :=
  (makeT2i i2t).foldl
    (fun t p =>
      let pf := parseBuildTag p.1
      insertTag t pf.1 pf.2 p.2)
    emptyTrie

/-! ## The compatibility query (`PymorphyVectorizer.find_compatible`)

Both `while` loops of the source are unbounded stack walks; the model gives
them an explicit fuel argument.  Stacks are kept head-on-top, i.e. reversed
with respect to the Python lists whose last element is popped first. -/

/-- `PymorphyVectorizer.USELESS_KEYS`. -/
def USELESS_KEYS : List Str := [toL "Abbr"]

/-- `PymorphyVectorizer.VALUE_MAP`. -/
def VALUE_MAP : List (Str × Str) := [(toL "Ptan", toL "Plur"), (toL "Brev", toL "Short")]

/-- Query-string parsing in `find_compatible`: a string containing a space
and no underscore splits at the first space into pos and sorted feature
pairs; any other string is a bare pos equal to its first whitespace token. -/
def parseQueryTag (s : Str) : Str × List (Str × Str) :=
  if s.contains ' ' && !(s.contains '_') then
    match splitFirst ' ' s with
    | some p => (p.1, insSortBy pairLe ((splitAll '|' p.2).map parseFeat))
    | none => (s, [])
  else (firstTokenWS s, [])

/-- Constraint preprocessing in `find_compatible`: drop pairs whose key is in
`USELESS_KEYS` and remap values through `VALUE_MAP`. -/
def preprocessTag (tag : List (Str × Str)) : List (Str × Str) :=
  (tag.filter fun kv => !(USELESS_KEYS.contains kv.1)).map
    fun kv => (kv.1, (getA VALUE_MAP kv.2).getD kv.2)

/-- The inner `while curr_i < len(tag) and tag[curr_i][0] < curr_key` loop:
how many constraints starting at the cursor have a key below the branch key. -/
def skipCount (tagSuffix : List (Str × Str)) (currKey : Str) : Nat :=
  match tagSuffix with
  | [] => 0
  | kv :: rest => if lexLt kv.1 currKey then 1 + skipCount rest currKey else 0

/-- The `for curr_key, curr_values_dict in node.items()` loop body of the main
walk, threading the two stacks. -/
def processBranches (tag : List (Str × Str)) (i : Nat) :
    NodeMap → List (Nat × Nat) → List Nat → List (Nat × Nat) × List Nat
  | [], curr, final => (curr, final)
  | branch :: branches, curr, final =>
    let currValuesDict := branch.2
    let currI := i + skipCount (tag.drop i) branch.1
    if currI = tag.length then
      processBranches tag i branches curr ((currValuesDict.map Prod.snd).reverse ++ final)
    else
      let kv := tag.getD currI ([], [])
      if lexLt branch.1 kv.1 then
        processBranches tag i branches
          ((currValuesDict.map fun p => (currI, p.2)).reverse ++ curr) final
      else
        match getA currValuesDict kv.2 with
        | none => processBranches tag i branches curr final
        | some child =>
          if currI < tag.length - 1 then
            processBranches tag i branches ((currI + 1, child) :: curr) final
          else
            processBranches tag i branches curr (child :: final)

/-- The main `while len(curr_nodes) > 0` walk of `find_compatible`: pop an
entry, record leaf nodes as final, and process every branch of the node. -/
def findLoop (t : Trie) (tag : List (Str × Str)) : Nat → List (Nat × Nat) → List Nat → List Nat
  | _, [], final => final
  | 0, _ :: _, final => final
  | fuel + 1, e :: rest, final =>
    let node := getNode t e.2
    let final1 := if node.isEmpty then e.2 :: final else final
    let res := processBranches tag e.1 node rest final1
    findLoop t tag fuel res.1 res.2

/-- The closing `while len(final_nodes) > 0` walk: pop a node, collect its
terminal code if set, and push every child. -/
def collectLoop (t : Trie) : Nat → List Nat → List Nat → List Nat
  | _, [], answer => answer
  | 0, _ :: _, answer => answer
  | fuel + 1, index :: rest, answer =>
    let answer1 :=
      match dataAt t index with
      | some c => answer ++ [c]
      | none => answer
    let pushes := (getNode t index).flatMap fun b => b.2.map Prod.snd
    collectLoop t fuel (pushes.reverse ++ rest) answer1

/-- Total size of all value dictionaries of a node. -/
def nodeWidth (n : NodeMap) : Nat := (n.map fun b => b.2.length).sum

/-- A fuel bound sufficient for both walks on every trie whose child indices
strictly exceed their parents: the stack potential argument in the
completeness lemmas below never needs more than this many iterations. -/
def trieWidth (t : Trie) : Nat := (t.nodes.map nodeWidth).foldr max 0 + 2

/-- Fuel used by `find_compatible` for both walks. -/
def trieFuel (t : Trie) : Nat := trieWidth t ^ (t.nodes.length + 1)

/-- The part of `find_compatible` after query-string parsing: the lookup of
`pos` among the roots, constraint preprocessing, seeding of the two stacks
and both walks. -/
def queryTrie (t : Trie) (pos : Str) (tag0 : List (Str × Str)) : List Nat :=
  match rootOf t pos with
  | none => []
  | some start =>
    let tag := preprocessTag tag0
    let seed : List (Nat × Nat) × List Nat :=
      if tag.length > 0 then ([(0, start)], []) else ([], [start])
    let final := findLoop t tag (trieFuel t) seed.1 seed.2
    collectLoop t (trieFuel t) final []

/-- `PymorphyVectorizer.find_compatible`. -/
def find_compatible (t : Trie) (s : Str) : List Nat :=
  let p := parseQueryTag s
  queryTrie t p.1 p.2

/-! ## `DictionaryVectorizer`

`_train` keeps `self._i2t` (list of tags, the unknown token first when
configured), `self._t2i` (a `defaultdict` whose default value is the unknown
token itself — a string — or `None`; note that a `defaultdict` lookup of a
missing key inserts that key) and `self.word_tag_mapping`.  A stored entry is
therefore an `int` code, the unknown-token string, or `None` (the latter
filtered out); we model the three as `Option (Sum Nat Str)`. -/

instance : BEq (Sum Nat Str) := ⟨fun a b => decide (a = b)⟩

instance : LawfulBEq (Sum Nat Str) where
  eq_of_beq h := of_decide_eq_true h
  rfl := decide_eq_true rfl

/-- A value held in `self._t2i`: an integer code (`Sum.inl`), the unknown
token string itself (`Sum.inr`), or Python `None` (`none`). -/
abbrev T2IVal : Type := Option (Sum Nat Str)

/-- `freq[label] += 1` on the `defaultdict(int)`. -/
def incrA (m : List (Str × Nat)) (lab : Str) : List (Str × Nat) :=
  setA m lab ((getA m lab).getD 0 + 1)

/-- The `freq` table of `_train`: for each label, in how many word entries it
occurs (each word's label set contributes at most once per label it holds). -/
def dictFreq (lbw : List (Str × List Str)) : List (Str × Nat) :=
  lbw.foldl (fun m wl => wl.2.foldl incrA m) []

/-- A lookup `self._t2i[label]` on the `defaultdict`: a missing key is
inserted with the default value (the unknown token, or `None`) and that
default is returned. -/
def t2iLookupIns (unk : Option Str) (m : List (Str × T2IVal)) (lab : Str) :
    T2IVal × List (Str × T2IVal) :=
  match getA m lab with
  | some v => (v, m)
  | none => (unk.map Sum.inr, setA m lab (unk.map Sum.inr))

/-- The state `_train` leaves behind: `self._i2t`, `self._t2i` and
`self.word_tag_mapping`. -/
structure DictState where
  i2t : List Str
  t2i : List (Str × T2IVal)
  wtm : List (Str × List (Sum Nat Str))

/-- `self._i2t` after `_train`: the unknown token first when configured, then
the labels whose frequency reaches `min_freq`, in first-occurrence order. -/
def dictI2t (minFreq : Nat) (unk : Option Str) (lbw : List (Str × List Str)) : List Str :=
  (match unk with | some u => [u] | none => []) ++
    (((dictFreq lbw).filter fun p => decide (minFreq ≤ p.2)).map Prod.fst)

/-- `self._t2i` right after the `for i, label in enumerate(self._i2t)` loop. -/
def dictT2i0 (i2t : List Str) : List (Str × T2IVal) :=
  i2t.enum.foldl (fun m p => setA m p.2 (some (Sum.inl p.1))) []

/-- One label lookup inside the word loop of `_train`: collect the value of
`self._t2i[label]` (inserting the default on a miss). -/
def trainLabelStep (unk : Option Str) (a : List T2IVal × List (Str × T2IVal)) (lab : Str) :
    List T2IVal × List (Str × T2IVal) :=
  let lr := t2iLookupIns unk a.2 lab
  (a.1 ++ [lr.1], lr.2)

/-- One word of the `for word, labels in labels_by_words.items()` loop of
`_train`: build the set of looked-up values, drop the `None`s and store the
result under the word. -/
def trainWordStep (unk : Option Str)
    (acc : List (Str × List (Sum Nat Str)) × List (Str × T2IVal)) (wl : Str × List Str) :
    List (Str × List (Sum Nat Str)) × List (Str × T2IVal) :=
  let r := wl.2.foldl (trainLabelStep unk) ([], acc.2)
  (setA acc.1 wl.1 ((dedupKeepFirst r.1).filterMap id), r.2)

/-- `DictionaryVectorizer._train` on a `labels_by_words` table (an
insertion-ordered dict of word to set of labels). -/
def dictTrain (minFreq : Nat) (unk : Option Str) (lbw : List (Str × List Str)) : DictState :=
  let i2t := dictI2t minFreq unk lbw
  let step := lbw.foldl (trainWordStep unk) ([], dictT2i0 i2t)
  { i2t := i2t, t2i := step.2, wtm := step.1 }

/-- `DictionaryVectorizer.dim`, i.e. `len(self._t2i)` — note this counts the
keys the `defaultdict` lookups inserted for filtered labels. -/
def dictDim (s : DictState) : Nat := s.t2i.length

/-- Reading `self.word_tag_mapping[word]`, with the `defaultdict` default:
`[self.unk_token]` (the token string) when configured, else `[]`. -/
def wtmGet (unk : Option Str) (s : DictState) (word : Str) : List (Sum Nat Str) :=
  match getA s.wtm word with
  | some l => l
  | none => match unk with | some u => [Sum.inr u] | none => []

/-! ## Batch tensor assembly (`__call__` of both vectorizers) -/

/-- `max(len(x) for x in data)`: Python `max` raises `ValueError` on an empty
generator, modelled as `none`. -/
def batchMaxLen (data : List (List Str)) : Option Nat :=
  match data with
  | [] => none
  | _ => some ((data.map List.length).foldl max 0)

/-- A row of the output tensor after `row[indexes] = 1`. -/
def onesRow (dim : Nat) (idxs : List Nat) : List Nat :=
  (List.range dim).map fun k => if idxs.contains k then 1 else 0

/-- NumPy fancy assignment `answer[i, j][indexes] = 1` for integer indexes:
raises `IndexError` (modelled `none`) when an index is out of range. -/
def npAssignNat (dim : Nat) (idxs : List Nat) : Option (List Nat) :=
  if idxs.all (fun i => decide (i < dim)) then some (onesRow dim idxs) else none

/-- NumPy fancy assignment for the dictionary path, where a stored entry may
be the unknown-token string: a non-integer index raises (modelled `none`). -/
def npAssignEntries (dim : Nat) (entries : List (Sum Nat Str)) : Option (List Nat) :=
  if entries.all (fun e => match e with | Sum.inl i => decide (i < dim) | Sum.inr _ => false) then
    some (onesRow dim (entries.filterMap fun e =>
      match e with | Sum.inl i => some i | Sum.inr _ => none))
  else none

/-- One padded sentence of the output tensor for the dictionary path. -/
def dictSentRows (unk : Option Str) (s : DictState) (T : Nat) (sent : List Str) :
    Option (List (List Nat)) :=
  (sent.mapM fun word => npAssignEntries (dictDim s) (wtmGet unk s word)).map
    fun rows => rows ++ List.replicate (T - sent.length) (List.replicate (dictDim s) 0)

/-- `DictionaryVectorizer.__call__`: the zero tensor of shape
`[len(data), max_length, dim]` with ones at each word's stored entries;
`none` models the exceptions (empty batch, or a non-integer stored entry). -/
def dictCall (minFreq : Nat) (unk : Option Str) (lbw : List (Str × List Str))
    (data : List (List Str)) : Option (List (List (List Nat))) :=
  match batchMaxLen data with
  | none => none
  | some T =>
    let s := dictTrain minFreq unk lbw
    data.mapM (dictSentRows unk s T)

/-! ## `PymorphyVectorizer` orchestration

The analyzer (`pymorphy2.MorphAnalyzer`) and the tagset converter
(`russian_tagsets`) are external collaborators (spec sections 1 and 6);
they enter the model as opaque function parameters: `analyzerParse` maps a
word to the ranked list of its parses' tag strings (`elem.tag`, the only
field the source reads), `converter` maps such a tag string to a UD2.0 tag
string. -/

/-- The mutable state and configuration of a `PymorphyVectorizer`. -/
structure PymorphyVectorizer where
  i2t : List Str
  maxPymorphyVariants : Int
  analyzerParse : Str → List Str
  converter : Str → Str
  memorizedWordIndexes : List (Str × List Nat)
  memorizedTagIndexes : List (Str × List Nat)

/-- `PymorphyVectorizer._get_tag_indexes`: per-raw-tag memoization around
`find_compatible`. -/
def get_tag_indexes (v : PymorphyVectorizer) (rawTag : Str) :
    List Nat × PymorphyVectorizer :=
  match getA v.memorizedTagIndexes rawTag with
  | some ans => (ans, v)
  | none =>
    let ans := find_compatible (make_tag_trie v.i2t) (v.converter rawTag)
    (ans, { v with memorizedTagIndexes := setA v.memorizedTagIndexes rawTag ans })

/-- One step of the `for elem in parse` loop of `_get_word_indexes`: look up
the parse's tag and union its code list into the accumulated set. -/
def tagFoldStep (acc : List Nat × PymorphyVectorizer) (rawTag : Str) :
    List Nat × PymorphyVectorizer :=
  let r := get_tag_indexes acc.2 rawTag
  (dedupKeepFirst (acc.1 ++ r.1), r.2)

/-- The cache-miss branch of `_get_word_indexes`: run the analyzer, truncate
to `max_pymorphy_variants` parses (unlimited when not positive), union the
per-parse code sets and memoize the result under the word. -/
def get_word_indexes_miss (v : PymorphyVectorizer) (word : Str) :
    List Nat × PymorphyVectorizer :=
  let parse0 := v.analyzerParse word
  let parse := if v.maxPymorphyVariants > 0 then parse0.take v.maxPymorphyVariants.toNat else parse0
  let step := parse.foldl tagFoldStep ([], v)
  (step.1, { step.2 with memorizedWordIndexes := setA step.2.memorizedWordIndexes word step.1 })

/-- `PymorphyVectorizer._get_word_indexes`: per-word memoization around the
analyzer and the trie query. -/
def get_word_indexes (v : PymorphyVectorizer) (word : Str) :
    List Nat × PymorphyVectorizer :=
  match getA v.memorizedWordIndexes word with
  | some ans => (ans, v)
  | none => get_word_indexes_miss v word

/-- One sentence of `PymorphyVectorizer.__call__`, threading the caches. -/
def pymSentRows (dim T : Nat) (v : PymorphyVectorizer) (sent : List Str) :
    Option (List (List Nat)) × PymorphyVectorizer :=
  match sent with
  | [] => (some (List.replicate T (List.replicate dim 0)), v)
  | word :: ws =>
    let r := get_word_indexes v word
    match npAssignNat dim r.1 with
    | none => (none, r.2)
    | some row =>
      let rest := pymSentRows dim (T - 1) r.2 ws
      match rest.1 with
      | some rows => (some (row :: rows), rest.2)
      | none => (none, rest.2)

/-- The sentence loop of `PymorphyVectorizer.__call__`. -/
def pymSentsLoop (dim T : Nat) : PymorphyVectorizer → List (List Str) →
    Option (List (List (List Nat))) × PymorphyVectorizer
  | v, [] => (some [], v)
  | v, sent :: rest =>
    let r := pymSentRows dim T v sent
    match r.1 with
    | none => (none, r.2)
    | some rows =>
      let rr := pymSentsLoop dim T r.2 rest
      match rr.1 with
      | some out => (some (rows :: out), rr.2)
      | none => (none, rr.2)

/-- `PymorphyVectorizer.__call__`: the `[B, max_length, dim]` multi-hot
tensor with `dim = len(self._t2i)`; `none` models the exceptions. -/
def pymCall (v : PymorphyVectorizer) (data : List (List Str)) :
    Option (List (List (List Nat))) × PymorphyVectorizer :=
  match batchMaxLen data with
  | none => (none, v)
  | some T => pymSentsLoop (makeT2i v.i2t).length T v data

/-! ## Claim C10: empty batches -/

/-- Claim C10: calling either vectorizer on an empty batch fails (Python
`max` over an empty generator raises `ValueError`) rather than returning an
empty tensor, and for every batch with at least one sentence the maximal
sentence length computation succeeds. -/
theorem c10_empty_batch_raises :
    (∀ (minFreq : Nat) (unk : Option Str) (lbw : List (Str × List Str)),
      dictCall minFreq unk lbw [] = none) ∧
    (∀ v : PymorphyVectorizer, (pymCall v []).1 = none) ∧
    (∀ data : List (List Str), data ≠ [] → (batchMaxLen data).isSome = true) := by
  refine ⟨fun _ _ _ => rfl, fun _ => rfl, fun data h => ?_⟩
  cases data with
  | nil => exact absurd rfl h
  | cons s rest => simp [batchMaxLen]

/-- Witness for the hypothesis of C10's theorem at a concrete batch. -/
theorem c10_empty_batch_raises_witness :
    (batchMaxLen [[toL "a"], []]).isSome = true :=
  c10_empty_batch_raises.2.2 [[toL "a"], []] (by simp)

/-! ## Claim C9: memoization determinism and frame conditions -/

theorem get_tag_indexes_memWord (v : PymorphyVectorizer) (rt : Str) :
    (get_tag_indexes v rt).2.memorizedWordIndexes = v.memorizedWordIndexes := by
  cases h : getA v.memorizedTagIndexes rt <;> simp [get_tag_indexes, h]

theorem get_tag_indexes_memTag_mono (v : PymorphyVectorizer) (rt rt' : Str) (l : List Nat)
    (h : getA v.memorizedTagIndexes rt' = some l) :
    getA (get_tag_indexes v rt).2.memorizedTagIndexes rt' = some l := by
  cases hc : getA v.memorizedTagIndexes rt with
  | some ans => simpa [get_tag_indexes, hc] using h
  | none =>
    have hne : rt' ≠ rt := by
      intro he
      rw [he, hc] at h
      exact Option.noConfusion h
    simp only [get_tag_indexes, hc]
    rw [getA_setA_other _ _ _ _ hne]
    exact h

theorem tagFold_memWord (parse : List Str) (acc : List Nat) (v : PymorphyVectorizer) :
    (parse.foldl tagFoldStep (acc, v)).2.memorizedWordIndexes = v.memorizedWordIndexes := by
  induction parse generalizing acc v with
  | nil => rfl
  | cons rt rest ih =>
    simp only [List.foldl_cons]
    rw [show tagFoldStep (acc, v) rt =
      (dedupKeepFirst (acc ++ (get_tag_indexes v rt).1), (get_tag_indexes v rt).2) from rfl]
    rw [ih, get_tag_indexes_memWord]

theorem tagFold_memTag_mono (parse : List Str) (acc : List Nat) (v : PymorphyVectorizer)
    (rt' : Str) (l : List Nat) (h : getA v.memorizedTagIndexes rt' = some l) :
    getA (parse.foldl tagFoldStep (acc, v)).2.memorizedTagIndexes rt' = some l := by
  induction parse generalizing acc v with
  | nil => exact h
  | cons rt rest ih =>
    simp only [List.foldl_cons]
    rw [show tagFoldStep (acc, v) rt =
      (dedupKeepFirst (acc ++ (get_tag_indexes v rt).1), (get_tag_indexes v rt).2) from rfl]
    exact ih _ _ (get_tag_indexes_memTag_mono v rt rt' l h)

/-- Claim C9: resolving the same word twice returns the identical list and
leaves the state unchanged on the second call, and one resolve call never
alters a cached entry previously stored for another word or for a previously
seen raw tag. -/
theorem get_word_indexes_hit (v : PymorphyVectorizer) (word : Str) (ans : List Nat)
    (h : getA v.memorizedWordIndexes word = some ans) :
    get_word_indexes v word = (ans, v) := by
  simp [get_word_indexes, h]

theorem get_word_indexes_of_miss (v : PymorphyVectorizer) (word : Str)
    (h : getA v.memorizedWordIndexes word = none) :
    get_word_indexes v word = get_word_indexes_miss v word := by
  simp [get_word_indexes, h]

theorem c9_resolve_deterministic_and_frame (v : PymorphyVectorizer) (word : Str) :
    ((get_word_indexes (get_word_indexes v word).2 word).1 = (get_word_indexes v word).1 ∧
      (get_word_indexes (get_word_indexes v word).2 word).2 = (get_word_indexes v word).2) ∧
    (∀ w : Str, w ≠ word → ∀ l : List Nat,
      getA v.memorizedWordIndexes w = some l →
      getA (get_word_indexes v word).2.memorizedWordIndexes w = some l) ∧
    (∀ rt : Str, ∀ l : List Nat,
      getA v.memorizedTagIndexes rt = some l →
      getA (get_word_indexes v word).2.memorizedTagIndexes rt = some l) := by
  cases h : getA v.memorizedWordIndexes word with
  | some ans =>
    have h1 : get_word_indexes v word = (ans, v) := get_word_indexes_hit v word ans h
    refine ⟨⟨?_, ?_⟩, ?_, ?_⟩
    · rw [h1, get_word_indexes_hit v word ans h]
    · rw [h1, get_word_indexes_hit v word ans h]
    · intro w _ l hl; rw [h1]; exact hl
    · intro rt l hl; rw [h1]; exact hl
  | none =>
    have h1 : get_word_indexes v word = get_word_indexes_miss v word :=
      get_word_indexes_of_miss v word h
    have hpr1 : (get_word_indexes_miss v word).1 =
        (((if v.maxPymorphyVariants > 0 then (v.analyzerParse word).take v.maxPymorphyVariants.toNat
            else v.analyzerParse word).foldl tagFoldStep ([], v))).1 := rfl
    have hpr2 : (get_word_indexes_miss v word).2.memorizedWordIndexes =
        setA (((if v.maxPymorphyVariants > 0 then (v.analyzerParse word).take v.maxPymorphyVariants.toNat
            else v.analyzerParse word).foldl tagFoldStep ([], v))).2.memorizedWordIndexes word
          (((if v.maxPymorphyVariants > 0 then (v.analyzerParse word).take v.maxPymorphyVariants.toNat
            else v.analyzerParse word).foldl tagFoldStep ([], v))).1 := rfl
    have hpr3 : (get_word_indexes_miss v word).2.memorizedTagIndexes =
        (((if v.maxPymorphyVariants > 0 then (v.analyzerParse word).take v.maxPymorphyVariants.toNat
            else v.analyzerParse word).foldl tagFoldStep ([], v))).2.memorizedTagIndexes := rfl
    have hhit : getA (get_word_indexes v word).2.memorizedWordIndexes word =
        some (get_word_indexes v word).1 := by
      rw [h1, hpr1, hpr2]
      exact getA_setA_self _ _ _
    have h2 : get_word_indexes (get_word_indexes v word).2 word =
        ((get_word_indexes v word).1, (get_word_indexes v word).2) :=
      get_word_indexes_hit _ _ _ hhit
    refine ⟨⟨by rw [h2], by rw [h2]⟩, ?_, ?_⟩
    · intro w hw l hl
      rw [h1, hpr2, getA_setA_other _ _ _ _ hw, tagFold_memWord]
      exact hl
    · intro rt l hl
      rw [h1, hpr3]
      exact tagFold_memTag_mono _ _ _ _ _ hl

/-- Witness for C9's theorem: the frame hypotheses discharged at a concrete
vectorizer whose caches hold one word and one raw tag entry. -/
theorem c9_resolve_deterministic_and_frame_witness :
    getA (get_word_indexes
        { i2t := [toL "NOUN"], maxPymorphyVariants := -1,
          analyzerParse := fun _ => [toL "T"], converter := fun s => s,
          memorizedWordIndexes := [(toL "b", [0])],
          memorizedTagIndexes := [(toL "R", [0])] } (toL "a")).2.memorizedWordIndexes
      (toL "b") = some [0] :=
  (c9_resolve_deterministic_and_frame _ (toL "a")).2.1 (toL "b") (by decide) [0] rfl

/-! ## Claim C3: the query grammar -/

/-- Rendering one feature pair as `key=value`. -/
def renderFeat (kv : Str × Str) : Str := kv.1 ++ '=' :: kv.2

/-- Rendering a feature list as `k1=v1|k2=v2|...`. -/
def renderFeats : List (Str × Str) → Str
  | [] => []
  | [kv] => renderFeat kv
  | kv :: rest => renderFeat kv ++ '|' :: renderFeats rest

theorem splitAll_nosep {sep : Char} {s : Str} (h : sep ∉ s) : splitAll sep s = [s] := by
  induction s with
  | nil => rfl
  | cons c cs ih =>
    have hc : ¬c = sep := fun he => h (he ▸ List.mem_cons_self c cs)
    have ihs : splitAll sep cs = [cs] := ih (fun hm => h (List.mem_cons_of_mem c hm))
    simp [splitAll, hc, ihs]

theorem splitAll_append_sep {sep : Char} {a b : Str} (h : sep ∉ a) :
    splitAll sep (a ++ sep :: b) = a :: splitAll sep b := by
  induction a with
  | nil => simp [splitAll]
  | cons c cs ih =>
    have hc : ¬c = sep := fun he => h (he ▸ List.mem_cons_self c cs)
    have ihs := ih (fun hm => h (List.mem_cons_of_mem c hm))
    simp [splitAll, hc, ihs]

theorem splitAll_single {sep : Char} {a b : Str} (ha : sep ∉ a) (hb : sep ∉ b) :
    splitAll sep (a ++ sep :: b) = [a, b] := by
  rw [splitAll_append_sep ha, splitAll_nosep hb]

theorem splitFirst_append {sep : Char} {a b : Str} (h : sep ∉ a) :
    splitFirst sep (a ++ sep :: b) = some (a, b) := by
  induction a with
  | nil => simp [splitFirst]
  | cons c cs ih =>
    have hc : ¬c = sep := fun he => h (he ▸ List.mem_cons_self c cs)
    have ihs := ih (fun hm => h (List.mem_cons_of_mem c hm))
    simp [splitFirst, hc, ihs]

theorem parseFeat_renderFeat {k v : Str} (hk : '=' ∉ k) (hv : '=' ∉ v) :
    parseFeat (renderFeat (k, v)) = (k, v) := by
  simp [parseFeat, renderFeat, splitAll_single hk hv]

theorem not_mem_renderFeats {c : Char} {feats : List (Str × Str)}
    (hc1 : c ≠ '=') (hc2 : c ≠ '|')
    (h : ∀ kv ∈ feats, c ∉ kv.1 ∧ c ∉ kv.2) : c ∉ renderFeats feats := by
  induction feats with
  | nil => simp [renderFeats]
  | cons kv rest ih =>
    have hkv := h kv (List.mem_cons_self kv rest)
    have hrf : c ∉ renderFeat kv := by
      intro hm
      rcases List.mem_append.1 hm with hm1 | hm2
      · exact hkv.1 hm1
      · rcases List.mem_cons.1 hm2 with he | hm3
        · exact hc1 he
        · exact hkv.2 hm3
    cases rest with
    | nil => simpa [renderFeats] using hrf
    | cons kv2 rest2 =>
      have ihs := ih (fun x hx => h x (List.mem_cons_of_mem kv hx))
      intro hm
      rcases List.mem_append.1 hm with hm1 | hm2
      · exact hrf hm1
      · rcases List.mem_cons.1 hm2 with he | hm3
        · exact hc2 he
        · exact ihs hm3

theorem splitAll_renderFeats {feats : List (Str × Str)} (hne : feats ≠ [])
    (h : ∀ kv ∈ feats, '|' ∉ kv.1 ∧ '|' ∉ kv.2) :
    splitAll '|' (renderFeats feats) = feats.map renderFeat := by
  induction feats with
  | nil => exact absurd rfl hne
  | cons kv rest ih =>
    have hkv := h kv (List.mem_cons_self kv rest)
    have hrf : ('|' : Char) ∉ renderFeat kv := by
      intro hm
      rcases List.mem_append.1 hm with hm1 | hm2
      · exact hkv.1 hm1
      · rcases List.mem_cons.1 hm2 with he | hm3
        · exact absurd he (by decide)
        · exact hkv.2 hm3
    cases rest with
    | nil => simp [renderFeats, splitAll_nosep hrf]
    | cons kv2 rest2 =>
      have ihs := ih (by simp) (fun x hx => h x (List.mem_cons_of_mem kv hx))
      show splitAll '|' (renderFeat kv ++ '|' :: renderFeats (kv2 :: rest2)) = _
      rw [splitAll_append_sep hrf, ihs]
      rfl

theorem takeWhile_all_eq {p : Char → Bool} {s : Str} (h : ∀ c ∈ s, p c = true) :
    s.takeWhile p = s := by
  induction s with
  | nil => rfl
  | cons c cs ih =>
    have hc := h c (List.mem_cons_self c cs)
    simp [List.takeWhile, hc, ih (fun x hx => h x (List.mem_cons_of_mem c hx))]

theorem dropWhile_all_eq {p : Char → Bool} {s : Str} (h : ∀ c ∈ s, p c = false) :
    s.dropWhile p = s := by
  cases s with
  | nil => rfl
  | cons c cs => simp [List.dropWhile, h c (List.mem_cons_self c cs)]

/-- Counterexample to claim C3: `"NOUN,Case=Nom"` is a canonical tag string
(`POS,key=value` grammar), but the query path does not extract pos `"NOUN"`
with constraint `Case=Nom` from it — it splits on a space, not on the comma,
so the whole string becomes the pos and the query of a vocabulary holding
exactly that tag returns nothing instead of its code. -/
theorem c3_counterexample :
    parseQueryTag (toL "NOUN,Case=Nom") ≠ (toL "NOUN", [(toL "Case", toL "Nom")]) ∧
    find_compatible (make_tag_trie [toL "NOUN,Case=Nom"]) (toL "NOUN,Case=Nom") = [] := by
  constructor
  · decide
  · decide

/-- Claim C3 as amended: the query path accepts partial tags in a
space-separated variant of the grammar.  A string `pos ++ " " ++
"k1=v1|...|kn=vn"` (no space or underscore in `pos`, no `=`, `|` or `_`
inside keys and values, at least one pair) parses to `pos` with the sorted
feature pairs, and a string without any whitespace — in particular a
comma-form canonical tag string — parses to itself as a bare pos with no
constraints. -/
theorem c3_amended_space_grammar (pos : Str) (feats : List (Str × Str))
    (hpos1 : ' ' ∉ pos) (hpos2 : '_' ∉ pos) (hne : feats ≠ [])
    (hf : ∀ kv ∈ feats, ('=' ∉ kv.1 ∧ '=' ∉ kv.2) ∧ ('|' ∉ kv.1 ∧ '|' ∉ kv.2) ∧
      ('_' ∉ kv.1 ∧ '_' ∉ kv.2)) :
    parseQueryTag (pos ++ ' ' :: renderFeats feats) = (pos, insSortBy pairLe feats) ∧
    (∀ s : Str, (∀ c ∈ s, c.isWhitespace = false) → parseQueryTag s = (s, [])) := by
  constructor
  · have hsp : (pos ++ ' ' :: renderFeats feats).contains ' ' = true := by
      have : (' ' : Char) ∈ pos ++ ' ' :: renderFeats feats :=
        List.mem_append.2 (Or.inr (List.mem_cons_self _ _))
      exact List.elem_eq_true_of_mem this
    have hus : (pos ++ ' ' :: renderFeats feats).contains '_' = false := by
      have hnm : ('_' : Char) ∉ pos ++ ' ' :: renderFeats feats := by
        intro hm
        rcases List.mem_append.1 hm with hm1 | hm2
        · exact hpos2 hm1
        · rcases List.mem_cons.1 hm2 with he | hm3
          · exact absurd he (by decide)
          · exact not_mem_renderFeats (by decide) (by decide)
              (fun kv hkv => ⟨((hf kv hkv).2.2).1, ((hf kv hkv).2.2).2⟩) hm3
      exact Bool.eq_false_iff.2 (fun hc => hnm (List.mem_of_elem_eq_true hc))
    have hsf : splitFirst ' ' (pos ++ ' ' :: renderFeats feats) =
        some (pos, renderFeats feats) := splitFirst_append hpos1
    have hsa : splitAll '|' (renderFeats feats) = feats.map renderFeat :=
      splitAll_renderFeats hne (fun kv hkv => (hf kv hkv).2.1)
    have hmap : (feats.map renderFeat).map parseFeat = feats := by
      rw [List.map_map]
      have : ∀ kv ∈ feats, (parseFeat ∘ renderFeat) kv = id kv := by
        intro kv hkv
        have h1 := (hf kv hkv).1
        show parseFeat (renderFeat kv) = kv
        obtain ⟨k, v⟩ := kv
        exact parseFeat_renderFeat h1.1 h1.2
      rw [List.map_congr_left this, List.map_id]
    simp only [parseQueryTag, hsp, hus, Bool.not_false, Bool.and_self, if_true, hsf]
    rw [hsa, hmap]
  · intro s hs
    have hsp : s.contains ' ' = false := by
      apply Bool.eq_false_iff.2
      intro hc
      have hm := List.mem_of_elem_eq_true hc
      have := hs ' ' hm
      exact absurd this (by decide)
    have hdw : s.dropWhile Char.isWhitespace = s := dropWhile_all_eq hs
    have htw : s.takeWhile (fun c => !c.isWhitespace) = s :=
      takeWhile_all_eq (fun c hc => by rw [hs c hc]; rfl)
    simp only [parseQueryTag, hsp, Bool.false_and, if_false, firstTokenWS, hdw, htw]
    rfl

/-- Witness for the amended C3 theorem at the concrete query string
`"NOUN Case=Nom|Number=Sing"` and the comma string `"NOUN,Case=Nom"`. -/
theorem c3_amended_space_grammar_witness :
    parseQueryTag (toL "NOUN" ++ ' ' :: renderFeats [(toL "Number", toL "Sing"), (toL "Case", toL "Nom")]) =
      (toL "NOUN", insSortBy pairLe [(toL "Number", toL "Sing"), (toL "Case", toL "Nom")]) ∧
    parseQueryTag (toL "NOUN,Case=Nom") = (toL "NOUN,Case=Nom", []) := by
  have h := c3_amended_space_grammar (toL "NOUN")
    [(toL "Number", toL "Sing"), (toL "Case", toL "Nom")]
    (by decide) (by decide) (by decide) (by decide)
  exact ⟨h.1, h.2 (toL "NOUN,Case=Nom") (by decide)⟩

/-! ## Claim C4: the unknown-token fallback -/

/-- Counterexample to claim C4: with unknown token `"U"` (code 0) over the
table `{"a": {"X"}}`, the stored set of the present word `"a"` is `{1}` and
does not include the unknown code 0, and the absent word `"b"` resolves to
the list holding the unknown token string itself, not the singleton of its
integer code. -/
theorem c4_counterexample :
    (∀ e ∈ wtmGet (some (toL "U"))
      (dictTrain 1 (some (toL "U")) [(toL "a", [toL "X"])]) (toL "a"), e ≠ Sum.inl 0) ∧
    wtmGet (some (toL "U")) (dictTrain 1 (some (toL "U")) [(toL "a", [toL "X"])]) (toL "b") ≠
      ([Sum.inl 0] : List (Sum Nat Str)) := by
  constructor
  · letI : Decidable (∀ e ∈ wtmGet (some (toL "U"))
        (dictTrain 1 (some (toL "U")) [(toL "a", [toL "X"])]) (toL "a"), e ≠ Sum.inl 0) :=
      List.decidableBAll _ _
    decide
  · decide

/-- Claim C4 as amended: when an unknown token is configured it occupies
vocabulary position 0, a word absent from the table resolves to the singleton
list holding the unknown token string itself (not its integer code, and
present words' stored sets receive no automatic unknown entry); when no
unknown token is configured, absent words resolve to the empty list. -/
theorem c4_amended_unknown_fallback (minFreq : Nat) (u : Str) (lbw : List (Str × List Str))
    (word : Str) (habs : getA (dictTrain minFreq (some u) lbw).wtm word = none) :
    (dictTrain minFreq (some u) lbw).i2t.head? = some u ∧
    wtmGet (some u) (dictTrain minFreq (some u) lbw) word = [Sum.inr u] ∧
    (∀ lbw2 : List (Str × List Str), ∀ w2 : Str,
      getA (dictTrain minFreq none lbw2).wtm w2 = none →
      wtmGet none (dictTrain minFreq none lbw2) w2 = []) := by
  refine ⟨rfl, ?_, ?_⟩
  · simp [wtmGet, habs]
  · intro lbw2 w2 h2
    simp [wtmGet, h2]

/-- Witness for the amended C4 theorem at the concrete vectorizer of the
counterexample and the absent word `"b"`. -/
theorem c4_amended_unknown_fallback_witness :
    wtmGet (some (toL "U")) (dictTrain 1 (some (toL "U")) [(toL "a", [toL "X"])]) (toL "b") =
      [Sum.inr (toL "U")] :=
  (c4_amended_unknown_fallback 1 (toL "U") [(toL "a", [toL "X"])] (toL "b") (by decide)).2.1

/-! ## Claim C5: frequency filtering -/

theorem getA_setA {α β : Type} [BEq α] [LawfulBEq α] [DecidableEq α]
    (m : List (α × β)) (a k : α) (b : β) :
    getA (setA m a b) k = if k = a then some b else getA m k := by
  by_cases h : k = a
  · subst h; simp [getA_setA_self]
  · simp [h, getA_setA_other m a k b h]

theorem mem_keys_setA {α β : Type} [BEq α] [LawfulBEq α]
    (m : List (α × β)) (a k : α) (b : β) :
    k ∈ (setA m a b).map Prod.fst ↔ k ∈ m.map Prod.fst ∨ k = a := by
  induction m with
  | nil => simp [setA]
  | cons p rest ih =>
    obtain ⟨k0, v0⟩ := p
    by_cases h : k0 = a
    · subst h
      simp only [setA, beq_self_eq_true, if_true, List.map_cons, List.mem_cons]
      tauto
    · simp only [setA, beq_eq_false_iff_ne.2 h, Bool.false_eq_true, if_false,
        List.map_cons, List.mem_cons, ih]
      tauto

theorem setA_keys_nodup {α β : Type} [BEq α] [LawfulBEq α]
    {m : List (α × β)} (h : (m.map Prod.fst).Nodup) (a : α) (b : β) :
    ((setA m a b).map Prod.fst).Nodup := by
  induction m with
  | nil => simp [setA]
  | cons p rest ih =>
    obtain ⟨k, v⟩ := p
    simp only [List.map_cons, List.nodup_cons] at h
    by_cases hk : k = a
    · subst hk
      simpa [setA, List.nodup_cons] using h
    · simp only [setA, beq_eq_false_iff_ne.2 hk, Bool.false_eq_true, if_false,
        List.map_cons, List.nodup_cons]
      refine ⟨?_, ih h.2⟩
      intro hm
      rcases (mem_keys_setA rest a k b).1 hm with hm1 | hm2
      · exact h.1 hm1
      · exact hk hm2

theorem getA_eq_of_mem {α β : Type} [BEq α] [LawfulBEq α] {m : List (α × β)}
    (h : (m.map Prod.fst).Nodup) {p : α × β} (hp : p ∈ m) : getA m p.1 = some p.2 := by
  induction m with
  | nil => cases hp
  | cons q rest ih =>
    obtain ⟨k, v⟩ := q
    simp only [List.map_cons, List.nodup_cons] at h
    rcases List.mem_cons.1 hp with he | hm
    · subst he; simp [getA]
    · have hne : ¬(k == p.1) = true := by
        intro hc
        exact h.1 (eq_of_beq hc ▸ List.mem_map_of_mem Prod.fst hm)
      simp only [getA, hne, Bool.false_eq_true, if_false]
      exact ih h.2 hm

theorem foldl_incrA_keys_nodup (labels : List Str) (m : List (Str × Nat))
    (h : (m.map Prod.fst).Nodup) : ((labels.foldl incrA m).map Prod.fst).Nodup := by
  induction labels generalizing m with
  | nil => exact h
  | cons l rest ih => exact ih _ (setA_keys_nodup h _ _)

theorem dictFreq_keys_nodup (lbw : List (Str × List Str)) :
    ((dictFreq lbw).map Prod.fst).Nodup := by
  suffices h : ∀ m : List (Str × Nat), (m.map Prod.fst).Nodup →
      ((lbw.foldl (fun m2 wl => wl.2.foldl incrA m2) m).map Prod.fst).Nodup by
    exact h [] (by simp)
  induction lbw with
  | nil => intro m hm; exact hm
  | cons wl rest ih => intro m hm; exact ih _ (foldl_incrA_keys_nodup _ _ hm)

theorem foldl_incrA_frame (labels : List Str) (lab : Str) (h : lab ∉ labels) :
    ∀ m, getA (labels.foldl incrA m) lab = getA m lab := by
  induction labels with
  | nil => intro m; rfl
  | cons l rest ih =>
    intro m
    have hne : lab ≠ l := fun he => h (he ▸ List.mem_cons_self l rest)
    rw [List.foldl_cons, ih (fun hm => h (List.mem_cons_of_mem l hm))]
    exact getA_setA_other m l lab _ hne

theorem freqInner_count (labels : List Str) (lab : Str) (h : labels.Nodup) :
    ∀ m : List (Str × Nat), (getA (labels.foldl incrA m) lab).getD 0 =
      (getA m lab).getD 0 + (if lab ∈ labels then 1 else 0) := by
  induction labels with
  | nil => intro m; simp
  | cons l rest ih =>
    intro m
    simp only [List.nodup_cons] at h
    by_cases he : l = lab
    · subst he
      rw [List.foldl_cons, foldl_incrA_frame rest l h.1]
      have : getA (incrA m l) l = some ((getA m l).getD 0 + 1) := getA_setA_self _ _ _
      simp [this, List.mem_cons]
    · have hne : lab ≠ l := fun hx => he hx.symm
      rw [List.foldl_cons, ih h.2]
      rw [show getA (incrA m l) lab = getA m lab from getA_setA_other m l lab _ hne]
      simp [List.mem_cons, fun hx : lab = l => he hx.symm]
      by_cases hm : lab ∈ rest <;> simp [hm, hne]

theorem dictFreq_fold_count (lbw : List (Str × List Str)) (lab : Str) :
    (∀ wl ∈ lbw, wl.2.Nodup) → ∀ m : List (Str × Nat),
      (getA (lbw.foldl (fun m2 wl => wl.2.foldl incrA m2) m) lab).getD 0 =
        (getA m lab).getD 0 + lbw.countP (fun wl => decide (lab ∈ wl.2)) := by
  induction lbw with
  | nil => intro _ m; simp
  | cons wl rest ih =>
    intro h m
    rw [List.foldl_cons, ih (fun x hx => h x (List.mem_cons_of_mem wl hx)),
      freqInner_count wl.2 lab (h wl (List.mem_cons_self wl rest)), List.countP_cons]
    by_cases hm : lab ∈ wl.2 <;> simp [hm] <;> omega

theorem dictFreq_count (lbw : List (Str × List Str)) (lab : Str)
    (h : ∀ wl ∈ lbw, wl.2.Nodup) :
    (getA (dictFreq lbw) lab).getD 0 = lbw.countP (fun wl => decide (lab ∈ wl.2)) := by
  have := dictFreq_fold_count lbw lab h []
  simpa [dictFreq, getA] using this

/-- A value that can sit in `self._t2i` after `_train`: either an integer
code pointing back into `self._i2t`, or the configured default. -/
def GoodVal (i2t : List Str) (unk : Option Str) (v : T2IVal) : Prop :=
  (∃ j, v = some (Sum.inl j) ∧ ∃ k, i2t[j]? = some k) ∨ v = unk.map Sum.inr

/-- Every value reachable in a `_t2i` table is a `GoodVal`. -/
def T2IInv (i2t : List Str) (unk : Option Str) (m : List (Str × T2IVal)) : Prop :=
  ∀ k val, getA m k = some val → GoodVal i2t unk val

theorem dictT2i0_inv (i2t : List Str) (unk : Option Str) :
    T2IInv i2t unk (dictT2i0 i2t) := by
  have hgen : ∀ l : List (Nat × Str), (∀ p ∈ l, i2t[p.1]? = some p.2) →
      ∀ m, T2IInv i2t unk m →
        T2IInv i2t unk (l.foldl (fun m2 p => setA m2 p.2 (some (Sum.inl p.1))) m) := by
    intro l
    induction l with
    | nil => intro _ m hm; exact hm
    | cons p rest ih =>
      intro hl m hm
      rw [List.foldl_cons]
      refine ih (fun x hx => hl x (List.mem_cons_of_mem p hx)) _ ?_
      intro k val hk
      rw [getA_setA] at hk
      by_cases hkp : k = p.2
      · rw [if_pos hkp] at hk
        refine Or.inl ⟨p.1, (Option.some.inj hk).symm, k, ?_⟩
        rw [hl p (List.mem_cons_self p rest), hkp]
      · rw [if_neg hkp] at hk
        exact hm k val hk
  refine hgen i2t.enum (fun p hp => ?_) [] (fun k val hk => by cases hk)
  exact List.mem_enum_iff_getElem?.1 hp

theorem t2iLookupIns_inv (i2t : List Str) (unk : Option Str)
    (m : List (Str × T2IVal)) (lab : Str) (h : T2IInv i2t unk m) :
    T2IInv i2t unk (t2iLookupIns unk m lab).2 ∧
    GoodVal i2t unk (t2iLookupIns unk m lab).1 := by
  cases hc : getA m lab with
  | some v =>
    simp only [t2iLookupIns, hc]
    exact ⟨h, h lab v hc⟩
  | none =>
    simp only [t2iLookupIns, hc]
    refine ⟨?_, Or.inr rfl⟩
    intro k val hk
    rw [getA_setA] at hk
    by_cases hkl : k = lab
    · rw [if_pos hkl] at hk
      exact Or.inr (Option.some.inj hk).symm
    · rw [if_neg hkl] at hk
      exact h k val hk

theorem trainLabelFold_inv (i2t : List Str) (unk : Option Str) (labels : List Str) :
    ∀ (vals : List T2IVal) (m : List (Str × T2IVal)), T2IInv i2t unk m →
      (∀ v ∈ vals, GoodVal i2t unk v) →
      T2IInv i2t unk ((labels.foldl (trainLabelStep unk) (vals, m)).2) ∧
      (∀ v ∈ (labels.foldl (trainLabelStep unk) (vals, m)).1, GoodVal i2t unk v) := by
  induction labels with
  | nil => intro vals m hm hv; exact ⟨hm, hv⟩
  | cons lab rest ih =>
    intro vals m hm hv
    rw [List.foldl_cons]
    have hstep := t2iLookupIns_inv i2t unk m lab hm
    refine ih _ _ hstep.1 ?_
    intro v hvm
    rcases List.mem_append.1 hvm with h1 | h2
    · exact hv v h1
    · rw [List.mem_singleton.1 h2]
      exact hstep.2

/-- A stored entry of `word_tag_mapping`: an integer code pointing back into
`self._i2t`, or the unknown token string. -/
def GoodEntry (i2t : List Str) (unk : Option Str) (e : Sum Nat Str) : Prop :=
  (∃ j, e = Sum.inl j ∧ ∃ k, i2t[j]? = some k) ∨ (∃ u, unk = some u ∧ e = Sum.inr u)

theorem dedupKeepFirst_mem {α : Type} [BEq α] [LawfulBEq α] {l : List α} {x : α} :
    x ∈ dedupKeepFirst l ↔ x ∈ l := by
  suffices h : ∀ acc : List α,
      x ∈ l.foldl (fun acc a => if acc.contains a then acc else acc ++ [a]) acc ↔
        x ∈ acc ∨ x ∈ l by
    simpa [dedupKeepFirst] using h []
  induction l with
  | nil => intro acc; simp
  | cons a rest ih =>
    intro acc
    rw [List.foldl_cons]
    by_cases hc : acc.contains a
    · rw [if_pos hc, ih]
      have ha : a ∈ acc := List.mem_of_elem_eq_true hc
      constructor
      · rintro (h1 | h2)
        · exact Or.inl h1
        · exact Or.inr (List.mem_cons_of_mem a h2)
      · rintro (h1 | h2)
        · exact Or.inl h1
        · rcases List.mem_cons.1 h2 with he | hm
          · exact Or.inl (he ▸ ha)
          · exact Or.inr hm
    · rw [if_neg hc, ih]
      simp only [List.mem_append, List.mem_singleton, List.mem_cons]
      tauto

theorem goodEntry_of_goodVal {i2t : List Str} {unk : Option Str} {v : T2IVal}
    {e : Sum Nat Str} (hv : GoodVal i2t unk v) (he : v = some e) :
    GoodEntry i2t unk e := by
  rcases hv with ⟨j, hj1, k, hj2⟩ | hun
  · rw [he] at hj1
    exact Or.inl ⟨j, Option.some.inj hj1, k, hj2⟩
  · rw [he] at hun
    cases unk with
    | none => exact absurd hun (by simp)
    | some u => exact Or.inr ⟨u, rfl, Option.some.inj hun⟩

theorem dictTrain_wtm_entries (minFreq : Nat) (unk : Option Str)
    (lbw : List (Str × List Str)) :
    ∀ word l, getA (dictTrain minFreq unk lbw).wtm word = some l →
      ∀ e ∈ l, GoodEntry (dictI2t minFreq unk lbw) unk e := by
  have hgen : ∀ (lbw2 : List (Str × List Str))
      (acc : List (Str × List (Sum Nat Str)) × List (Str × T2IVal)),
      T2IInv (dictI2t minFreq unk lbw) unk acc.2 →
      (∀ word l, getA acc.1 word = some l → ∀ e ∈ l, GoodEntry (dictI2t minFreq unk lbw) unk e) →
      ∀ word l, getA (lbw2.foldl (trainWordStep unk) acc).1 word = some l →
        ∀ e ∈ l, GoodEntry (dictI2t minFreq unk lbw) unk e := by
    intro lbw2
    induction lbw2 with
    | nil => intro acc _ hw word l hl; exact hw word l hl
    | cons wl rest ih =>
      intro acc hm hw
      rw [List.foldl_cons]
      have hfold := trainLabelFold_inv (dictI2t minFreq unk lbw) unk wl.2 [] acc.2 hm
        (fun v hv => absurd hv (List.not_mem_nil v))
      refine ih _ hfold.1 ?_
      intro word l hl e he
      rw [show (trainWordStep unk acc wl).1 =
        setA acc.1 wl.1 ((dedupKeepFirst (wl.2.foldl (trainLabelStep unk) ([], acc.2)).1).filterMap id)
        from rfl, getA_setA] at hl
      by_cases hww : word = wl.1
      · rw [if_pos hww] at hl
        rw [← Option.some.inj hl] at he
        rcases List.mem_filterMap.1 he with ⟨v, hv1, hv2⟩
        have hv3 := dedupKeepFirst_mem.1 hv1
        exact goodEntry_of_goodVal (hfold.2 v hv3) hv2
      · rw [if_neg hww] at hl
        exact hw word l hl e he
  intro word l hl
  exact hgen lbw ([], dictT2i0 (dictI2t minFreq unk lbw))
    (dictT2i0_inv _ unk) (fun w l2 h2 => by cases h2) word l hl

/-- Counterexample to claim C5: with `min_freq = 2` over a table in which the
tags `"X"` and `"Y"` each occur in one word, both tags are excluded from the
vocabulary list, yet `dim` — `len(self._t2i)` — is 2, not 0: the
`defaultdict` lookups during training insert each filtered tag as a key of
`_t2i`, so the filtered tags do count toward `dim`. -/
theorem c5_counterexample :
    (dictTrain 2 none [(toL "a", [toL "X"]), (toL "b", [toL "Y"])]).i2t = [] ∧
    dictDim (dictTrain 2 none [(toL "a", [toL "X"]), (toL "b", [toL "Y"])]) = 2 := by
  constructor
  · decide
  · decide

/-- Claim C5 as amended: a tag occurring in fewer than `min_freq` distinct
words (and differing from the configured unknown token) is excluded from the
vocabulary list `_i2t`, and no word's stored code refers to it; however such
a tag still counts toward `dim`, because the training lookups insert it as a
key of `_t2i` (witnessed by the concrete instance in the last conjunct). -/
theorem c5_amended_frequency_filter (minFreq : Nat) (unk : Option Str)
    (lbw : List (Str × List Str)) (lab : Str)
    (hnodup : ∀ wl ∈ lbw, wl.2.Nodup)
    (hfreq : lbw.countP (fun wl => decide (lab ∈ wl.2)) < minFreq)
    (hunk : unk ≠ some lab) :
    lab ∉ (dictTrain minFreq unk lbw).i2t ∧
    (∀ word : Str, ∀ j : Nat, Sum.inl j ∈ wtmGet unk (dictTrain minFreq unk lbw) word →
      ((dictTrain minFreq unk lbw).i2t)[j]? ≠ some lab) ∧
    ((dictTrain 2 none [(toL "a", [toL "X"]), (toL "b", [toL "Y"])]).i2t = [] ∧
      dictDim (dictTrain 2 none [(toL "a", [toL "X"]), (toL "b", [toL "Y"])]) = 2) := by
  have hni : lab ∉ dictI2t minFreq unk lbw := by
    intro hm
    simp only [dictI2t] at hm
    rcases List.mem_append.1 hm with h1 | h2
    · cases unk with
      | none => cases h1
      | some u =>
        exact hunk (by rw [List.mem_singleton.1 h1])
    · rcases List.mem_map.1 h2 with ⟨p, hp1, hp2⟩
      rcases List.mem_filter.1 hp1 with ⟨hp3, hp4⟩
      have hcnt : getA (dictFreq lbw) lab = some p.2 := by
        rw [← hp2]
        exact getA_eq_of_mem (dictFreq_keys_nodup lbw) hp3
      have hcount := dictFreq_count lbw lab hnodup
      rw [hcnt] at hcount
      simp only [Option.getD_some] at hcount
      rw [← hcount] at hfreq
      have : minFreq ≤ p.2 := of_decide_eq_true hp4
      omega
  refine ⟨hni, ?_, ⟨by decide, by decide⟩⟩
  intro word j hj
  cases hgw : getA (dictTrain minFreq unk lbw).wtm word with
  | some l =>
    have hmem : Sum.inl j ∈ l := by
      simpa only [wtmGet, hgw] using hj
    have hge := dictTrain_wtm_entries minFreq unk lbw word l hgw (Sum.inl j) hmem
    rcases hge with ⟨j', hj1, k, hj2⟩ | ⟨u, hu1, hu2⟩
    · have hjj : j' = j := (Sum.inl.inj hj1).symm
      intro hc
      rw [hjj] at hj2
      rw [show (dictTrain minFreq unk lbw).i2t = dictI2t minFreq unk lbw from rfl] at hc
      have hkl : k = lab := by
        have : some k = some lab := by rw [← hj2, hc]
        exact Option.some.inj this
      have hkm : k ∈ dictI2t minFreq unk lbw := List.getElem?_mem hj2
      exact hni (hkl ▸ hkm)
    · exact absurd hu2 (by simp)
  | none =>
    simp only [wtmGet, hgw] at hj
    cases unk with
    | some u => simp at hj
    | none => cases hj

/-- Witness for the amended C5 theorem: the tag `"X"` occurs in 1 < 2 words
and is excluded from the vocabulary list of the concrete table. -/
theorem c5_amended_frequency_filter_witness :
    toL "X" ∉ (dictTrain 2 none [(toL "a", [toL "X"]), (toL "b", [toL "Y"])]).i2t :=
  (c5_amended_frequency_filter 2 none [(toL "a", [toL "X"]), (toL "b", [toL "Y"])] (toL "X")
    (by decide) (by decide) (by decide)).1

/-! ## Structural invariants of the tag trie

`_make_tag_trie` only ever appends fresh arena slots and links each fresh
slot from exactly one `(node, key, value)` place, so the arena is a forest
whose child indices strictly exceed their parents' and whose branch keys
strictly increase along every path (tags are inserted with sorted feature
lists).  `CoreInv` collects these structural facts. -/

structure CoreInv (t : Trie) : Prop where
  dataLen : t.data.length = t.nodes.length
  nodesLen : 0 < t.nodes.length
  rootPos : ∀ pos r, rootOf t pos = some r → 0 < r ∧ r < t.nodes.length
  rootInj : ∀ p1 p2 r, rootOf t p1 = some r → rootOf t p2 = some r → p1 = p2
  childBound : ∀ n k v c, childAt t n k v = some c → n < c ∧ c < t.nodes.length
  parentInj : ∀ n1 k1 v1 n2 k2 v2 c, childAt t n1 k1 v1 = some c →
    childAt t n2 k2 v2 = some c → n1 = n2 ∧ k1 = k2 ∧ v1 = v2
  rootNotChild : ∀ pos r n k v, rootOf t pos = some r → childAt t n k v = some r → False
  childKeysGT : ∀ n k v c k2 v2 c2, childAt t n k v = some c →
    childAt t c k2 v2 = some c2 → lexLt k k2 = true
  nodeKeysNodup : ∀ i, ((getNode t i).map Prod.fst).Nodup
  valKeysNodup : ∀ i b, b ∈ getNode t i → (b.2.map Prod.fst).Nodup

theorem mem_of_getA {α β : Type} [BEq α] [LawfulBEq α] {m : List (α × β)} {a : α} {b : β}
    (h : getA m a = some b) : (a, b) ∈ m := by
  induction m with
  | nil => cases h
  | cons p rest ih =>
    obtain ⟨k, v⟩ := p
    by_cases hk : k = a
    · subst hk
      simp only [getA, beq_self_eq_true, if_true] at h
      rw [← Option.some.inj h]
      exact List.mem_cons_self _ _
    · simp only [getA, beq_eq_false_iff_ne.2 hk, Bool.false_eq_true, if_false] at h
      exact List.mem_cons_of_mem _ (ih h)

theorem followPath_append (t : Trie) (r : Nat) (p q : List (Str × Str)) :
    followPath t r (p ++ q) = (followPath t r p).bind fun m => followPath t m q := by
  induction p generalizing r with
  | nil => rfl
  | cons kv rest ih =>
    simp only [List.cons_append, followPath]
    cases childAt t r kv.1 kv.2 with
    | none => rfl
    | some c => exact ih c

theorem followPath_snoc {t : Trie} {r : Nat} {p : List (Str × Str)} {kv : Str × Str} {n : Nat} :
    followPath t r (p ++ [kv]) = some n ↔
      ∃ m, followPath t r p = some m ∧ childAt t m kv.1 kv.2 = some n := by
  rw [followPath_append]
  cases followPath t r p with
  | none => simp
  | some m => simp [followPath]

theorem getNode_of_ge (t : Trie) (n : Nat) (h : t.nodes.length ≤ n) : getNode t n = [] := by
  rw [getNode, List.getD_eq_default]
  omega

theorem childAt_of_ge (t : Trie) (n : Nat) (k v : Str) (h : t.nodes.length ≤ n) :
    childAt t n k v = none := by
  rw [childAt, getNode_of_ge t n h]
  rfl

theorem reach_unique (t : Trie) (hc : CoreInv t) :
    ∀ (p1 p2 : List (Str × Str)) (pos1 pos2 : Str) (r1 r2 n : Nat),
      rootOf t pos1 = some r1 → rootOf t pos2 = some r2 →
      followPath t r1 p1 = some n → followPath t r2 p2 = some n →
      pos1 = pos2 ∧ p1 = p2 := by
  intro p1
  induction p1 using List.reverseRecOn with
  | nil =>
    intro p2 pos1 pos2 r1 r2 n h1 h2 hf1 hf2
    have hn : n = r1 := (Option.some.inj hf1).symm
    subst hn
    cases p2 using List.reverseRecOn with
    | nil =>
      have : n = r2 := (Option.some.inj hf2).symm
      exact ⟨hc.rootInj pos1 pos2 n h1 (this ▸ h2), rfl⟩
    | append_singleton q kv =>
      rcases followPath_snoc.1 hf2 with ⟨m, _, hcm⟩
      exact absurd h1 (fun h1x => hc.rootNotChild pos1 n m kv.1 kv.2 h1x hcm)
  | append_singleton q1 kv1 ih =>
    intro p2 pos1 pos2 r1 r2 n h1 h2 hf1 hf2
    rcases followPath_snoc.1 hf1 with ⟨m1, hm1, hcm1⟩
    cases p2 using List.reverseRecOn with
    | nil =>
      have hn : n = r2 := (Option.some.inj hf2).symm
      exact absurd h2 (fun h2x => hc.rootNotChild pos2 n m1 kv1.1 kv1.2 (hn ▸ h2x) hcm1)
    | append_singleton q2 kv2 =>
      rcases followPath_snoc.1 hf2 with ⟨m2, hm2, hcm2⟩
      obtain ⟨hmm, hkk, hvv⟩ := hc.parentInj m1 kv1.1 kv1.2 m2 kv2.1 kv2.2 n hcm1 hcm2
      obtain ⟨hp, hq⟩ := ih q2 pos1 pos2 r1 r2 m1 h1 h2 hm1 (hmm ▸ hm2)
      refine ⟨hp, ?_⟩
      rw [hq]
      have : kv1 = kv2 := Prod.ext hkk hvv
      rw [this]

/-! ## Order facts about the sort used at build and query time -/

theorem pairLt_trans {a b c : Str × Str} (h1 : pairLt a b = true) (h2 : pairLt b c = true) :
    pairLt a c = true := by
  simp only [pairLt, Bool.or_eq_true, Bool.and_eq_true, beq_iff_eq] at h1 h2 ⊢
  rcases h1 with h1 | ⟨h1e, h1v⟩
  · rcases h2 with h2 | ⟨h2e, h2v⟩
    · exact Or.inl (lexLt_trans h1 h2)
    · exact Or.inl (h2e ▸ h1)
  · rcases h2 with h2 | ⟨h2e, h2v⟩
    · exact Or.inl (h1e ▸ h2)
    · exact Or.inr ⟨h1e.trans h2e, lexLt_trans h1v h2v⟩

theorem pairLt_eq_of_not {a b : Str × Str} (h1 : pairLt a b = false) (h2 : pairLt b a = false) :
    a = b := by
  simp only [pairLt, Bool.or_eq_false_iff, Bool.and_eq_false_iff] at h1 h2
  have hk : a.1 = b.1 := lexLt_eq_of_not h1.1 h2.1
  have hv : a.2 = b.2 := by
    rcases h1.2 with h1v | h1v
    · exact absurd (beq_iff_eq.2 hk) (by simp [h1v])
    · rcases h2.2 with h2v | h2v
      · exact absurd (beq_iff_eq.2 hk.symm) (by simp [h2v])
      · exact lexLt_eq_of_not h1v h2v
  exact Prod.ext hk hv

theorem pairLe_trans {a b c : Str × Str} (h1 : pairLe a b = true) (h2 : pairLe b c = true) :
    pairLe a c = true := by
  simp only [pairLe, Bool.not_eq_true'] at h1 h2 ⊢
  by_contra hca
  have hca2 : pairLt c a = true := by
    cases hcv : pairLt c a with
    | true => rfl
    | false => exact absurd hcv hca
  cases hab : pairLt a b with
  | true =>
    have : pairLt c b = true := pairLt_trans hca2 hab
    rw [this] at h2; cases h2
  | false =>
    have hae : a = b ∨ pairLt b a = true := by
      cases hba : pairLt b a with
      | true => exact Or.inr rfl
      | false => exact Or.inl (pairLt_eq_of_not hab hba)
    rcases hae with he | hlt
    · rw [he] at hca2; rw [hca2] at h2; cases h2
    · rw [hlt] at h1; cases h1

theorem pairLt_irrefl (a : Str × Str) : pairLt a a = false := by
  simp [pairLt, lexLt_irrefl]

theorem pairLe_total (a b : Str × Str) : pairLe a b = true ∨ pairLe b a = true := by
  simp only [pairLe, Bool.not_eq_true']
  cases hab : pairLt a b with
  | true =>
    left
    cases hba : pairLt b a with
    | true =>
      have h1 := pairLt_trans hab hba
      rw [pairLt_irrefl a] at h1
      cases h1
    | false => rfl
  | false =>
    right
    rfl

theorem mem_insertSorted {α : Type} (le : α → α → Bool) (a x : α) (l : List α) :
    x ∈ insertSorted le a l ↔ x = a ∨ x ∈ l := by
  induction l with
  | nil => simp [insertSorted]
  | cons b bs ih =>
    by_cases hab : le a b = true
    · rw [insertSorted, if_pos hab]
      simp [List.mem_cons]
    · rw [insertSorted, if_neg hab]
      simp only [List.mem_cons, ih]
      tauto

theorem insertSorted_perm {α : Type} (le : α → α → Bool) (a : α) (l : List α) :
    List.Perm (insertSorted le a l) (a :: l) := by
  induction l with
  | nil => exact List.Perm.refl _
  | cons b bs ih =>
    by_cases hab : le a b = true
    · rw [insertSorted, if_pos hab]
    · rw [insertSorted, if_neg hab]
      exact (List.Perm.cons b ih).trans (List.Perm.swap a b bs)

theorem insSortBy_perm {α : Type} (le : α → α → Bool) (l : List α) :
    List.Perm (insSortBy le l) l := by
  induction l with
  | nil => exact List.Perm.refl _
  | cons a rest ih =>
    exact (insertSorted_perm le a _).trans (List.Perm.cons a ih)

theorem insertSorted_pairwise {α : Type} {le : α → α → Bool}
    (htrans : ∀ x y z, le x y = true → le y z = true → le x z = true)
    (htot : ∀ x y, le x y = true ∨ le y x = true)
    (a : α) (l : List α) (h : l.Pairwise (fun x y => le x y = true)) :
    (insertSorted le a l).Pairwise (fun x y => le x y = true) := by
  induction l with
  | nil => simp [insertSorted]
  | cons b bs ih =>
    rw [List.pairwise_cons] at h
    by_cases hab : le a b = true
    · rw [insertSorted, if_pos hab]
      refine List.pairwise_cons.2 ⟨?_, List.pairwise_cons.2 ⟨h.1, h.2⟩⟩
      intro x hx
      rcases List.mem_cons.1 hx with he | hm
      · exact he ▸ hab
      · exact htrans a b x hab (h.1 x hm)
    · rw [insertSorted, if_neg hab]
      refine List.pairwise_cons.2 ⟨?_, ih h.2⟩
      intro x hx
      rcases (mem_insertSorted le a x bs).1 hx with he | hm
      · subst he
        rcases htot b x with h1 | h2
        · exact h1
        · exact absurd h2 hab
      · exact h.1 x hm

theorem insSortBy_pairwise {α : Type} {le : α → α → Bool}
    (htrans : ∀ x y z, le x y = true → le y z = true → le x z = true)
    (htot : ∀ x y, le x y = true ∨ le y x = true) (l : List α) :
    (insSortBy le l).Pairwise (fun x y => le x y = true) := by
  induction l with
  | nil => simp [insSortBy]
  | cons a rest ih => exact insertSorted_pairwise htrans htot a _ ih

/-- Strictly ascending feature keys along a path, the shape every inserted
sorted feature list with distinct keys has. -/
def StrictKeys (F : List (Str × Str)) : Prop :=
  List.Chain' (fun a b => lexLt a.1 b.1 = true) F

theorem strictKeys_of_sorted_nodup {F : List (Str × Str)}
    (hp : F.Pairwise (fun x y => pairLe x y = true))
    (hn : (F.map Prod.fst).Nodup) : StrictKeys F := by
  have hne : F.Pairwise (fun x y => x.1 ≠ y.1) := List.pairwise_map.1 hn
  have h2 : F.Pairwise (fun x y => lexLt x.1 y.1 = true) := by
    refine (hp.and hne).imp ?_
    rintro x y ⟨hle, hnex⟩
    have hyx : lexLt y.1 x.1 = false := by
      have hpf : pairLt y x = false := by
        simpa only [pairLe, Bool.not_eq_true'] using hle
      simp only [pairLt, Bool.or_eq_false_iff] at hpf
      exact hpf.1
    cases hxy : lexLt x.1 y.1 with
    | true => rfl
    | false => exact absurd (lexLt_eq_of_not hxy hyx) hnex
  exact h2.chain'

/-! ## The arena-extension step of `_make_tag_trie` -/

theorem getD_set_self {α : Type} (l : List α) (i : Nat) (a d : α) (h : i < l.length) :
    (l.set i a).getD i d = a := by
  rw [List.getD_eq_getElem?_getD, List.getElem?_set_self (by simpa using h)]
  rfl

theorem getD_set_other {α : Type} (l : List α) (i n : Nat) (a d : α) (h : n ≠ i) :
    (l.set i a).getD n d = l.getD n d := by
  rw [List.getD_eq_getElem?_getD, List.getElem?_set_ne (fun he => h he.symm),
    ← List.getD_eq_getElem?_getD]

theorem mem_setA {α β : Type} [BEq α] [LawfulBEq α] {m : List (α × β)} {a : α} {b : β}
    {p : α × β} (h : p ∈ setA m a b) : p ∈ m ∨ p = (a, b) := by
  induction m with
  | nil => simpa [setA] using h
  | cons q rest ih =>
    obtain ⟨k, v⟩ := q
    by_cases hk : k = a
    · subst hk
      simp only [setA, beq_self_eq_true, if_true, List.mem_cons] at h
      rcases h with he | hm
      · exact Or.inr he
      · exact Or.inl (List.mem_cons_of_mem _ hm)
    · simp only [setA, beq_eq_false_iff_ne.2 hk, Bool.false_eq_true, if_false,
        List.mem_cons] at h
      rcases h with he | hm
      · exact Or.inl (he ▸ List.mem_cons_self _ _)
      · rcases ih hm with h1 | h2
        · exact Or.inl (List.mem_cons_of_mem _ h1)
        · exact Or.inr h2

/-- The state after the `child is None` branch of the feature walk: the
current node gains the `(key, value) -> fresh index` link, a fresh empty node
and a fresh `None` data slot are appended. -/
def extendTrie (t : Trie) (start : Nat) (k v : Str) : Trie :=
  { nodes := t.nodes.set start
      (setA (getNode t start) k
        (setA ((getA (getNode t start) k).getD []) v t.nodes.length)) ++ [[]],
    startNodesForPos := t.startNodesForPos,
    data := t.data ++ [none] }

theorem insertFeats_miss_eq (t : Trie) (start : Nat) (kv : Str × Str)
    (rest : List (Str × Str))
    (hmiss : getA ((getA (getNode t start) kv.1).getD []) kv.2 = none) :
    insertFeats t start (kv :: rest) =
      insertFeats (extendTrie t start kv.1 kv.2) t.nodes.length rest := by
  simp only [insertFeats, hmiss, extendTrie]

theorem insertFeats_hit_eq (t : Trie) (start : Nat) (kv : Str × Str)
    (rest : List (Str × Str)) (child : Nat)
    (hhit : getA ((getA (getNode t start) kv.1).getD []) kv.2 = some child) :
    insertFeats t start (kv :: rest) = insertFeats t child rest := by
  simp only [insertFeats, hhit]

theorem extendTrie_len (t : Trie) (start : Nat) (k v : Str) :
    (extendTrie t start k v).nodes.length = t.nodes.length + 1 ∧
    (extendTrie t start k v).data.length = t.data.length + 1 := by
  constructor
  · simp [extendTrie]
  · simp [extendTrie]

theorem extendTrie_getNode (t : Trie) (start : Nat) (k v : Str)
    (hs : start < t.nodes.length) (n : Nat) :
    getNode (extendTrie t start k v) n =
      if n = start then
        setA (getNode t start) k
          (setA ((getA (getNode t start) k).getD []) v t.nodes.length)
      else if n = t.nodes.length then [] else getNode t n := by
  show (t.nodes.set start _ ++ [[]]).getD n [] = _
  by_cases h1 : n = start
  · subst h1
    rw [if_pos rfl, List.getD_append _ _ _ _ (by simpa using hs)]
    exact getD_set_self _ _ _ _ hs
  · rw [if_neg h1]
    by_cases h2 : n = t.nodes.length
    · subst h2
      rw [if_pos rfl, List.getD_append_right _ _ _ _ (by simp), List.length_set]
      simp
    · rw [if_neg h2]
      by_cases h3 : n < t.nodes.length
      · rw [List.getD_append _ _ _ _ (by simpa using h3)]
        exact getD_set_other _ _ _ _ _ h1
      · have h4 : t.nodes.length + 1 ≤ n := by omega
        rw [List.getD_eq_default _ _ (by simpa using h4)]
        rw [getNode, List.getD_eq_default _ _ (by omega)]

theorem extendTrie_dataAt (t : Trie) (start : Nat) (k v : Str) (i : Nat)
    (hdl : t.data.length = t.nodes.length) :
    dataAt (extendTrie t start k v) i = dataAt t i := by
  show (t.data ++ [none]).getD i none = t.data.getD i none
  by_cases h : i < t.data.length
  · rw [List.getD_append _ _ _ _ (by simpa using h)]
  · rw [List.getD_eq_default t.data _ (by omega)]
    by_cases h2 : i = t.data.length
    · subst h2
      rw [List.getD_append_right _ _ _ _ (le_refl _), Nat.sub_self]
      rfl
    · have h4 : t.data.length + 1 ≤ i := by omega
      rw [List.getD_eq_default _ _ (by simpa using h4)]

theorem extendTrie_childAt_new (t : Trie) (start : Nat) (k v : Str)
    (hs : start < t.nodes.length) :
    childAt (extendTrie t start k v) start k v = some t.nodes.length := by
  rw [childAt, extendTrie_getNode t start k v hs start, if_pos rfl, getA_setA_self]
  show getA (setA ((getA (getNode t start) k).getD []) v t.nodes.length) v = _
  rw [getA_setA_self]

theorem extendTrie_childAt_frame (t : Trie) (start : Nat) (k v : Str)
    (hs : start < t.nodes.length) :
    ∀ n k2 v2, ¬(n = start ∧ k2 = k ∧ v2 = v) →
      childAt (extendTrie t start k v) n k2 v2 = childAt t n k2 v2 := by
  intro n k2 v2 hne
  by_cases h1 : n = start
  · subst h1
    rw [childAt, extendTrie_getNode t n k v hs n, if_pos rfl]
    by_cases h2 : k2 = k
    · subst h2
      have hv : v2 ≠ v := by tauto
      rw [getA_setA_self]
      show getA (setA ((getA (getNode t n) k2).getD []) v t.nodes.length) v2 = _
      rw [getA_setA_other _ _ _ _ hv, childAt]
      cases hnk : getA (getNode t n) k2 with
      | some vd => simp [hnk]
      | none => simp [hnk, getA]
    · rw [getA_setA_other _ _ _ _ h2, childAt]
  · rw [childAt, extendTrie_getNode t start k v hs n, if_neg h1]
    by_cases h2 : n = t.nodes.length
    · subst h2
      rw [if_pos rfl, childAt, getNode_of_ge t _ (le_refl _)]
    · rw [if_neg h2, childAt]

theorem extendTrie_childAt_char (t : Trie) (start : Nat) (k v : Str)
    (hs : start < t.nodes.length) (n : Nat) (k2 v2 : Str) (c : Nat)
    (hcc : childAt (extendTrie t start k v) n k2 v2 = some c) :
    childAt t n k2 v2 = some c ∨ (n = start ∧ k2 = k ∧ v2 = v ∧ c = t.nodes.length) := by
  by_cases he : n = start ∧ k2 = k ∧ v2 = v
  · obtain ⟨h1, h2, h3⟩ := he
    subst h1; subst h2; subst h3
    rw [extendTrie_childAt_new t n k2 v2 hs] at hcc
    exact Or.inr ⟨rfl, rfl, rfl, (Option.some.inj hcc).symm⟩
  · rw [extendTrie_childAt_frame t start k v hs n k2 v2 he] at hcc
    exact Or.inl hcc

theorem extendTrie_core (t : Trie) (start : Nat) (k v : Str)
    (hc : CoreInv t) (hs : start < t.nodes.length)
    (hmiss : getA ((getA (getNode t start) k).getD []) v = none)
    (hin : ∀ n0 k0 v0, childAt t n0 k0 v0 = some start → lexLt k0 k = true) :
    CoreInv (extendTrie t start k v) := by
  have hlen := (extendTrie_len t start k v).1
  have hroots : ∀ pos, rootOf (extendTrie t start k v) pos = rootOf t pos := fun _ => rfl
  have hchar := extendTrie_childAt_char t start k v hs
  have hnew := extendTrie_childAt_new t start k v hs
  have hnoOld : childAt t start k v = none := by
    rw [childAt]
    cases hnk : getA (getNode t start) k with
    | none => rfl
    | some vd =>
      show getA vd v = none
      have hvd : ((getA (getNode t start) k).getD []) = vd := by rw [hnk]; rfl
      rw [← hvd]
      exact hmiss
  refine ⟨?_, ?_, ?_, ?_, ?_, ?_, ?_, ?_, ?_, ?_⟩
  · show (t.data ++ [none]).length = _
    rw [hlen]
    simp [hc.dataLen]
  · rw [hlen]; omega
  · intro pos r hr
    rw [hroots] at hr
    have := hc.rootPos pos r hr
    omega
  · intro p1 p2 r h1 h2
    rw [hroots] at h1 h2
    exact hc.rootInj p1 p2 r h1 h2
  · intro n k2 v2 c hcc
    rcases hchar n k2 v2 c hcc with h | ⟨h1, _, _, h4⟩
    · have := hc.childBound n k2 v2 c h
      omega
    · subst h1; subst h4
      omega
  · intro n1 k1 v1 n2 k2 v2 c h1 h2
    rcases hchar n1 k1 v1 c h1 with ha | ⟨ha1, ha2, ha3, ha4⟩
    · rcases hchar n2 k2 v2 c h2 with hb | ⟨hb1, hb2, hb3, hb4⟩
      · exact hc.parentInj n1 k1 v1 n2 k2 v2 c ha hb
      · subst hb4
        have := hc.childBound n1 k1 v1 _ ha
        omega
    · rcases hchar n2 k2 v2 c h2 with hb | ⟨hb1, hb2, hb3, hb4⟩
      · subst ha4
        have := hc.childBound n2 k2 v2 _ hb
        omega
      · subst ha1; subst ha2; subst ha3
        subst hb1; subst hb2; subst hb3
        exact ⟨rfl, rfl, rfl⟩
  · intro pos r n0 k0 v0 hr hcc
    rw [hroots] at hr
    rcases hchar n0 k0 v0 r hcc with h | ⟨_, _, _, h4⟩
    · exact hc.rootNotChild pos r n0 k0 v0 hr h
    · have := hc.rootPos pos r hr
      omega
  · intro n k2 v2 c k3 v3 c2 h1 h2
    rcases hchar n k2 v2 c h1 with ha | ⟨ha1, ha2, ha3, ha4⟩
    · rcases hchar c k3 v3 c2 h2 with hb | ⟨hb1, hb2, hb3, hb4⟩
      · exact hc.childKeysGT n k2 v2 c k3 v3 c2 ha hb
      · subst hb1; subst hb2
        exact hin n k2 v2 ha
    · subst ha4
      rcases hchar _ k3 v3 c2 h2 with hb | ⟨hb1, hb2, hb3, hb4⟩
      · rw [childAt, getNode_of_ge t _ (le_refl _)] at hb
        cases hb
      · have := hs
        omega
  · intro i
    rw [extendTrie_getNode t start k v hs i]
    by_cases h1 : i = start
    · rw [if_pos h1]
      exact setA_keys_nodup (hc.nodeKeysNodup start) _ _
    · rw [if_neg h1]
      by_cases h2 : i = t.nodes.length
      · rw [if_pos h2]; simp
      · rw [if_neg h2]
        exact hc.nodeKeysNodup i
  · intro i b hb
    rw [extendTrie_getNode t start k v hs i] at hb
    by_cases h1 : i = start
    · rw [if_pos h1] at hb
      rcases mem_setA hb with hm | he
      · exact hc.valKeysNodup start b hm
      · rw [he]
        cases hnk : getA (getNode t start) k with
        | some vd =>
          have hmem : (k, vd) ∈ getNode t start := mem_of_getA hnk
          show ((setA ((some vd).getD []) v t.nodes.length).map Prod.fst).Nodup
          simp only [Option.getD_some]
          exact setA_keys_nodup (hc.valKeysNodup start (k, vd) hmem) v t.nodes.length
        | none =>
          show ((setA ((none : Option (List (Str × Nat))).getD []) v t.nodes.length).map
            Prod.fst).Nodup
          simp [setA]
    · rw [if_neg h1] at hb
      by_cases h2 : i = t.nodes.length
      · rw [if_pos h2] at hb
        cases hb
      · rw [if_neg h2] at hb
        exact hc.valKeysNodup i b hb

theorem strictKeys_tail {kv : Str × Str} {rest : List (Str × Str)}
    (h : StrictKeys (kv :: rest)) : StrictKeys rest := List.Chain'.tail h

theorem strictKeys_pairwise {F : List (Str × Str)} (h : StrictKeys F) :
    F.Pairwise (fun a b => lexLt a.1 b.1 = true) := by
  induction F with
  | nil => exact List.Pairwise.nil
  | cons kv rest ih =>
    cases rest with
    | nil => simp
    | cons kv2 rest2 =>
      have h : lexLt kv.1 kv2.1 = true ∧
          List.Chain' (fun a b => lexLt a.1 b.1 = true) (kv2 :: rest2) := by
        have h0 : List.Chain' (fun a b => lexLt a.1 b.1 = true) (kv :: kv2 :: rest2) := h
        rw [List.chain'_cons] at h0
        exact h0
      have hp2 := ih h.2
      refine List.pairwise_cons.2 ⟨?_, hp2⟩
      intro x hx
      rcases List.mem_cons.1 hx with he | hm
      · exact he ▸ h.1
      · exact lexLt_trans h.1 ((List.pairwise_cons.1 hp2).1 x hm)

theorem strictKeys_head_lt {kv : Str × Str} {rest : List (Str × Str)}
    (h : StrictKeys (kv :: rest)) : ∀ kv2 ∈ rest, lexLt kv.1 kv2.1 = true := by
  have hp := strictKeys_pairwise h
  exact (List.pairwise_cons.1 hp).1

theorem miss_no_edge (t : Trie) (start : Nat) (k v : Str)
    (hmiss : getA ((getA (getNode t start) k).getD []) v = none) :
    childAt t start k v = none := by
  rw [childAt]
  cases hnk : getA (getNode t start) k with
  | none => rfl
  | some vd =>
    show getA vd v = none
    have hvd : ((getA (getNode t start) k).getD []) = vd := by rw [hnk]; rfl
    rw [← hvd]
    exact hmiss

theorem hit_edge (t : Trie) (start : Nat) (k v : Str) (child : Nat)
    (hhit : getA ((getA (getNode t start) k).getD []) v = some child) :
    childAt t start k v = some child := by
  rw [childAt]
  cases hnk : getA (getNode t start) k with
  | none =>
    exfalso
    have hvd : ((getA (getNode t start) k).getD []) = ([] : List (Str × Nat)) := by
      rw [hnk]; rfl
    rw [hvd] at hhit
    cases hhit
  | some vd =>
    show getA vd v = some child
    have hvd : ((getA (getNode t start) k).getD []) = vd := by rw [hnk]; rfl
    rw [← hvd]
    exact hhit

/-- What one `insertFeats` walk guarantees: the structural invariant is kept,
roots and terminal data are untouched, every old edge survives, every new
edge targets a fresh index, the walked path now exists, and every fresh node
lies on the walked path. -/
structure IFSpec (t : Trie) (start : Nat) (F : List (Str × Str)) (t' : Trie) (e : Nat) : Prop where
  core : CoreInv t'
  lenMono : t.nodes.length ≤ t'.nodes.length
  endLt : e < t'.nodes.length
  rootsEq : t'.startNodesForPos = t.startNodesForPos
  dataEq : ∀ i, dataAt t' i = dataAt t i
  path : followPath t' start F = some e
  edgePres : ∀ n k v c, childAt t n k v = some c → childAt t' n k v = some c
  edgeChar : ∀ n k v c, childAt t' n k v = some c →
    childAt t n k v = some c ∨ t.nodes.length ≤ c
  freshOnPath : ∀ n, t.nodes.length ≤ n → n < t'.nodes.length →
    ∃ i, i ≤ F.length ∧ followPath t' start (F.take i) = some n

theorem insertFeats_spec : ∀ (F : List (Str × Str)) (t : Trie) (start : Nat),
    CoreInv t → start < t.nodes.length → StrictKeys F →
    (∀ n0 k0 v0, childAt t n0 k0 v0 = some start → ∀ kv ∈ F, lexLt k0 kv.1 = true) →
    IFSpec t start F (insertFeats t start F).1 (insertFeats t start F).2 := by
  intro F
  induction F with
  | nil =>
    intro t start hc hs _ _
    show IFSpec t start [] t start
    exact {
      core := hc
      lenMono := le_refl _
      endLt := hs
      rootsEq := rfl
      dataEq := fun _ => rfl
      path := rfl
      edgePres := fun _ _ _ _ h => h
      edgeChar := fun _ _ _ _ h => Or.inl h
      freshOnPath := fun n h1 h2 => absurd h2 (by omega) }
  | cons kv rest ih =>
    intro t start hc hs hkeys hin
    cases hm : getA ((getA (getNode t start) kv.1).getD []) kv.2 with
    | some child =>
      have heq := insertFeats_hit_eq t start kv rest child hm
      have hedge : childAt t start kv.1 kv.2 = some child := hit_edge t start kv.1 kv.2 child hm
      have hchildlt := (hc.childBound _ _ _ _ hedge).2
      have hrest : StrictKeys rest := strictKeys_tail hkeys
      have hin2 : ∀ n0 k0 v0, childAt t n0 k0 v0 = some child →
          ∀ kv2 ∈ rest, lexLt k0 kv2.1 = true := by
        intro n0 k0 v0 h0 kv2 hm2
        obtain ⟨he1, he2, he3⟩ := hc.parentInj n0 k0 v0 start kv.1 kv.2 child h0 hedge
        rw [he2]
        exact strictKeys_head_lt hkeys kv2 hm2
      have spec := ih t child hc hchildlt hrest hin2
      rw [heq]
      exact {
        core := spec.core
        lenMono := spec.lenMono
        endLt := spec.endLt
        rootsEq := spec.rootsEq
        dataEq := spec.dataEq
        path := by
          show (childAt _ start kv.1 kv.2).bind _ = _
          rw [spec.edgePres _ _ _ _ hedge]
          exact spec.path
        edgePres := spec.edgePres
        edgeChar := spec.edgeChar
        freshOnPath := by
          intro n h1 h2
          rcases spec.freshOnPath n h1 h2 with ⟨i, hi1, hi2⟩
          refine ⟨i + 1, by simp only [List.length_cons]; omega, ?_⟩
          show (childAt _ start kv.1 kv.2).bind _ = some n
          rw [spec.edgePres _ _ _ _ hedge]
          exact hi2 }
    | none =>
      have heq := insertFeats_miss_eq t start kv rest hm
      have hinK : ∀ n0 k0 v0, childAt t n0 k0 v0 = some start → lexLt k0 kv.1 = true :=
        fun n0 k0 v0 h0 => hin n0 k0 v0 h0 kv (List.mem_cons_self kv rest)
      have hcore1 := extendTrie_core t start kv.1 kv.2 hc hs hm hinK
      have hlen1 := (extendTrie_len t start kv.1 kv.2).1
      have hnew := extendTrie_childAt_new t start kv.1 kv.2 hs
      have hchar1 := extendTrie_childAt_char t start kv.1 kv.2 hs
      have hframe1 := extendTrie_childAt_frame t start kv.1 kv.2 hs
      have hrest : StrictKeys rest := strictKeys_tail hkeys
      have hin2 : ∀ n0 k0 v0,
          childAt (extendTrie t start kv.1 kv.2) n0 k0 v0 = some t.nodes.length →
          ∀ kv2 ∈ rest, lexLt k0 kv2.1 = true := by
        intro n0 k0 v0 h0 kv2 hm2
        rcases hchar1 n0 k0 v0 _ h0 with hOld | ⟨h1, h2, h3, h4⟩
        · have := (hc.childBound _ _ _ _ hOld).2
          omega
        · rw [h2]
          exact strictKeys_head_lt hkeys kv2 hm2
      have spec := ih (extendTrie t start kv.1 kv.2) t.nodes.length hcore1 (by omega) hrest hin2
      rw [heq]
      exact {
        core := spec.core
        lenMono := by
          have := spec.lenMono
          omega
        endLt := spec.endLt
        rootsEq := by rw [spec.rootsEq]; rfl
        dataEq := by
          intro i
          rw [spec.dataEq i, extendTrie_dataAt t start kv.1 kv.2 i hc.dataLen]
        path := by
          show (childAt _ start kv.1 kv.2).bind _ = _
          rw [spec.edgePres _ _ _ _ hnew]
          exact spec.path
        edgePres := by
          intro n k2 v2 c h0
          refine spec.edgePres _ _ _ _ ?_
          have hne : ¬(n = start ∧ k2 = kv.1 ∧ v2 = kv.2) := by
            rintro ⟨a, b, cc⟩
            rw [a, b, cc] at h0
            rw [miss_no_edge t start kv.1 kv.2 hm] at h0
            exact Option.noConfusion h0
          rw [hframe1 n k2 v2 hne]
          exact h0
        edgeChar := by
          intro n k2 v2 c h0
          rcases spec.edgeChar n k2 v2 c h0 with h1 | h1
          · rcases hchar1 n k2 v2 c h1 with h2 | ⟨_, _, _, h4⟩
            · exact Or.inl h2
            · right
              omega
          · right
            omega
        freshOnPath := by
          intro n h1 h2
          by_cases hn : n = t.nodes.length
          · refine ⟨1, by simp, ?_⟩
            show (childAt _ start kv.1 kv.2).bind _ = some n
            rw [spec.edgePres _ _ _ _ hnew]
            rw [hn]
            rfl
          · have h3 : (extendTrie t start kv.1 kv.2).nodes.length ≤ n := by omega
            rcases spec.freshOnPath n h3 h2 with ⟨i, hi1, hi2⟩
            refine ⟨i + 1, by simp only [List.length_cons]; omega, ?_⟩
            show (childAt _ start kv.1 kv.2).bind _ = some n
            rw [spec.edgePres _ _ _ _ hnew]
            exact hi2 }

theorem fresh_stays {t t' : Trie}
    (hchar : ∀ n k v c, childAt t' n k v = some c →
      childAt t n k v = some c ∨ t.nodes.length ≤ c) :
    ∀ (p : List (Str × Str)) (m n : Nat), t.nodes.length ≤ m →
      followPath t' m p = some n → t.nodes.length ≤ n := by
  intro p
  induction p with
  | nil =>
    intro m n hm hf
    rw [← Option.some.inj hf]
    exact hm
  | cons kv rest ih =>
    intro m n hm hf
    have hf2 : (childAt t' m kv.1 kv.2).bind (fun c => followPath t' c rest) = some n := hf
    cases hc : childAt t' m kv.1 kv.2 with
    | none => rw [hc] at hf2; cases hf2
    | some c =>
      rw [hc] at hf2
      rcases hchar m kv.1 kv.2 c hc with hOld | hFresh
      · rw [childAt_of_ge t m kv.1 kv.2 hm] at hOld
        cases hOld
      · exact ih c n hFresh hf2

theorem reach_old {t t' : Trie}
    (hchar : ∀ n k v c, childAt t' n k v = some c →
      childAt t n k v = some c ∨ t.nodes.length ≤ c)
    (hcb : ∀ n k v c, childAt t n k v = some c → c < t.nodes.length) :
    ∀ (p : List (Str × Str)) (r n : Nat), r < t.nodes.length →
      followPath t' r p = some n → n < t.nodes.length → followPath t r p = some n := by
  intro p
  induction p with
  | nil => intro r n _ hf _; exact hf
  | cons kv rest ih =>
    intro r n hr hf hn
    have hf2 : (childAt t' r kv.1 kv.2).bind (fun c => followPath t' c rest) = some n := hf
    cases hc : childAt t' r kv.1 kv.2 with
    | none => rw [hc] at hf2; cases hf2
    | some c =>
      rw [hc] at hf2
      rcases hchar r kv.1 kv.2 c hc with hOld | hFresh
      · have hcl := hcb r kv.1 kv.2 c hOld
        have hrest := ih c n hcl hf2 hn
        show (childAt t r kv.1 kv.2).bind (fun c => followPath t c rest) = some n
        rw [hOld]
        exact hrest
      · have := fresh_stays hchar rest c n hFresh hf2
        omega

theorem appendNone_getD (l : List (Option Nat)) (i : Nat) :
    (l ++ [none]).getD i none = l.getD i none := by
  by_cases h : i < l.length
  · rw [List.getD_append _ _ _ _ (by simpa using h)]
  · rw [List.getD_eq_default l _ (by omega)]
    by_cases h2 : i = l.length
    · subst h2
      rw [List.getD_append_right _ _ _ _ (le_refl _), Nat.sub_self]
      rfl
    · have h4 : l.length + 1 ≤ i := by omega
      rw [List.getD_eq_default _ _ (by simpa using h4)]

/-- The `start is None` branch of `insertTag`: append a fresh empty root and
register it for the pos. -/
def addRoot (t : Trie) (pos : Str) : Trie :=
  { nodes := t.nodes ++ [[]],
    startNodesForPos := setA t.startNodesForPos pos t.nodes.length,
    data := t.data ++ [none] }

theorem insertTag_eq_some (t : Trie) (pos : Str) (F : List (Str × Str)) (code s : Nat)
    (h : getA t.startNodesForPos pos = some s) :
    insertTag t pos F code =
      { nodes := (insertFeats t s F).1.nodes,
        startNodesForPos := (insertFeats t s F).1.startNodesForPos,
        data := (insertFeats t s F).1.data.set (insertFeats t s F).2 (some code) } := by
  simp only [insertTag, h]

theorem insertTag_eq_none (t : Trie) (pos : Str) (F : List (Str × Str)) (code : Nat)
    (h : getA t.startNodesForPos pos = none) :
    insertTag t pos F code =
      { nodes := (insertFeats (addRoot t pos) t.nodes.length F).1.nodes,
        startNodesForPos := (insertFeats (addRoot t pos) t.nodes.length F).1.startNodesForPos,
        data := (insertFeats (addRoot t pos) t.nodes.length F).1.data.set
          (insertFeats (addRoot t pos) t.nodes.length F).2 (some code) } := by
  simp only [insertTag, h, addRoot]

theorem addRoot_getNode (t : Trie) (pos : Str) (n : Nat) :
    getNode (addRoot t pos) n = getNode t n := by
  show (t.nodes ++ [[]]).getD n [] = t.nodes.getD n []
  by_cases h : n < t.nodes.length
  · rw [List.getD_append _ _ _ _ (by simpa using h)]
  · rw [List.getD_eq_default t.nodes _ (by omega)]
    by_cases h2 : n = t.nodes.length
    · subst h2
      rw [List.getD_append_right _ _ _ _ (le_refl _), Nat.sub_self]
      rfl
    · have h4 : t.nodes.length + 1 ≤ n := by omega
      rw [List.getD_eq_default _ _ (by simpa using h4)]

theorem addRoot_childAt (t : Trie) (pos : Str) (n : Nat) (k v : Str) :
    childAt (addRoot t pos) n k v = childAt t n k v := by
  rw [childAt, childAt, addRoot_getNode]

theorem addRoot_dataAt (t : Trie) (pos : Str) (i : Nat) :
    dataAt (addRoot t pos) i = dataAt t i := appendNone_getD t.data i

theorem addRoot_rootOf (t : Trie) (pos q : Str) :
    rootOf (addRoot t pos) q =
      if q = pos then some t.nodes.length else rootOf t q := by
  show getA (setA t.startNodesForPos pos t.nodes.length) q = _
  exact getA_setA _ _ _ _

theorem addRoot_core (t : Trie) (pos : Str) (hc : CoreInv t)
    (hnone : rootOf t pos = none) : CoreInv (addRoot t pos) := by
  have hlen : (addRoot t pos).nodes.length = t.nodes.length + 1 := by simp [addRoot]
  refine ⟨?_, ?_, ?_, ?_, ?_, ?_, ?_, ?_, ?_, ?_⟩
  · show (t.data ++ [none]).length = _
    rw [hlen]
    simp [hc.dataLen]
  · rw [hlen]; omega
  · intro p r hr
    rw [addRoot_rootOf] at hr
    by_cases hp : p = pos
    · rw [if_pos hp] at hr
      rw [← Option.some.inj hr, hlen]
      have := hc.nodesLen
      omega
    · rw [if_neg hp] at hr
      have := hc.rootPos p r hr
      omega
  · intro p1 p2 r h1 h2
    rw [addRoot_rootOf] at h1 h2
    by_cases hp1 : p1 = pos
    · rw [if_pos hp1] at h1
      by_cases hp2 : p2 = pos
      · rw [hp1, hp2]
      · rw [if_neg hp2] at h2
        have := hc.rootPos p2 r h2
        have := Option.some.inj h1
        omega
    · rw [if_neg hp1] at h1
      by_cases hp2 : p2 = pos
      · rw [if_pos hp2] at h2
        have := hc.rootPos p1 r h1
        have := Option.some.inj h2
        omega
      · rw [if_neg hp2] at h2
        exact hc.rootInj p1 p2 r h1 h2
  · intro n k v c h
    rw [addRoot_childAt] at h
    have := hc.childBound n k v c h
    omega
  · intro n1 k1 v1 n2 k2 v2 c h1 h2
    rw [addRoot_childAt] at h1 h2
    exact hc.parentInj n1 k1 v1 n2 k2 v2 c h1 h2
  · intro p r n k v hr hcc
    rw [addRoot_childAt] at hcc
    rw [addRoot_rootOf] at hr
    by_cases hp : p = pos
    · rw [if_pos hp] at hr
      have h1 := (hc.childBound n k v r hcc).2
      have := Option.some.inj hr
      omega
    · rw [if_neg hp] at hr
      exact hc.rootNotChild p r n k v hr hcc
  · intro n k v c k2 v2 c2 h1 h2
    rw [addRoot_childAt] at h1 h2
    exact hc.childKeysGT n k v c k2 v2 c2 h1 h2
  · intro i
    rw [addRoot_getNode]
    exact hc.nodeKeysNodup i
  · intro i b hb
    rw [addRoot_getNode] at hb
    exact hc.valKeysNodup i b hb

/-! ## The semantic invariant: what the trie stores for each parsed tag -/

/-- One processed tag: its parsed `(pos, sorted features)` and its code. -/
abbrev Spec : Type := (Str × List (Str × Str)) × Nat

/-- The code of the last processed tag parsing to `(pos, F)`, the value that
survives the last-wins overwrites of `self._data[start] = code`. -/
def lastCodeFor (specs : List Spec) (pos : Str) (F : List (Str × Str)) : Option Nat :=
  specs.foldl (fun acc e => if e.1 = (pos, F) then some e.2 else acc) none

theorem lastCodeFor_append (specs : List Spec) (e0 : Spec) (pos : Str)
    (F : List (Str × Str)) :
    lastCodeFor (specs ++ [e0]) pos F =
      if e0.1 = (pos, F) then some e0.2 else lastCodeFor specs pos F := by
  simp [lastCodeFor, List.foldl_append]

/-- The full build invariant: structure plus the exact correspondence between
reachable paths with terminal data and the processed tag list. -/
structure TrieInv (t : Trie) (specs : List Spec) : Prop where
  core : CoreInv t
  rootChar : ∀ pos, (rootOf t pos).isSome ↔ pos ∈ specs.map fun e => e.1.1
  pathChar : ∀ pos r F n, rootOf t pos = some r → followPath t r F = some n →
    dataAt t n = lastCodeFor specs pos F
  pathEx : ∀ pos F c, lastCodeFor specs pos F = some c →
    ∃ r n, rootOf t pos = some r ∧ followPath t r F = some n

theorem emptyTrie_inv : TrieInv emptyTrie [] := by
  have hroot : ∀ pos, rootOf emptyTrie pos = none := fun _ => rfl
  have hnode : ∀ i, getNode emptyTrie i = [] := by
    intro i
    cases i with
    | zero => rfl
    | succ m =>
      show ([[]] : List NodeMap).getD (m + 1) [] = []
      rw [List.getD_eq_default _ _ (by simp)]
  have hchild : ∀ n k v, childAt emptyTrie n k v = none := by
    intro n k v
    rw [childAt, hnode]
    rfl
  refine ⟨⟨rfl, by simp [emptyTrie], ?_, ?_, ?_, ?_, ?_, ?_, ?_, ?_⟩, ?_, ?_, ?_⟩
  · intro pos r hr; rw [hroot] at hr; cases hr
  · intro p1 p2 r h1; rw [hroot] at h1; cases h1
  · intro n k v c h; rw [hchild] at h; cases h
  · intro n1 k1 v1 n2 k2 v2 c h1; rw [hchild] at h1; cases h1
  · intro pos r n k v hr; rw [hroot] at hr; cases hr
  · intro n k v c k2 v2 c2 h1; rw [hchild] at h1; cases h1
  · intro i; rw [hnode]; exact List.nodup_nil
  · intro i b hb; rw [hnode] at hb; cases hb
  · intro pos
    rw [hroot]
    simp
  · intro pos r F n hr; rw [hroot] at hr; cases hr
  · intro pos F c h
    cases h

theorem followPath_congr {t1 t2 : Trie}
    (h : ∀ n k v, childAt t1 n k v = childAt t2 n k v) :
    ∀ (p : List (Str × Str)) (r : Nat), followPath t1 r p = followPath t2 r p := by
  intro p
  induction p with
  | nil => intro r; rfl
  | cons kv rest ih =>
    intro r
    show (childAt t1 r kv.1 kv.2).bind _ = (childAt t2 r kv.1 kv.2).bind _
    rw [h r kv.1 kv.2]
    cases childAt t2 r kv.1 kv.2 with
    | none => rfl
    | some c => exact ih c

theorem followPath_mono {t1 t2 : Trie}
    (h : ∀ n k v c, childAt t1 n k v = some c → childAt t2 n k v = some c) :
    ∀ (p : List (Str × Str)) (r n : Nat), followPath t1 r p = some n →
      followPath t2 r p = some n := by
  intro p
  induction p with
  | nil => intro r n hf; exact hf
  | cons kv rest ih =>
    intro r n hf
    have hf2 : (childAt t1 r kv.1 kv.2).bind (fun c => followPath t1 c rest) = some n := hf
    cases hc : childAt t1 r kv.1 kv.2 with
    | none => rw [hc] at hf2; cases hf2
    | some c =>
      rw [hc] at hf2
      show (childAt t2 r kv.1 kv.2).bind (fun c => followPath t2 c rest) = some n
      rw [h r kv.1 kv.2 c hc]
      exact ih c n hf2

theorem followPath_lt {t : Trie}
    (hcb : ∀ n k v c, childAt t n k v = some c → c < t.nodes.length) :
    ∀ (p : List (Str × Str)) (r n : Nat), r < t.nodes.length →
      followPath t r p = some n → n < t.nodes.length := by
  intro p
  induction p with
  | nil => intro r n hr hf; rw [← Option.some.inj hf]; exact hr
  | cons kv rest ih =>
    intro r n hr hf
    have hf2 : (childAt t r kv.1 kv.2).bind (fun c => followPath t c rest) = some n := hf
    cases hc : childAt t r kv.1 kv.2 with
    | none => rw [hc] at hf2; cases hf2
    | some c =>
      rw [hc] at hf2
      exact ih c n (hcb r kv.1 kv.2 c hc) hf2

theorem dataAt_of_ge (t : Trie) (n : Nat) (h : t.data.length ≤ n) : dataAt t n = none :=
  List.getD_eq_default _ _ h

theorem coreInv_transport {t1 t2 : Trie} (hn : t2.nodes = t1.nodes)
    (hs : t2.startNodesForPos = t1.startNodesForPos)
    (hd : t2.data.length = t1.data.length)
    (hc : CoreInv t1) : CoreInv t2 := by
  have hgn : ∀ n, getNode t2 n = getNode t1 n := fun n => by rw [getNode, getNode, hn]
  have hca : ∀ n k v, childAt t2 n k v = childAt t1 n k v :=
    fun n k v => by rw [childAt, childAt, hgn]
  have hro : ∀ q, rootOf t2 q = rootOf t1 q := fun q => by rw [rootOf, rootOf, hs]
  have hlen : t2.nodes.length = t1.nodes.length := by rw [hn]
  refine ⟨?_, ?_, ?_, ?_, ?_, ?_, ?_, ?_, ?_, ?_⟩
  · rw [hd, hlen]; exact hc.dataLen
  · rw [hlen]; exact hc.nodesLen
  · intro pos r hr
    rw [hro] at hr
    rw [hlen]
    exact hc.rootPos pos r hr
  · intro p1 p2 r h1 h2
    rw [hro] at h1 h2
    exact hc.rootInj p1 p2 r h1 h2
  · intro n k v c hcc
    rw [hca] at hcc
    rw [hlen]
    exact hc.childBound n k v c hcc
  · intro n1 k1 v1 n2 k2 v2 c h1 h2
    rw [hca] at h1 h2
    exact hc.parentInj n1 k1 v1 n2 k2 v2 c h1 h2
  · intro pos r n k v hr hcc
    rw [hro] at hr
    rw [hca] at hcc
    exact hc.rootNotChild pos r n k v hr hcc
  · intro n k v c k2 v2 c2 h1 h2
    rw [hca] at h1 h2
    exact hc.childKeysGT n k v c k2 v2 c2 h1 h2
  · intro i
    rw [hgn]
    exact hc.nodeKeysNodup i
  · intro i b hb
    rw [hgn] at hb
    exact hc.valKeysNodup i b hb

theorem insertTag_main (t tA : Trie) (specs : List Spec) (pos : Str)
    (F : List (Str × Str)) (code : Nat) (r : Nat)
    (h : TrieInv t specs)
    (hAcore : CoreInv tA)
    (hAchild : ∀ n k v, childAt tA n k v = childAt t n k v)
    (hAdata : ∀ i, dataAt tA i = dataAt t i)
    (hArootSelf : rootOf tA pos = some r)
    (hArootOther : ∀ q, q ≠ pos → rootOf tA q = rootOf t q)
    (hAlen : t.nodes.length ≤ tA.nodes.length)
    (hAroot : rootOf t pos = some r ∨ (rootOf t pos = none ∧ t.nodes.length ≤ r))
    (hkeys : StrictKeys F) (tq : Trie)
    (hqn : tq.nodes = (insertFeats tA r F).1.nodes)
    (hqs : tq.startNodesForPos = (insertFeats tA r F).1.startNodesForPos)
    (hqd : tq.data = (insertFeats tA r F).1.data.set (insertFeats tA r F).2 (some code)) :
    TrieInv tq (specs ++ [((pos, F), code)]) := by
  have hrlt : r < tA.nodes.length := (hAcore.rootPos pos r hArootSelf).2
  have hinA : ∀ n0 k0 v0, childAt tA n0 k0 v0 = some r → ∀ kv ∈ F, lexLt k0 kv.1 = true :=
    fun n0 k0 v0 h0 kv _ =>
      absurd h0 (fun hx => hAcore.rootNotChild pos r n0 k0 v0 hArootSelf hx)
  have spec := insertFeats_spec F tA r hAcore hrlt hkeys hinA
  set tp := (insertFeats tA r F).1 with htp
  set e := (insertFeats tA r F).2 with he
  have hqchild : ∀ n k v, childAt tq n k v = childAt tp n k v := by
    intro n k v
    rw [childAt, childAt, getNode, getNode, hqn]
  have hqfollow : ∀ p r0, followPath tq r0 p = followPath tp r0 p :=
    fun p r0 => followPath_congr hqchild p r0
  have hqroot : ∀ q, rootOf tq q = rootOf tA q := by
    intro q
    rw [rootOf, rootOf, hqs, spec.rootsEq]
  have helt : e < tp.data.length := by
    rw [spec.core.dataLen]
    exact spec.endLt
  have hqdata : ∀ i, dataAt tq i = if i = e then some code else dataAt tp i := by
    intro i
    rw [dataAt, hqd]
    by_cases hi : i = e
    · subst hi
      rw [if_pos rfl]
      exact getD_set_self _ _ _ _ helt
    · rw [if_neg hi]
      exact getD_set_other _ _ _ _ _ hi
  have hnewPath : followPath tp r F = some e := spec.path
  have htA_t : ∀ p r0, followPath tA r0 p = followPath t r0 p :=
    fun p r0 => followPath_congr hAchild p r0
  have ht_tp : ∀ p r0 n, followPath t r0 p = some n → followPath tp r0 p = some n := by
    intro p r0 n hf
    refine followPath_mono spec.edgePres p r0 n ?_
    rw [htA_t]
    exact hf
  have hcbA : ∀ n k v c, childAt tA n k v = some c → c < tA.nodes.length :=
    fun n k v c hc => (hAcore.childBound n k v c hc).2
  have hcbT : ∀ n k v c, childAt t n k v = some c → c < t.nodes.length :=
    fun n k v c hc => (h.core.childBound n k v c hc).2
  have huniq := reach_unique tp spec.core
  have hrootTP : rootOf tp pos = some r := by
    rw [rootOf, spec.rootsEq]
    exact hArootSelf
  refine ⟨?_, ?_, ?_, ?_⟩
  · exact coreInv_transport hqn hqs (by rw [hqd]; simp) spec.core
  · intro q
    rw [hqroot]
    rw [show (specs ++ [((pos, F), code)]).map (fun e => e.1.1) =
      specs.map (fun e => e.1.1) ++ [pos] by simp]
    rw [List.mem_append, List.mem_singleton]
    by_cases hq : q = pos
    · subst hq
      rw [hArootSelf]
      simp
    · rw [hArootOther q hq, ← h.rootChar q]
      simp [hq]
  · intro pos1 r1 F1 n hr1 hf1
    rw [hqroot] at hr1
    rw [hqfollow] at hf1
    have hr1tp : rootOf tp pos1 = some r1 := by
      rw [rootOf, spec.rootsEq]
      exact hr1
    have hnlt : n < tp.nodes.length := by
      refine followPath_lt (fun n0 k0 v0 c0 hc0 => (spec.core.childBound n0 k0 v0 c0 hc0).2)
        F1 r1 n ?_ hf1
      have h1 := (hAcore.rootPos pos1 r1 hr1).2
      have h2 := spec.lenMono
      omega
    rw [lastCodeFor_append]
    by_cases hne : n = e
    · subst hne
      have hik := huniq F1 F pos1 pos r1 r e hr1tp hrootTP hf1 hnewPath
      rw [hqdata, if_pos rfl, if_pos (by rw [hik.1, hik.2])]
    · have hcond : ¬(((pos, F), code).1 = (pos1, F1)) := by
        simp only [Prod.mk.injEq]
        rintro ⟨ha, hb⟩
        rw [← ha] at hr1
        rw [hArootSelf] at hr1
        have hr1r : r1 = r := (Option.some.inj hr1).symm
        rw [hr1r, ← hb] at hf1
        rw [hnewPath] at hf1
        exact hne (Option.some.inj hf1).symm
      rw [if_neg hcond]
      rw [hqdata, if_neg hne, spec.dataEq]
      by_cases hn : n < tA.nodes.length
      · have hfA : followPath tA r1 F1 = some n := by
          refine reach_old spec.edgeChar hcbA F1 r1 n ?_ hf1 hn
          exact (hAcore.rootPos pos1 r1 hr1).2
        have hfT : followPath t r1 F1 = some n := by
          rw [← htA_t]
          exact hfA
        rw [hAdata]
        by_cases hp1 : pos1 = pos
        · subst hp1
          have hr1r : r1 = r := by
            rw [hArootSelf] at hr1
            exact (Option.some.inj hr1).symm
          subst hr1r
          rcases hAroot with hA | ⟨hA, hge⟩
          · exact h.pathChar pos1 r1 F1 n hA hfT
          · cases F1 with
            | nil =>
              have hnr : n = r1 := (Option.some.inj hfT).symm
              rw [hnr, dataAt_of_ge t r1 (by rw [h.core.dataLen]; exact hge)]
              cases hl : lastCodeFor specs pos1 [] with
              | none => rfl
              | some c =>
                rcases h.pathEx pos1 [] c hl with ⟨r0, n0, hr0, _⟩
                rw [hA] at hr0
                cases hr0
            | cons kv rest =>
              exfalso
              have hf3 : (childAt t r1 kv.1 kv.2).bind
                  (fun c => followPath t c rest) = some n := hfT
              rw [childAt_of_ge t r1 kv.1 kv.2 hge] at hf3
              cases hf3
        · have hr1t : rootOf t pos1 = some r1 := by
            rw [← hArootOther pos1 hp1]
            exact hr1
          exact h.pathChar pos1 r1 F1 n hr1t hfT
      · have hge : tA.nodes.length ≤ n := by omega
        rcases spec.freshOnPath n hge hnlt with ⟨i, hi1, hi2⟩
        have hik := huniq F1 (F.take i) pos1 pos r1 r n hr1tp hrootTP hf1 hi2
        rw [dataAt_of_ge tA n (by rw [hAcore.dataLen]; omega)]
        rw [hik.1, hik.2]
        cases hl : lastCodeFor specs pos (F.take i) with
        | none => rfl
        | some c =>
          exfalso
          rcases h.pathEx pos (F.take i) c hl with ⟨r0, n0, hr0, hfn0⟩
          have hrot : rootOf t pos = some r := by
            rcases hAroot with hA | ⟨hA, _⟩
            · exact hA
            · rw [hA] at hr0
              cases hr0
          have hr0r : r0 = r := by
            rw [hrot] at hr0
            exact (Option.some.inj hr0).symm
          subst hr0r
          have hn0lt : n0 < t.nodes.length :=
            followPath_lt hcbT (F.take i) r0 n0 (h.core.rootPos pos r0 hrot).2 hfn0
          have hup := ht_tp (F.take i) r0 n0 hfn0
          rw [hi2] at hup
          have hn0n : n0 = n := (Option.some.inj hup).symm
          omega
  · intro pos1 F1 c hl
    rw [lastCodeFor_append] at hl
    by_cases hcond : ((pos, F), code).1 = (pos1, F1)
    · have hp : pos = pos1 := congrArg Prod.fst hcond
      have hF : F = F1 := congrArg Prod.snd hcond
      refine ⟨r, e, ?_, ?_⟩
      · rw [hqroot, ← hp]
        exact hArootSelf
      · rw [hqfollow, ← hF]
        exact hnewPath
    · rw [if_neg hcond] at hl
      rcases h.pathEx pos1 F1 c hl with ⟨r1, n1, hr1, hf1⟩
      by_cases hp1 : pos1 = pos
      · subst hp1
        rcases hAroot with hA | ⟨hA, _⟩
        · have hr1r : r1 = r := by
            rw [hA] at hr1
            exact (Option.some.inj hr1).symm
          subst hr1r
          refine ⟨r1, n1, ?_, ?_⟩
          · rw [hqroot]
            exact hArootSelf
          · rw [hqfollow]
            exact ht_tp F1 r1 n1 hf1
        · rw [hA] at hr1
          cases hr1
      · refine ⟨r1, n1, ?_, ?_⟩
        · rw [hqroot, hArootOther pos1 hp1]
          exact hr1
        · rw [hqfollow]
          exact ht_tp F1 r1 n1 hf1

theorem parseBuildTag_sorted (s : Str) :
    ((parseBuildTag s).2).Pairwise (fun x y => pairLe x y = true) := by
  rw [parseBuildTag]
  by_cases hc : s.contains ','
  · rw [if_pos hc]
    cases h : splitFirst ',' s with
    | none => exact List.Pairwise.nil
    | some p =>
      exact @insSortBy_pairwise _ pairLe (fun x y z hx hy => pairLe_trans hx hy)
        (fun x y => pairLe_total x y) _
  · rw [if_neg hc]
    exact List.Pairwise.nil

theorem parseBuildTag_strictKeys (s : Str)
    (hn : (((parseBuildTag s).2).map Prod.fst).Nodup) :
    StrictKeys (parseBuildTag s).2 :=
  strictKeys_of_sorted_nodup (parseBuildTag_sorted s) hn

theorem insertTag_inv (t : Trie) (specs : List Spec) (pos : Str)
    (F : List (Str × Str)) (code : Nat)
    (h : TrieInv t specs) (hkeys : StrictKeys F) :
    TrieInv (insertTag t pos F code) (specs ++ [((pos, F), code)]) := by
  cases hr : rootOf t pos with
  | some s =>
    have heq := insertTag_eq_some t pos F code s hr
    refine insertTag_main t t specs pos F code s h h.core
      (fun n k v => rfl) (fun i => rfl) hr (fun q _ => rfl) (le_refl _)
      (Or.inl hr) hkeys (insertTag t pos F code) ?_ ?_ ?_
    · rw [heq]
    · rw [heq]
    · rw [heq]
  | none =>
    have heq := insertTag_eq_none t pos F code hr
    refine insertTag_main t (addRoot t pos) specs pos F code t.nodes.length h
      (addRoot_core t pos h.core hr)
      (addRoot_childAt t pos) (addRoot_dataAt t pos)
      (by rw [addRoot_rootOf, if_pos rfl])
      (fun q hq => by rw [addRoot_rootOf, if_neg hq])
      (by simp [addRoot]) (Or.inr ⟨hr, le_refl _⟩) hkeys
      (insertTag t pos F code) ?_ ?_ ?_
    · rw [heq]
    · rw [heq]
    · rw [heq]

/-- The build-time spec list: which (pos, sorted features) pair each `_t2i`
entry contributes, with its code. -/
def tagSpecs (i2t : List Str) : List Spec :=
  (makeT2i i2t).map (fun p => (parseBuildTag p.1, p.2))

theorem mem_setA_key {α β : Type} [BEq α] (m : List (α × β)) (a : α) (b : β)
    (q : α × β) (h : q ∈ setA m a b) : q.1 = a ∨ q ∈ m := by
  induction m with
  | nil =>
    simp [setA] at h
    subst h
    exact Or.inl rfl
  | cons kv rest ih =>
    rw [setA] at h
    by_cases hk : kv.1 == a
    · rw [if_pos hk] at h
      rcases List.mem_cons.1 h with he | hm
      · subst he
        exact Or.inl rfl
      · exact Or.inr (List.mem_cons_of_mem _ hm)
    · rw [if_neg hk] at h
      rcases List.mem_cons.1 h with he | hm
      · exact Or.inr (he ▸ List.mem_cons_self _ _)
      · rcases ih hm with h1 | h2
        · exact Or.inl h1
        · exact Or.inr (List.mem_cons_of_mem _ h2)

theorem enum_setA_keys (l : List (Nat × Str)) (m0 : List (Str × Nat)) (q : Str × Nat)
    (h : q ∈ l.foldl (fun m p => setA m p.2 p.1) m0) :
    q ∈ m0 ∨ q.1 ∈ l.map Prod.snd := by
  induction l generalizing m0 with
  | nil => exact Or.inl h
  | cons p rest ih =>
    rcases ih _ h with hm | hk
    · rcases mem_setA_key m0 p.2 p.1 q hm with he | hm0
      · right
        rw [List.map_cons, he]
        exact List.mem_cons_self _ _
      · exact Or.inl hm0
    · right
      rw [List.map_cons]
      exact List.mem_cons_of_mem _ hk

theorem makeT2i_key_mem (i2t : List Str) (q : Str × Nat) (h : q ∈ makeT2i i2t) :
    q.1 ∈ i2t := by
  rcases enum_setA_keys i2t.enum [] q h with hm | hk
  · cases hm
  · rw [List.enum_map_snd] at hk
    exact hk

theorem foldl_insertTag_inv (ps : List (Str × Nat)) (t : Trie) (specs : List Spec)
    (h : TrieInv t specs)
    (hkeys : ∀ p ∈ ps, StrictKeys (parseBuildTag p.1).2) :
    TrieInv
      (ps.foldl (fun t p => let pf := parseBuildTag p.1; insertTag t pf.1 pf.2 p.2) t)
      (specs ++ ps.map (fun p => (parseBuildTag p.1, p.2))) := by
  induction ps generalizing t specs with
  | nil => simpa using h
  | cons p rest ih =>
    have h1 := insertTag_inv t specs (parseBuildTag p.1).1 (parseBuildTag p.1).2 p.2 h
      (hkeys p (List.mem_cons_self _ _))
    have h2 := ih _ _ h1 (fun q hq => hkeys q (List.mem_cons_of_mem _ hq))
    simpa [List.append_assoc] using h2

theorem make_tag_trie_inv (i2t : List Str)
    (hkeys : ∀ s ∈ i2t, (((parseBuildTag s).2).map Prod.fst).Nodup) :
    TrieInv (make_tag_trie i2t) (tagSpecs i2t) := by
  have h := foldl_insertTag_inv (makeT2i i2t) emptyTrie [] emptyTrie_inv
    (fun p hp => parseBuildTag_strictKeys p.1 (hkeys p.1 (makeT2i_key_mem i2t p hp)))
  simpa [make_tag_trie, tagSpecs] using h

/-! ## Soundness of the compatibility query -/

theorem path_strictKeys (t : Trie) (hc : CoreInv t) :
    ∀ (P : List (Str × Str)) (r n : Nat), followPath t r P = some n → StrictKeys P := by
  intro P
  induction P with
  | nil =>
    intro r n _
    exact List.chain'_nil
  | cons kv rest ih =>
    intro r n hf
    have hf1 : (childAt t r kv.1 kv.2).bind (fun c => followPath t c rest) = some n := hf
    cases hc1 : childAt t r kv.1 kv.2 with
    | none =>
      rw [hc1] at hf1
      cases hf1
    | some c =>
      rw [hc1] at hf1
      have hf2 : followPath t c rest = some n := hf1
      have hrest : StrictKeys rest := ih c n hf2
      cases rest with
      | nil => exact List.chain'_singleton _
      | cons kv2 rest2 =>
        refine List.chain'_cons.2 ⟨?_, hrest⟩
        have hf3 : (childAt t c kv2.1 kv2.2).bind (fun c2 => followPath t c2 rest2) = some n := hf2
        cases hc2 : childAt t c kv2.1 kv2.2 with
        | none =>
          rw [hc2] at hf3
          cases hf3
        | some c2 => exact hc.childKeysGT r kv.1 kv.2 c kv2.1 kv2.2 c2 hc1 hc2

theorem childAt_of_mem {t : Trie} (hc : CoreInv t) {n : Nat} {b : Str × List (Str × Nat)}
    (hb : b ∈ getNode t n) {v0 : Str} {c : Nat} (hv : (v0, c) ∈ b.2) :
    childAt t n b.1 v0 = some c := by
  rw [childAt, getA_eq_of_mem (hc.nodeKeysNodup n) hb]
  exact getA_eq_of_mem (hc.valKeysNodup n b hb) hv

theorem skipCount_le (l : List (Str × Str)) (k : Str) : skipCount l k ≤ l.length := by
  induction l with
  | nil => exact Nat.le_refl _
  | cons kv rest ih =>
    rw [skipCount]
    by_cases h : lexLt kv.1 k = true
    · simp only [h, if_true, List.length_cons]
      omega
    · simp only [h, if_false]
      exact Nat.zero_le _

theorem skipCount_skipped (l : List (Str × Str)) (k : Str) (d : Str × Str) :
    ∀ j, j < skipCount l k → lexLt (l.getD j d).1 k = true := by
  induction l with
  | nil =>
    intro j hj
    rw [skipCount] at hj
    omega
  | cons kv rest ih =>
    intro j hj
    rw [skipCount] at hj
    by_cases h : lexLt kv.1 k = true
    · rw [if_pos h] at hj
      cases j with
      | zero => simpa using h
      | succ j0 =>
        have h2 := ih j0 (by omega)
        simpa using h2
    · rw [if_neg h] at hj
      omega

theorem skipCount_stop (l : List (Str × Str)) (k : Str) (d : Str × Str)
    (h : skipCount l k < l.length) : lexLt (l.getD (skipCount l k) d).1 k = false := by
  induction l with
  | nil => simp at h
  | cons kv rest ih =>
    rw [skipCount] at h ⊢
    by_cases hk : lexLt kv.1 k = true
    · rw [if_pos hk] at h ⊢
      have h2 : skipCount rest k < rest.length := by
        rw [List.length_cons] at h
        omega
      have h3 := ih h2
      rw [show 1 + skipCount rest k = skipCount rest k + 1 by omega]
      simpa using h3
    · rw [if_neg hk]
      simp only [List.getD_cons_zero]
      simpa using hk

theorem strictKeys_getD_lt {tag : List (Str × Str)} (h : StrictKeys tag)
    (i j : Nat) (hij : i < j) (hj : j < tag.length) (d : Str × Str) :
    lexLt (tag.getD i d).1 (tag.getD j d).1 = true := by
  have hp := strictKeys_pairwise h
  rw [List.pairwise_iff_getElem] at hp
  have hi : i < tag.length := by omega
  have h2 := hp i j hi hj hij
  rw [List.getD_eq_getElem?_getD, List.getD_eq_getElem?_getD,
      List.getElem?_eq_getElem hi, List.getElem?_eq_getElem hj]
  simpa using h2

theorem strictKeys_append_pairwise {P Q : List (Str × Str)} (h : StrictKeys (P ++ Q)) :
    ∀ a ∈ P, ∀ b ∈ Q, lexLt a.1 b.1 = true := by
  have hp := strictKeys_pairwise h
  rw [List.pairwise_append] at hp
  exact hp.2.2

theorem strictKeys_append_left {P Q : List (Str × Str)} (h : StrictKeys (P ++ Q)) :
    StrictKeys P := by
  have hp := strictKeys_pairwise h
  rw [List.pairwise_append] at hp
  exact hp.1.chain'

/-- Compatibility of a full feature list `F` with a constraint list: every
constraint whose key `F` defines appears in `F` with the same value. -/
def Compat (F tag : List (Str × Str)) : Prop :=
  ∀ kv ∈ tag, kv.1 ∈ F.map Prod.fst → kv ∈ F

instance (F tag : List (Str × Str)) : Decidable (Compat F tag) :=
  List.decidableBAll _ tag

/-- Invariant of a `final_nodes` entry: reached by a real path, and every
descendant with a strictly-keyed full path is compatible with the query. -/
def FinalOK (t : Trie) (r : Nat) (tag : List (Str × Str)) (n : Nat) : Prop :=
  ∃ P, followPath t r P = some n ∧
    ∀ Q m, followPath t n Q = some m → StrictKeys (P ++ Q) → Compat (P ++ Q) tag

/-- Invariant of a `curr_nodes` entry `(i, n)`: the cursor is in range, the
node is reached by a path whose keys all sit below the next constraint, and
every constraint already consumed is either on the path or strictly below
one of its keys (and off its key set). -/
def EntryOK (t : Trie) (r : Nat) (tag : List (Str × Str)) (e : Nat × Nat) : Prop :=
  e.1 < tag.length ∧ ∃ P, followPath t r P = some e.2 ∧
    (∀ k ∈ P.map Prod.fst, lexLt k (tag.getD e.1 ([], [])).1 = true) ∧
    (∀ kv ∈ tag.take e.1, kv ∈ P ∨
      (kv.1 ∉ P.map Prod.fst ∧ ∃ k ∈ P.map Prod.fst, lexLt kv.1 k = true))

theorem getD_drop {α : Type} (l : List α) (n i : Nat) (d : α) :
    (l.drop n).getD i d = l.getD (n + i) d := by
  rw [List.getD_eq_getElem?_getD, List.getD_eq_getElem?_getD, List.getElem?_drop]

theorem mem_take_getD {α : Type} (d : α) {l : List α} {m : Nat} {x : α}
    (h : x ∈ l.take m) :
    ∃ j, j < m ∧ j < l.length ∧ l.getD j d = x := by
  rcases List.mem_iff_getElem.1 h with ⟨j, hj, hx⟩
  have hlen : (l.take m).length = min m l.length := by simp
  have hj1 : j < m := by omega
  have hj2 : j < l.length := by omega
  refine ⟨j, hj1, hj2, ?_⟩
  rw [List.getD_eq_getElem?_getD, List.getElem?_eq_getElem hj2]
  have hx2 : l[j] = x := by
    rw [← hx]
    exact (List.getElem_take l).symm
  exact hx2

theorem getD_mem_take {α : Type} (d : α) {l : List α} {m j : Nat}
    (hjm : j < m) (hjl : j < l.length) : l.getD j d ∈ l.take m := by
  have hjt : j < (l.take m).length := by
    have : (l.take m).length = min m l.length := by simp
    omega
  have h4 : (l.take m)[j] = l.getD j d := by
    rw [List.getD_eq_getElem?_getD, List.getElem?_eq_getElem hjl]
    exact List.getElem_take l
  rw [← h4]
  exact List.getElem_mem _

/-- Extending a path by an edge whose key dominates everything consumed or
skipped keeps the consumed-constraint invariant. -/
theorem step_M {t : Trie} (hc : CoreInv t) {r n c : Nat}
    {tag P : List (Str × Str)} (htag : StrictKeys tag)
    {i currI : Nat} {bk v0 : Str}
    (hP : followPath t r P = some n)
    (hPc : followPath t r (P ++ [(bk, v0)]) = some c)
    (hK : ∀ k ∈ P.map Prod.fst, lexLt k (tag.getD i ([], [])).1 = true)
    (hM : ∀ kv ∈ tag.take i, kv ∈ P ∨
      (kv.1 ∉ P.map Prod.fst ∧ ∃ k ∈ P.map Prod.fst, lexLt kv.1 k = true))
    (hii : i ≤ currI) (hilen : i < tag.length)
    (hskip : ∀ j, i ≤ j → j < currI → lexLt (tag.getD j ([], [])).1 bk = true) :
    ∀ kv ∈ tag.take currI, kv ∈ P ++ [(bk, v0)] ∨
      (kv.1 ∉ (P ++ [(bk, v0)]).map Prod.fst ∧
        ∃ k ∈ (P ++ [(bk, v0)]).map Prod.fst, lexLt kv.1 k = true) := by
  have hstrict : StrictKeys (P ++ [(bk, v0)]) := path_strictKeys t hc _ r c hPc
  have hdom : ∀ k ∈ P.map Prod.fst, lexLt k bk = true := by
    intro k hk
    rcases List.mem_map.1 hk with ⟨a, ha, hae⟩
    rw [← hae]
    exact strictKeys_append_pairwise hstrict a ha (bk, v0) (List.mem_singleton_self _)
  intro kv hkv
  rcases mem_take_getD ([], []) hkv with ⟨j, hjc, hjl, hje⟩
  by_cases hji : j < i
  · have hkv' : kv ∈ tag.take i := by
      rw [← hje]
      exact getD_mem_take ([], []) hji hjl
    rcases hM kv hkv' with hin | ⟨hnot, k, hk, hlt⟩
    · exact Or.inl (List.mem_append_left _ hin)
    · refine Or.inr ⟨?_, k, ?_, hlt⟩
      · rw [List.map_append, List.mem_append]
        rintro (h1 | h2)
        · exact hnot h1
        · have hbkk : kv.1 = bk := by simpa using h2
          have h3 := lexLt_trans hlt (hdom k hk)
          rw [hbkk] at h3
          rw [lexLt_irrefl] at h3
          cases h3
      · rw [List.map_append, List.mem_append]
        exact Or.inl hk
  · have hsk : lexLt kv.1 bk = true := by
      have h0 := hskip j (by omega) hjc
      rw [hje] at h0
      exact h0
    refine Or.inr ⟨?_, bk, ?_, hsk⟩
    · rw [List.map_append, List.mem_append]
      rintro (h1 | h2)
      · have hik : lexLt (tag.getD i ([], [])).1 kv.1 = true ∨ i = j := by
          by_cases hij : i = j
          · exact Or.inr hij
          · left
            have h5 := strictKeys_getD_lt htag i j (by omega) hjl ([], [])
            rw [hje] at h5
            exact h5
        rcases hik with hlt2 | heq
        · have h3 := lexLt_trans (hK kv.1 h1) hlt2
          rw [lexLt_irrefl] at h3
          cases h3
        · have h3 := hK kv.1 h1
          rw [heq, hje] at h3
          rw [lexLt_irrefl] at h3
          cases h3
      · have hbkk : kv.1 = bk := by simpa using h2
        rw [hbkk, lexLt_irrefl] at hsk
        cases hsk
    · rw [List.map_append, List.mem_append]
      right
      simp

theorem compat_of_settled {P tag : List (Str × Str)}
    (hall : ∀ kv ∈ tag, kv ∈ P ∨
      (kv.1 ∉ P.map Prod.fst ∧ ∃ k ∈ P.map Prod.fst, lexLt kv.1 k = true)) :
    ∀ Q, StrictKeys (P ++ Q) → Compat (P ++ Q) tag := by
  intro Q hstrict kv hkv hmem
  rcases hall kv hkv with hin | ⟨hnot, k, hk, hlt⟩
  · exact List.mem_append_left _ hin
  · exfalso
    rw [List.map_append, List.mem_append] at hmem
    rcases hmem with h1 | h2
    · exact hnot h1
    · rcases List.mem_map.1 h2 with ⟨b, hb, hbeq⟩
      rcases List.mem_map.1 hk with ⟨a, ha, haeq⟩
      have hab := strictKeys_append_pairwise hstrict a ha b hb
      rw [haeq, hbeq] at hab
      have h3 := lexLt_trans hlt hab
      rw [lexLt_irrefl] at h3
      cases h3

theorem processBranches_cons (tag : List (Str × Str)) (i : Nat) (b : Str × List (Str × Nat))
    (branches : NodeMap) (curr : List (Nat × Nat)) (final : List Nat) :
    processBranches tag i (b :: branches) curr final =
      if i + skipCount (tag.drop i) b.1 = tag.length then
        processBranches tag i branches curr ((b.2.map Prod.snd).reverse ++ final)
      else if lexLt b.1 (tag.getD (i + skipCount (tag.drop i) b.1) ([], [])).1 then
        processBranches tag i branches
          ((b.2.map fun p => (i + skipCount (tag.drop i) b.1, p.2)).reverse ++ curr) final
      else
        match getA b.2 (tag.getD (i + skipCount (tag.drop i) b.1) ([], [])).2 with
        | none => processBranches tag i branches curr final
        | some child =>
          if i + skipCount (tag.drop i) b.1 < tag.length - 1 then
            processBranches tag i branches
              ((i + skipCount (tag.drop i) b.1 + 1, child) :: curr) final
          else
            processBranches tag i branches curr (child :: final) := rfl

theorem processBranches_cons_skipAll (tag : List (Str × Str)) (i : Nat)
    (b : Str × List (Str × Nat)) (branches : NodeMap) (curr : List (Nat × Nat))
    (final : List Nat)
    (hA : i + skipCount (tag.drop i) b.1 = tag.length) :
    processBranches tag i (b :: branches) curr final =
      processBranches tag i branches curr ((b.2.map Prod.snd).reverse ++ final) := by
  rw [processBranches_cons, if_pos hA]

theorem processBranches_cons_lt (tag : List (Str × Str)) (i : Nat)
    (b : Str × List (Str × Nat)) (branches : NodeMap) (curr : List (Nat × Nat))
    (final : List Nat)
    (hA : ¬i + skipCount (tag.drop i) b.1 = tag.length)
    (hB : lexLt b.1 (tag.getD (i + skipCount (tag.drop i) b.1) ([], [])).1 = true) :
    processBranches tag i (b :: branches) curr final =
      processBranches tag i branches
        ((b.2.map fun p => (i + skipCount (tag.drop i) b.1, p.2)).reverse ++ curr)
        final := by
  rw [processBranches_cons, if_neg hA, if_pos hB]

theorem processBranches_cons_miss (tag : List (Str × Str)) (i : Nat)
    (b : Str × List (Str × Nat)) (branches : NodeMap) (curr : List (Nat × Nat))
    (final : List Nat)
    (hA : ¬i + skipCount (tag.drop i) b.1 = tag.length)
    (hB : ¬lexLt b.1 (tag.getD (i + skipCount (tag.drop i) b.1) ([], [])).1 = true)
    (hg : getA b.2 (tag.getD (i + skipCount (tag.drop i) b.1) ([], [])).2 = none) :
    processBranches tag i (b :: branches) curr final =
      processBranches tag i branches curr final := by
  rw [processBranches_cons, if_neg hA, if_neg hB, hg]

theorem processBranches_cons_hit (tag : List (Str × Str)) (i : Nat)
    (b : Str × List (Str × Nat)) (branches : NodeMap) (curr : List (Nat × Nat))
    (final : List Nat) (child : Nat)
    (hA : ¬i + skipCount (tag.drop i) b.1 = tag.length)
    (hB : ¬lexLt b.1 (tag.getD (i + skipCount (tag.drop i) b.1) ([], [])).1 = true)
    (hg : getA b.2 (tag.getD (i + skipCount (tag.drop i) b.1) ([], [])).2 = some child) :
    processBranches tag i (b :: branches) curr final =
      if i + skipCount (tag.drop i) b.1 < tag.length - 1 then
        processBranches tag i branches
          ((i + skipCount (tag.drop i) b.1 + 1, child) :: curr) final
      else
        processBranches tag i branches curr (child :: final) := by
  rw [processBranches_cons, if_neg hA, if_neg hB, hg]

theorem processBranches_sound {t : Trie} (hc : CoreInv t)
    {r : Nat} {tag : List (Str × Str)} (htag : StrictKeys tag)
    (i n : Nat) (hE : EntryOK t r tag (i, n)) :
    ∀ (branches : NodeMap), (∀ b ∈ branches, b ∈ getNode t n) →
    ∀ (curr : List (Nat × Nat)) (final : List Nat),
      (∀ e ∈ curr, EntryOK t r tag e) → (∀ m ∈ final, FinalOK t r tag m) →
      (∀ e ∈ (processBranches tag i branches curr final).1, EntryOK t r tag e) ∧
      (∀ m ∈ (processBranches tag i branches curr final).2, FinalOK t r tag m) := by
  obtain ⟨hilen, P, hP, hK, hM⟩ := hE
  intro branches
  induction branches with
  | nil =>
    intro _ curr final hcurr hfinal
    exact ⟨hcurr, hfinal⟩
  | cons b branches ih =>
    intro hbr curr final hcurr hfinal
    have hbmem : b ∈ getNode t n := hbr b (List.mem_cons_self _ _)
    have hbr2 : ∀ b2 ∈ branches, b2 ∈ getNode t n :=
      fun b2 h2 => hbr b2 (List.mem_cons_of_mem _ h2)
    have hskle : i + skipCount (tag.drop i) b.1 ≤ tag.length := by
      have h1 := skipCount_le (tag.drop i) b.1
      have h2 : (tag.drop i).length = tag.length - i := by simp
      omega
    have hskip : ∀ j, i ≤ j → j < i + skipCount (tag.drop i) b.1 →
        lexLt (tag.getD j ([], [])).1 b.1 = true := by
      intro j h1 h2
      have h3 := skipCount_skipped (tag.drop i) b.1 ([], []) (j - i) (by omega)
      rw [getD_drop] at h3
      rw [show i + (j - i) = j by omega] at h3
      exact h3
    have hchild : ∀ v0 c0, (v0, c0) ∈ b.2 → childAt t n b.1 v0 = some c0 :=
      fun v0 c0 hv => childAt_of_mem hc hbmem hv
    by_cases hA : i + skipCount (tag.drop i) b.1 = tag.length
    · rw [processBranches_cons_skipAll tag i b branches curr final hA]
      refine ih hbr2 curr _ hcurr ?_
      intro m hm
      rw [List.mem_append] at hm
      rcases hm with hm1 | hm2
      · rw [List.mem_reverse] at hm1
        rcases List.mem_map.1 hm1 with ⟨p, hp, hpe⟩
        have hp2 : (p.1, m) ∈ b.2 := by
          rw [← hpe]
          exact hp
        have hPm : followPath t r (P ++ [(b.1, p.1)]) = some m :=
          followPath_snoc.2 ⟨n, hP, hchild p.1 m hp2⟩
        refine ⟨P ++ [(b.1, p.1)], hPm, ?_⟩
        intro Q m2 hQ hstr
        refine compat_of_settled ?_ Q hstr
        have hskip2 : ∀ j, i ≤ j → j < tag.length →
            lexLt (tag.getD j ([], [])).1 b.1 = true :=
          fun j h1 h2 => hskip j h1 (by omega)
        have hall := step_M hc htag hP hPm hK hM hilen.le hilen hskip2
        rw [List.take_length] at hall
        exact hall
      · exact hfinal m hm2
    · have hilen2 : i + skipCount (tag.drop i) b.1 < tag.length := by omega
      have hKc : ∀ k ∈ P.map Prod.fst,
          lexLt k (tag.getD (i + skipCount (tag.drop i) b.1) ([], [])).1 = true := by
        intro k hk
        by_cases hii0 : skipCount (tag.drop i) b.1 = 0
        · rw [hii0]
          simpa using hK k hk
        · exact lexLt_trans (hK k hk)
            (strictKeys_getD_lt htag i (i + skipCount (tag.drop i) b.1) (by omega) hilen2 _)
      by_cases hB : lexLt b.1 (tag.getD (i + skipCount (tag.drop i) b.1) ([], [])).1 = true
      · rw [processBranches_cons_lt tag i b branches curr final hA hB]
        refine ih hbr2 _ final ?_ hfinal
        intro e he
        rw [List.mem_append] at he
        rcases he with he1 | he2
        · rw [List.mem_reverse] at he1
          rcases List.mem_map.1 he1 with ⟨p, hp, hpe⟩
          have hp2 : (p.1, p.2) ∈ b.2 := hp
          have hPm : followPath t r (P ++ [(b.1, p.1)]) = some p.2 :=
            followPath_snoc.2 ⟨n, hP, hchild p.1 p.2 hp2⟩
          rw [← hpe]
          refine ⟨hilen2, P ++ [(b.1, p.1)], hPm, ?_, ?_⟩
          · intro k hk
            rw [List.map_append, List.mem_append] at hk
            rcases hk with hk1 | hk2
            · exact hKc k hk1
            · have hkb : k = b.1 := by simpa using hk2
              rw [hkb]
              exact hB
          · exact step_M hc htag hP hPm hK hM (by omega) hilen hskip
        · exact hcurr e he2
      · have hstop : lexLt (tag.getD (i + skipCount (tag.drop i) b.1) ([], [])).1 b.1
            = false := by
          have h4 : skipCount (tag.drop i) b.1 < (tag.drop i).length := by
            have h2 : (tag.drop i).length = tag.length - i := by simp
            omega
          have h5 := skipCount_stop (tag.drop i) b.1 ([], []) h4
          rw [getD_drop] at h5
          exact h5
        have hbk : b.1 = (tag.getD (i + skipCount (tag.drop i) b.1) ([], [])).1 :=
          lexLt_eq_of_not (by simpa using hB) hstop
        cases hg : getA b.2 (tag.getD (i + skipCount (tag.drop i) b.1) ([], [])).2 with
        | none =>
          rw [processBranches_cons_miss tag i b branches curr final hA hB hg]
          exact ih hbr2 curr final hcurr hfinal
        | some child =>
          rw [processBranches_cons_hit tag i b branches curr final child hA hB hg]
          have hcm : childAt t n b.1 (tag.getD (i + skipCount (tag.drop i) b.1) ([], [])).2
              = some child := hchild _ child (mem_of_getA hg)
          have hPm : followPath t r
              (P ++ [(b.1, (tag.getD (i + skipCount (tag.drop i) b.1) ([], [])).2)])
              = some child := followPath_snoc.2 ⟨n, hP, hcm⟩
          have hedge : (b.1, (tag.getD (i + skipCount (tag.drop i) b.1) ([], [])).2)
              = tag.getD (i + skipCount (tag.drop i) b.1) ([], []) := by
            nth_rewrite 1 [hbk]
            rfl
          have hallc : ∀ kv ∈ tag.take (i + skipCount (tag.drop i) b.1 + 1),
              kv ∈ P ++ [(b.1, (tag.getD (i + skipCount (tag.drop i) b.1) ([], [])).2)] ∨
              (kv.1 ∉ (P ++ [(b.1, (tag.getD (i + skipCount (tag.drop i) b.1) ([], [])).2)]).map
                  Prod.fst ∧
                ∃ k ∈ (P ++ [(b.1,
                    (tag.getD (i + skipCount (tag.drop i) b.1) ([], [])).2)]).map Prod.fst,
                  lexLt kv.1 k = true) := by
            have hstep := step_M hc htag hP hPm hK hM (by omega) hilen hskip
            intro kv hkv
            rcases mem_take_getD ([], []) hkv with ⟨j, hjc, hjl, hje⟩
            by_cases hji : j < i + skipCount (tag.drop i) b.1
            · exact hstep kv (by rw [← hje]; exact getD_mem_take ([], []) hji hjl)
            · have hjeq : j = i + skipCount (tag.drop i) b.1 := by omega
              left
              rw [List.mem_append]
              right
              rw [hedge, ← hje, hjeq]
              exact List.mem_singleton_self _
          by_cases hC : i + skipCount (tag.drop i) b.1 < tag.length - 1
          · rw [if_pos hC]
            refine ih hbr2 _ final ?_ hfinal
            intro e he
            rcases List.mem_cons.1 he with he1 | he2
            · rw [he1]
              refine ⟨by omega, _, hPm, ?_, ?_⟩
              · intro k hk
                rw [List.map_append, List.mem_append] at hk
                have hnext := strictKeys_getD_lt htag (i + skipCount (tag.drop i) b.1)
                  (i + skipCount (tag.drop i) b.1 + 1) (by omega) (by omega) ([], [])
                rcases hk with hk1 | hk2
                · exact lexLt_trans (hKc k hk1) hnext
                · have hkb : k = b.1 := by simpa using hk2
                  rw [hkb]
                  nth_rewrite 1 [hbk]
                  exact hnext
              · exact hallc
            · exact hcurr e he2
          · rw [if_neg hC]
            refine ih hbr2 curr _ hcurr ?_
            intro m hm
            rcases List.mem_cons.1 hm with hm1 | hm2
            · rw [hm1]
              refine ⟨_, hPm, ?_⟩
              intro Q m2 hQ hstr
              refine compat_of_settled ?_ Q hstr
              have htake : tag.take (i + skipCount (tag.drop i) b.1 + 1) = tag :=
                List.take_of_length_le (by omega)
              rw [htake] at hallc
              exact hallc
            · exact hfinal m hm2

theorem mem_getD {α : Type} (d : α) {l : List α} {x : α} (h : x ∈ l) :
    ∃ j, j < l.length ∧ l.getD j d = x := by
  have h2 : x ∈ l.take l.length := by
    rw [List.take_length]
    exact h
  rcases mem_take_getD d h2 with ⟨j, hj1, hj2, hj3⟩
  exact ⟨j, hj2, hj3⟩

theorem findLoop_sound {t : Trie} (hc : CoreInv t) {r : Nat} {tag : List (Str × Str)}
    (htag : StrictKeys tag) :
    ∀ (fuel : Nat) (stack : List (Nat × Nat)) (final : List Nat),
      (∀ e ∈ stack, EntryOK t r tag e) → (∀ m ∈ final, FinalOK t r tag m) →
      ∀ m ∈ findLoop t tag fuel stack final, FinalOK t r tag m := by
  intro fuel
  induction fuel with
  | zero =>
    intro stack final hstack hfinal m hm
    cases stack with
    | nil => exact hfinal m hm
    | cons e rest => exact hfinal m hm
  | succ f ih =>
    intro stack final hstack hfinal m hm
    cases stack with
    | nil => exact hfinal m hm
    | cons e rest =>
      have hEe : EntryOK t r tag e := hstack e (List.mem_cons_self _ _)
      have hrest : ∀ e2 ∈ rest, EntryOK t r tag e2 :=
        fun e2 h2 => hstack e2 (List.mem_cons_of_mem _ h2)
      have hfinal1 : ∀ m2 ∈ (if (getNode t e.2).isEmpty then e.2 :: final else final),
          FinalOK t r tag m2 := by
        by_cases hemp : (getNode t e.2).isEmpty
        · rw [if_pos hemp]
          intro m2 hm2
          rcases List.mem_cons.1 hm2 with h1 | h2
          · obtain ⟨hilen, P, hP, hK, hM⟩ := hEe
            rw [h1]
            refine ⟨P, hP, ?_⟩
            intro Q m3 hQ hstr
            cases Q with
            | nil =>
              rw [List.append_nil]
              intro kv hkv hmem
              rcases mem_getD ([], []) hkv with ⟨j, hjl, hje⟩
              by_cases hji : j < e.1
              · have hkv2 : kv ∈ tag.take e.1 := by
                  rw [← hje]
                  exact getD_mem_take ([], []) hji hjl
                rcases hM kv hkv2 with hin | ⟨hnot, _, _, _⟩
                · exact hin
                · exact absurd hmem hnot
              · exfalso
                have hKk := hK kv.1 hmem
                by_cases hij : e.1 = j
                · rw [hij, hje, lexLt_irrefl] at hKk
                  cases hKk
                · have h5 := strictKeys_getD_lt htag e.1 j (by omega) hjl ([], [])
                  rw [hje] at h5
                  have h6 := lexLt_trans hKk h5
                  rw [lexLt_irrefl] at h6
                  cases h6
            | cons q qs =>
              exfalso
              have hnode : getNode t e.2 = [] := List.isEmpty_iff.1 hemp
              have hQ2 : (childAt t e.2 q.1 q.2).bind
                  (fun c => followPath t c qs) = some m3 := hQ
              rw [childAt, hnode] at hQ2
              cases hQ2
          · exact hfinal m2 h2
        · rw [if_neg hemp]
          exact hfinal
      have hres := processBranches_sound hc htag e.1 e.2 hEe (getNode t e.2)
        (fun b hb => hb) rest
        (if (getNode t e.2).isEmpty then e.2 :: final else final) hrest hfinal1
      exact ih (processBranches tag e.1 (getNode t e.2) rest
          (if (getNode t e.2).isEmpty then e.2 :: final else final)).1
        (processBranches tag e.1 (getNode t e.2) rest
          (if (getNode t e.2).isEmpty then e.2 :: final else final)).2
        hres.1 hres.2 m hm

/-- A sound query answer entry: the terminal code of a real path from the
root that, whenever it has strictly ascending keys, is compatible with the
preprocessed constraints. -/
def SoundCode (t : Trie) (r : Nat) (tag : List (Str × Str)) (c : Nat) : Prop :=
  ∃ F n, followPath t r F = some n ∧ dataAt t n = some c ∧
    (StrictKeys F → Compat F tag)

theorem collectLoop_sound {t : Trie} (hc : CoreInv t) {r : Nat}
    {tag : List (Str × Str)} :
    ∀ (fuel : Nat) (stack answer : List Nat),
      (∀ n ∈ stack, FinalOK t r tag n) → (∀ c ∈ answer, SoundCode t r tag c) →
      ∀ c ∈ collectLoop t fuel stack answer, SoundCode t r tag c := by
  intro fuel
  induction fuel with
  | zero =>
    intro stack answer hstack hans c hcm
    cases stack with
    | nil => exact hans c hcm
    | cons e rest => exact hans c hcm
  | succ f ih =>
    intro stack answer hstack hans c hcm
    cases stack with
    | nil => exact hans c hcm
    | cons index rest =>
      obtain ⟨P, hP, hcomp⟩ := hstack index (List.mem_cons_self _ _)
      have hrest : ∀ n ∈ rest, FinalOK t r tag n :=
        fun n h => hstack n (List.mem_cons_of_mem _ h)
      have hans1 : ∀ c2 ∈ (match dataAt t index with
          | some c0 => answer ++ [c0] | none => answer), SoundCode t r tag c2 := by
        cases hd : dataAt t index with
        | none => exact hans
        | some c0 =>
          intro c2 hc2
          rcases List.mem_append.1 hc2 with h1 | h2
          · exact hans c2 h1
          · have hc0 : c2 = c0 := by simpa using h2
            rw [hc0]
            refine ⟨P, index, hP, hd, ?_⟩
            intro hstr
            have h3 := hcomp [] index rfl
              (by rw [List.append_nil]; exact hstr)
            rwa [List.append_nil] at h3
      have hpush : ∀ n2 ∈ ((getNode t index).flatMap fun b => b.2.map Prod.snd).reverse
          ++ rest, FinalOK t r tag n2 := by
        intro n2 hn2
        rcases List.mem_append.1 hn2 with h1 | h2
        · rw [List.mem_reverse] at h1
          rcases List.mem_flatMap.1 h1 with ⟨b, hb, hbm⟩
          rcases List.mem_map.1 hbm with ⟨p, hp, hpe⟩
          have hp2 : (p.1, n2) ∈ b.2 := by
            rw [← hpe]
            exact hp
          have hcm2 : childAt t index b.1 p.1 = some n2 := childAt_of_mem hc hb hp2
          have hPn2 : followPath t r (P ++ [(b.1, p.1)]) = some n2 :=
            followPath_snoc.2 ⟨index, hP, hcm2⟩
          refine ⟨P ++ [(b.1, p.1)], hPn2, ?_⟩
          intro Q m3 hQ hstr
          have h4 : followPath t index ((b.1, p.1) :: Q) = some m3 := by
            show (childAt t index b.1 p.1).bind _ = some m3
            rw [hcm2]
            exact hQ
          rw [List.append_assoc] at hstr ⊢
          exact hcomp ((b.1, p.1) :: Q) m3 h4 hstr
        · exact hrest n2 h2
      exact ih (((getNode t index).flatMap fun b => b.2.map Prod.snd).reverse ++ rest)
        (match dataAt t index with | some c0 => answer ++ [c0] | none => answer)
        hpush hans1 c hcm

theorem queryTrie_sound {t : Trie} {specs : List Spec} (hinv : TrieInv t specs)
    (pos : Str) (tag0 : List (Str × Str)) (htag : StrictKeys (preprocessTag tag0)) :
    ∀ c ∈ queryTrie t pos tag0, ∃ F, lastCodeFor specs pos F = some c ∧
      (StrictKeys F → Compat F (preprocessTag tag0)) := by
  intro c hcm
  rw [queryTrie] at hcm
  cases hroot : rootOf t pos with
  | none =>
    rw [hroot] at hcm
    cases hcm
  | some start =>
    rw [hroot] at hcm
    have hcm2 : c ∈ collectLoop t (trieFuel t)
        (findLoop t (preprocessTag tag0) (trieFuel t)
          (if (preprocessTag tag0).length > 0 then ([(0, start)], [])
            else ([], [start])).1
          (if (preprocessTag tag0).length > 0 then ([(0, start)], [])
            else ([], [start])).2) [] := hcm
    have hsound : SoundCode t start (preprocessTag tag0) c := by
      by_cases hlen : (preprocessTag tag0).length > 0
      · rw [if_pos hlen] at hcm2
        refine collectLoop_sound hinv.core (trieFuel t)
          (findLoop t (preprocessTag tag0) (trieFuel t) [(0, start)] []) []
          ?_ (fun c2 h2 => absurd h2 (List.not_mem_nil c2)) c hcm2
        refine findLoop_sound hinv.core htag (trieFuel t) [(0, start)] [] ?_
          (fun m h => absurd h (List.not_mem_nil m))
        intro e he
        have he2 : e = (0, start) := by simpa using he
        rw [he2]
        refine ⟨by simpa using hlen, [], rfl, ?_, ?_⟩
        · intro k hk
          cases hk
        · intro kv hkv
          cases hkv
      · rw [if_neg hlen] at hcm2
        refine collectLoop_sound hinv.core (trieFuel t)
          (findLoop t (preprocessTag tag0) (trieFuel t) [] [start]) []
          ?_ (fun c2 h2 => absurd h2 (List.not_mem_nil c2)) c hcm2
        refine findLoop_sound hinv.core htag (trieFuel t) [] [start]
          (fun e he => absurd he (List.not_mem_nil e)) ?_
        intro m hm
        have hm2 : m = start := by simpa using hm
        rw [hm2]
        refine ⟨[], rfl, ?_⟩
        intro Q m2 hQ hstr
        have htag0 : (preprocessTag tag0).length = 0 := by omega
        rw [List.length_eq_zero] at htag0
        rw [htag0]
        intro kv hkv
        cases hkv
    rcases hsound with ⟨F, n, hF, hd, hcompat⟩
    refine ⟨F, ?_, hcompat⟩
    rw [← hinv.pathChar pos start F n hroot hF]
    exact hd

/-! ## Completeness of the compatibility query: fuel accounting -/

/-- Stack potential of the closing walk: geometric weight by node index. -/
def potC (t : Trie) (stack : List Nat) : Nat :=
  (stack.map fun n => trieWidth t ^ (t.nodes.length - n)).sum

/-- Stack potential of the main walk. -/
def potF (t : Trie) (stack : List (Nat × Nat)) : Nat :=
  (stack.map fun e => trieWidth t ^ (t.nodes.length - e.2)).sum

theorem trieWidth_ge_two (t : Trie) : 2 ≤ trieWidth t := Nat.le_add_left 2 _

theorem le_foldr_max (l : List Nat) (x : Nat) (h : x ∈ l) : x ≤ l.foldr max 0 := by
  induction l with
  | nil => cases h
  | cons a rest ih =>
    rcases List.mem_cons.1 h with h1 | h2
    · rw [h1, List.foldr_cons]
      exact Nat.le_max_left _ _
    · rw [List.foldr_cons]
      exact le_trans (ih h2) (Nat.le_max_right _ _)

theorem nodeWidth_le (t : Trie) (i : Nat) :
    nodeWidth (getNode t i) ≤ trieWidth t - 2 := by
  rw [trieWidth, Nat.add_sub_cancel]
  by_cases hi : i < t.nodes.length
  · refine le_foldr_max _ _ ?_
    rw [getNode, List.getD_eq_getElem?_getD, List.getElem?_eq_getElem hi]
    exact List.mem_map_of_mem nodeWidth (List.getElem_mem _)
  · rw [getNode_of_ge t i (by omega)]
    exact Nat.zero_le _

theorem sum_le_len_mul (l : List Nat) (B : Nat) (h : ∀ x ∈ l, x ≤ B) :
    l.sum ≤ l.length * B := by
  induction l with
  | nil => simp
  | cons a rest ih =>
    rw [List.sum_cons, List.length_cons, Nat.succ_mul]
    have h1 := ih fun x hx => h x (List.mem_cons_of_mem _ hx)
    have h2 := h a (List.mem_cons_self _ _)
    omega

theorem potF_append (t : Trie) (xs ys : List (Nat × Nat)) :
    potF t (xs ++ ys) = potF t xs + potF t ys := by
  rw [potF, potF, potF, List.map_append, List.sum_append]

theorem potC_append (t : Trie) (xs ys : List Nat) :
    potC t (xs ++ ys) = potC t xs + potC t ys := by
  rw [potC, potC, potC, List.map_append, List.sum_append]

theorem potF_cons (t : Trie) (e : Nat × Nat) (xs : List (Nat × Nat)) :
    potF t (e :: xs) = trieWidth t ^ (t.nodes.length - e.2) + potF t xs := by
  rw [potF, potF, List.map_cons, List.sum_cons]

theorem potC_cons (t : Trie) (n : Nat) (xs : List Nat) :
    potC t (n :: xs) = trieWidth t ^ (t.nodes.length - n) + potC t xs := by
  rw [potC, potC, List.map_cons, List.sum_cons]

theorem potF_reverse (t : Trie) (xs : List (Nat × Nat)) :
    potF t xs.reverse = potF t xs := by
  rw [potF, potF, List.map_reverse, List.sum_reverse]

theorem potC_reverse (t : Trie) (xs : List Nat) :
    potC t xs.reverse = potC t xs := by
  rw [potC, potC, List.map_reverse, List.sum_reverse]

theorem mem_potF_le (t : Trie) (e : Nat × Nat) (xs : List (Nat × Nat)) (h : e ∈ xs) :
    trieWidth t ^ (t.nodes.length - e.2) ≤ potF t xs :=
  List.single_le_sum (fun x _ => Nat.zero_le x) _
    (List.mem_map_of_mem (fun e => trieWidth t ^ (t.nodes.length - e.2)) h)

theorem mem_potC_le (t : Trie) (n : Nat) (xs : List Nat) (h : n ∈ xs) :
    trieWidth t ^ (t.nodes.length - n) ≤ potC t xs :=
  List.single_le_sum (fun x _ => Nat.zero_le x) _
    (List.mem_map_of_mem (fun n => trieWidth t ^ (t.nodes.length - n)) h)

theorem one_le_pow_width (t : Trie) (k : Nat) : 1 ≤ trieWidth t ^ k :=
  Nat.one_le_pow _ _ (by have := trieWidth_ge_two t; omega)

theorem pow_width_le (t : Trie) {a b : Nat} (h : a ≤ b) :
    trieWidth t ^ a ≤ trieWidth t ^ b :=
  Nat.pow_le_pow_right (by have := trieWidth_ge_two t; omega) h

theorem findLoop_succ_cons (t : Trie) (tag : List (Str × Str)) (fuel : Nat)
    (e : Nat × Nat) (rest : List (Nat × Nat)) (final : List Nat) :
    findLoop t tag (fuel + 1) (e :: rest) final =
      findLoop t tag fuel
        (processBranches tag e.1 (getNode t e.2) rest
          (if (getNode t e.2).isEmpty then e.2 :: final else final)).1
        (processBranches tag e.1 (getNode t e.2) rest
          (if (getNode t e.2).isEmpty then e.2 :: final else final)).2 := rfl

theorem collectLoop_succ_cons (t : Trie) (fuel index : Nat) (rest answer : List Nat) :
    collectLoop t (fuel + 1) (index :: rest) answer =
      collectLoop t fuel
        (((getNode t index).flatMap fun b => b.2.map Prod.snd).reverse ++ rest)
        (match dataAt t index with
          | some c => answer ++ [c]
          | none => answer) := rfl

theorem processBranches_mono (tag : List (Str × Str)) (i : Nat) :
    ∀ (branches : NodeMap) (curr : List (Nat × Nat)) (final : List Nat),
      (∀ x ∈ curr, x ∈ (processBranches tag i branches curr final).1) ∧
      (∀ x ∈ final, x ∈ (processBranches tag i branches curr final).2) := by
  intro branches
  induction branches with
  | nil => exact fun curr final => ⟨fun x h => h, fun x h => h⟩
  | cons b bs ih =>
    intro curr final
    by_cases hA : i + skipCount (tag.drop i) b.1 = tag.length
    · rw [processBranches_cons_skipAll tag i b bs curr final hA]
      exact ⟨(ih _ _).1, fun x h => (ih _ _).2 x (List.mem_append_right _ h)⟩
    · by_cases hB : lexLt b.1 (tag.getD (i + skipCount (tag.drop i) b.1) ([], [])).1 = true
      · rw [processBranches_cons_lt tag i b bs curr final hA hB]
        exact ⟨fun x h => (ih _ _).1 x (List.mem_append_right _ h), (ih _ _).2⟩
      · cases hg : getA b.2 (tag.getD (i + skipCount (tag.drop i) b.1) ([], [])).2 with
        | none =>
          rw [processBranches_cons_miss tag i b bs curr final hA hB hg]
          exact ih _ _
        | some child =>
          rw [processBranches_cons_hit tag i b bs curr final child hA hB hg]
          by_cases hC : i + skipCount (tag.drop i) b.1 < tag.length - 1
          · rw [if_pos hC]
            exact ⟨fun x h => (ih _ _).1 x (List.mem_cons_of_mem _ h), (ih _ _).2⟩
          · rw [if_neg hC]
            exact ⟨(ih _ _).1, fun x h => (ih _ _).2 x (List.mem_cons_of_mem _ h)⟩

theorem findLoop_final_subset (t : Trie) (tag : List (Str × Str)) :
    ∀ (fuel : Nat) (stack : List (Nat × Nat)) (final : List Nat),
      ∀ x ∈ final, x ∈ findLoop t tag fuel stack final := by
  intro fuel
  induction fuel with
  | zero =>
    intro stack final x hx
    cases stack with
    | nil => exact hx
    | cons e rest => exact hx
  | succ f ih =>
    intro stack final x hx
    cases stack with
    | nil => exact hx
    | cons e rest =>
      rw [findLoop_succ_cons]
      refine ih _ _ x ?_
      refine (processBranches_mono tag e.1 (getNode t e.2) rest _).2 x ?_
      by_cases hemp : (getNode t e.2).isEmpty
      · rw [if_pos hemp]
        exact List.mem_cons_of_mem _ hx
      · rw [if_neg hemp]
        exact hx

theorem collectLoop_answer_subset (t : Trie) :
    ∀ (fuel : Nat) (stack answer : List Nat),
      ∀ x ∈ answer, x ∈ collectLoop t fuel stack answer := by
  intro fuel
  induction fuel with
  | zero =>
    intro stack answer x hx
    cases stack with
    | nil => exact hx
    | cons e rest => exact hx
  | succ f ih =>
    intro stack answer x hx
    cases stack with
    | nil => exact hx
    | cons index rest =>
      rw [collectLoop_succ_cons]
      refine ih _ _ x ?_
      cases hd : dataAt t index with
      | none => exact hx
      | some c => exact List.mem_append_left _ hx

theorem processBranches_bound {t : Trie} (hc : CoreInv t) (tag : List (Str × Str))
    (i n : Nat) :
    ∀ (branches : NodeMap), (∀ b ∈ branches, b ∈ getNode t n) →
    ∀ (curr : List (Nat × Nat)) (final : List Nat),
      (∀ e ∈ curr, e.2 < t.nodes.length) → (∀ m ∈ final, m < t.nodes.length) →
      (∀ e ∈ (processBranches tag i branches curr final).1, e.2 < t.nodes.length) ∧
      (∀ m ∈ (processBranches tag i branches curr final).2, m < t.nodes.length) := by
  intro branches
  induction branches with
  | nil => exact fun _ curr final hcurr hfinal => ⟨hcurr, hfinal⟩
  | cons b bs ih =>
    intro hbr curr final hcurr hfinal
    have hbmem : b ∈ getNode t n := hbr b (List.mem_cons_self _ _)
    have hbs : ∀ b2 ∈ bs, b2 ∈ getNode t n := fun b2 h => hbr b2 (List.mem_cons_of_mem _ h)
    have hch : ∀ v0 c0, (v0, c0) ∈ b.2 → n < c0 ∧ c0 < t.nodes.length :=
      fun v0 c0 hv => hc.childBound n b.1 v0 c0 (childAt_of_mem hc hbmem hv)
    by_cases hA : i + skipCount (tag.drop i) b.1 = tag.length
    · rw [processBranches_cons_skipAll tag i b bs curr final hA]
      refine ih hbs curr _ hcurr ?_
      intro m hm
      rcases List.mem_append.1 hm with h1 | h2
      · rw [List.mem_reverse] at h1
        rcases List.mem_map.1 h1 with ⟨p, hp, hpe⟩
        have hp2 : (p.1, m) ∈ b.2 := by
          rw [← hpe]
          exact hp
        exact (hch p.1 m hp2).2
      · exact hfinal m h2
    · by_cases hB : lexLt b.1 (tag.getD (i + skipCount (tag.drop i) b.1) ([], [])).1 = true
      · rw [processBranches_cons_lt tag i b bs curr final hA hB]
        refine ih hbs _ final ?_ hfinal
        intro e he
        rcases List.mem_append.1 he with h1 | h2
        · rw [List.mem_reverse] at h1
          rcases List.mem_map.1 h1 with ⟨p, hp, hpe⟩
          rw [← hpe]
          exact (hch p.1 p.2 hp).2
        · exact hcurr e h2
      · cases hg : getA b.2 (tag.getD (i + skipCount (tag.drop i) b.1) ([], [])).2 with
        | none =>
          rw [processBranches_cons_miss tag i b bs curr final hA hB hg]
          exact ih hbs curr final hcurr hfinal
        | some child =>
          have hcb := hch _ child (mem_of_getA hg)
          rw [processBranches_cons_hit tag i b bs curr final child hA hB hg]
          by_cases hC : i + skipCount (tag.drop i) b.1 < tag.length - 1
          · rw [if_pos hC]
            refine ih hbs _ final ?_ hfinal
            intro e he
            rcases List.mem_cons.1 he with h1 | h2
            · rw [h1]
              exact hcb.2
            · exact hcurr e h2
          · rw [if_neg hC]
            refine ih hbs curr _ hcurr ?_
            intro m hm
            rcases List.mem_cons.1 hm with h1 | h2
            · rw [h1]
              exact hcb.2
            · exact hfinal m h2

theorem processBranches_pot {t : Trie} (hc : CoreInv t) (tag : List (Str × Str))
    (i n : Nat) :
    ∀ (branches : NodeMap), (∀ b ∈ branches, b ∈ getNode t n) →
    ∀ (curr : List (Nat × Nat)) (final : List Nat),
      2 * potF t (processBranches tag i branches curr final).1 +
        potC t (processBranches tag i branches curr final).2 ≤
      2 * potF t curr + potC t final +
        2 * (nodeWidth branches * trieWidth t ^ (t.nodes.length - n - 1)) := by
  intro branches
  induction branches with
  | nil =>
    intro _ curr final
    show 2 * potF t curr + potC t final ≤ _
    omega
  | cons b bs ih =>
    intro hbr curr final
    have hbmem : b ∈ getNode t n := hbr b (List.mem_cons_self _ _)
    have hbs : ∀ b2 ∈ bs, b2 ∈ getNode t n := fun b2 h => hbr b2 (List.mem_cons_of_mem _ h)
    have hch : ∀ v0 c0, (v0, c0) ∈ b.2 → n < c0 ∧ c0 < t.nodes.length :=
      fun v0 c0 hv => hc.childBound n b.1 v0 c0 (childAt_of_mem hc hbmem hv)
    have hnw : nodeWidth (b :: bs) * trieWidth t ^ (t.nodes.length - n - 1) =
        b.2.length * trieWidth t ^ (t.nodes.length - n - 1) +
        nodeWidth bs * trieWidth t ^ (t.nodes.length - n - 1) := by
      rw [show nodeWidth (b :: bs) = b.2.length + nodeWidth bs from by
        rw [nodeWidth, nodeWidth, List.map_cons, List.sum_cons], Nat.add_mul]
    by_cases hA : i + skipCount (tag.drop i) b.1 = tag.length
    · rw [processBranches_cons_skipAll tag i b bs curr final hA]
      have h1 := ih hbs curr ((b.2.map Prod.snd).reverse ++ final)
      have h2 : potC t ((b.2.map Prod.snd).reverse ++ final) ≤
          b.2.length * trieWidth t ^ (t.nodes.length - n - 1) + potC t final := by
        rw [potC_append, potC_reverse]
        have h3 : potC t (b.2.map Prod.snd) ≤
            b.2.length * trieWidth t ^ (t.nodes.length - n - 1) := by
          rw [potC]
          refine le_trans
            (sum_le_len_mul _ (trieWidth t ^ (t.nodes.length - n - 1)) ?_) (by simp)
          intro x hx
          rcases List.mem_map.1 hx with ⟨m, hm, hme⟩
          rcases List.mem_map.1 hm with ⟨p, hp, hpe⟩
          rw [← hme]
          have hb2 := hch p.1 m (by rw [← hpe]; exact hp)
          exact pow_width_le t (by omega)
        omega
      omega
    · by_cases hB : lexLt b.1 (tag.getD (i + skipCount (tag.drop i) b.1) ([], [])).1 = true
      · rw [processBranches_cons_lt tag i b bs curr final hA hB]
        have h1 := ih hbs ((b.2.map fun p =>
          (i + skipCount (tag.drop i) b.1, p.2)).reverse ++ curr) final
        have h2 : potF t ((b.2.map fun p =>
            (i + skipCount (tag.drop i) b.1, p.2)).reverse ++ curr) ≤
            b.2.length * trieWidth t ^ (t.nodes.length - n - 1) + potF t curr := by
          rw [potF_append, potF_reverse]
          have h3 : potF t (b.2.map fun p => (i + skipCount (tag.drop i) b.1, p.2)) ≤
              b.2.length * trieWidth t ^ (t.nodes.length - n - 1) := by
            rw [potF]
            refine le_trans
              (sum_le_len_mul _ (trieWidth t ^ (t.nodes.length - n - 1)) ?_) (by simp)
            intro x hx
            rcases List.mem_map.1 hx with ⟨e, he, hee⟩
            rcases List.mem_map.1 he with ⟨p, hp, hpe⟩
            rw [← hee]
            have hb2 := hch p.1 p.2 hp
            rw [← hpe]
            exact pow_width_le t (by omega)
          omega
        omega
      · cases hg : getA b.2 (tag.getD (i + skipCount (tag.drop i) b.1) ([], [])).2 with
        | none =>
          rw [processBranches_cons_miss tag i b bs curr final hA hB hg]
          have h1 := ih hbs curr final
          omega
        | some child =>
          have hcb := hch _ child (mem_of_getA hg)
          have hlen : 1 ≤ b.2.length :=
            List.length_pos.2 (List.ne_nil_of_mem (mem_of_getA hg))
          have hc1 : trieWidth t ^ (t.nodes.length - child) ≤
              trieWidth t ^ (t.nodes.length - n - 1) := pow_width_le t (by omega)
          have hc2 : trieWidth t ^ (t.nodes.length - n - 1) ≤
              b.2.length * trieWidth t ^ (t.nodes.length - n - 1) := by
            have := Nat.mul_le_mul_right
              (trieWidth t ^ (t.nodes.length - n - 1)) hlen
            simpa using this
          rw [processBranches_cons_hit tag i b bs curr final child hA hB hg]
          by_cases hC : i + skipCount (tag.drop i) b.1 < tag.length - 1
          · rw [if_pos hC]
            have h1 := ih hbs ((i + skipCount (tag.drop i) b.1 + 1, child) :: curr) final
            rw [potF_cons] at h1
            rw [show ((i + skipCount (tag.drop i) b.1 + 1, child) : Nat × Nat).2 = child
              from rfl] at h1
            omega
          · rw [if_neg hC]
            have h1 := ih hbs curr (child :: final)
            rw [potC_cons] at h1
            omega

theorem findLoop_step_pot {t : Trie} (hc : CoreInv t) (tag : List (Str × Str))
    (e : Nat × Nat) (rest : List (Nat × Nat)) (final : List Nat)
    (he : e.2 < t.nodes.length) :
    2 * potF t (processBranches tag e.1 (getNode t e.2) rest
        (if (getNode t e.2).isEmpty then e.2 :: final else final)).1 +
      potC t (processBranches tag e.1 (getNode t e.2) rest
        (if (getNode t e.2).isEmpty then e.2 :: final else final)).2 + 1 ≤
    2 * potF t (e :: rest) + potC t final := by
  have hW := trieWidth_ge_two t
  have hone := one_le_pow_width t (t.nodes.length - e.2)
  have hsucc : t.nodes.length - e.2 = (t.nodes.length - e.2 - 1) + 1 := by omega
  have hpows : trieWidth t ^ (t.nodes.length - e.2) =
      trieWidth t ^ (t.nodes.length - e.2 - 1) * trieWidth t := by
    rw [hsucc, pow_succ, Nat.add_sub_cancel]
  rw [potF_cons]
  by_cases hemp : (getNode t e.2).isEmpty
  · rw [if_pos hemp]
    have hnode : getNode t e.2 = [] := List.isEmpty_iff.1 hemp
    rw [hnode]
    show 2 * potF t rest + potC t (e.2 :: final) + 1 ≤ _
    rw [potC_cons]
    omega
  · rw [if_neg hemp]
    have h1 := processBranches_pot hc tag e.1 e.2 (getNode t e.2)
      (fun b hb => hb) rest final
    have h2 : nodeWidth (getNode t e.2) ≤ trieWidth t - 2 := nodeWidth_le t e.2
    have h3 : nodeWidth (getNode t e.2) * trieWidth t ^ (t.nodes.length - e.2 - 1) ≤
        (trieWidth t - 2) * trieWidth t ^ (t.nodes.length - e.2 - 1) :=
      Nat.mul_le_mul_right _ h2
    have h4 : (trieWidth t - 2) * trieWidth t ^ (t.nodes.length - e.2 - 1) +
        2 * trieWidth t ^ (t.nodes.length - e.2 - 1) =
        trieWidth t ^ (t.nodes.length - e.2) := by
      rw [hpows, ← Nat.add_mul]
      rw [show trieWidth t - 2 + 2 = trieWidth t from by omega]
      rw [Nat.mul_comm]
    have hone2 := one_le_pow_width t (t.nodes.length - e.2 - 1)
    omega

theorem potC_pushes_le {t : Trie} (hc : CoreInv t) (index : Nat) :
    ∀ (branches : NodeMap), (∀ b ∈ branches, b ∈ getNode t index) →
    potC t (branches.flatMap fun b => b.2.map Prod.snd) ≤
      nodeWidth branches * trieWidth t ^ (t.nodes.length - index - 1) := by
  intro branches
  induction branches with
  | nil =>
    intro _
    exact Nat.zero_le _
  | cons b bs ih =>
    intro hbr
    have hbmem : b ∈ getNode t index := hbr b (List.mem_cons_self _ _)
    have hbs : ∀ b2 ∈ bs, b2 ∈ getNode t index :=
      fun b2 h => hbr b2 (List.mem_cons_of_mem _ h)
    have hch : ∀ v0 c0, (v0, c0) ∈ b.2 → index < c0 ∧ c0 < t.nodes.length :=
      fun v0 c0 hv => hc.childBound index b.1 v0 c0 (childAt_of_mem hc hbmem hv)
    rw [List.flatMap_cons, potC_append]
    have h3 : potC t (b.2.map Prod.snd) ≤
        b.2.length * trieWidth t ^ (t.nodes.length - index - 1) := by
      rw [potC]
      refine le_trans
        (sum_le_len_mul _ (trieWidth t ^ (t.nodes.length - index - 1)) ?_) (by simp)
      intro x hx
      rcases List.mem_map.1 hx with ⟨m, hm, hme⟩
      rcases List.mem_map.1 hm with ⟨p, hp, hpe⟩
      rw [← hme]
      have hb2 := hch p.1 m (by rw [← hpe]; exact hp)
      exact pow_width_le t (by omega)
    have h4 := ih hbs
    have hnw : nodeWidth (b :: bs) * trieWidth t ^ (t.nodes.length - index - 1) =
        b.2.length * trieWidth t ^ (t.nodes.length - index - 1) +
        nodeWidth bs * trieWidth t ^ (t.nodes.length - index - 1) := by
      rw [show nodeWidth (b :: bs) = b.2.length + nodeWidth bs from by
        rw [nodeWidth, nodeWidth, List.map_cons, List.sum_cons], Nat.add_mul]
    omega

theorem pushes_bound {t : Trie} (hc : CoreInv t) (index : Nat) :
    ∀ x ∈ (getNode t index).flatMap fun b => b.2.map Prod.snd,
      index < x ∧ x < t.nodes.length := by
  intro x hx
  rcases List.mem_flatMap.1 hx with ⟨b, hb, hbm⟩
  rcases List.mem_map.1 hbm with ⟨p, hp, hpe⟩
  have hp2 : (p.1, x) ∈ b.2 := by
    rw [← hpe]
    exact hp
  exact hc.childBound index b.1 p.1 x (childAt_of_mem hc hb hp2)

theorem collectLoop_step_pot {t : Trie} (hc : CoreInv t) (index : Nat)
    (rest : List Nat) (hi : index < t.nodes.length) :
    potC t (((getNode t index).flatMap fun b => b.2.map Prod.snd).reverse ++ rest) + 1 ≤
      potC t (index :: rest) := by
  have hW := trieWidth_ge_two t
  have hsucc : t.nodes.length - index = (t.nodes.length - index - 1) + 1 := by omega
  have hpows : trieWidth t ^ (t.nodes.length - index) =
      trieWidth t ^ (t.nodes.length - index - 1) * trieWidth t := by
    rw [hsucc, pow_succ, Nat.add_sub_cancel]
  rw [potC_append, potC_reverse, potC_cons]
  have h1 := potC_pushes_le hc index (getNode t index) (fun b hb => hb)
  have h2 : nodeWidth (getNode t index) *
      trieWidth t ^ (t.nodes.length - index - 1) ≤
      (trieWidth t - 2) * trieWidth t ^ (t.nodes.length - index - 1) :=
    Nat.mul_le_mul_right _ (nodeWidth_le t index)
  have h4 : (trieWidth t - 2) * trieWidth t ^ (t.nodes.length - index - 1) +
      2 * trieWidth t ^ (t.nodes.length - index - 1) =
      trieWidth t ^ (t.nodes.length - index) := by
    rw [hpows, ← Nat.add_mul]
    rw [show trieWidth t - 2 + 2 = trieWidth t from by omega]
    rw [Nat.mul_comm]
  have hone2 := one_le_pow_width t (t.nodes.length - index - 1)
  omega

theorem getD_of_lt {α : Type} (l : List α) (j : Nat) (d : α) (h : j < l.length) :
    l.getD j d = l[j] := by
  rw [List.getD_eq_getElem?_getD, List.getElem?_eq_getElem h]
  rfl

theorem skipCount_self (tag : List (Str × Str)) (i : Nat) (h : i < tag.length) :
    skipCount (tag.drop i) (tag.getD i ([], [])).1 = 0 := by
  rw [List.drop_eq_getElem_cons h, skipCount]
  rw [getD_of_lt _ _ _ h, lexLt_irrefl]
  simp

theorem childAt_decomp {t : Trie} {x : Nat} {k v : Str} {c : Nat}
    (h : childAt t x k v = some c) :
    ∃ vd, getA (getNode t x) k = some vd ∧ getA vd v = some c := by
  rw [childAt] at h
  cases hg : getA (getNode t x) k with
  | none =>
    rw [hg] at h
    cases h
  | some vd =>
    rw [hg] at h
    exact ⟨vd, rfl, h⟩

theorem processBranches_hitMem (tag : List (Str × Str)) (i : Nat) :
    ∀ (branches : NodeMap) (curr : List (Nat × Nat)) (final : List Nat)
      (vd : List (Str × Nat)) (child : Nat),
      ((tag.getD i ([], [])).1, vd) ∈ branches → i < tag.length →
      skipCount (tag.drop i) (tag.getD i ([], [])).1 = 0 →
      getA vd (tag.getD i ([], [])).2 = some child →
      (i < tag.length - 1 →
        (i + 1, child) ∈ (processBranches tag i branches curr final).1) ∧
      (¬i < tag.length - 1 →
        child ∈ (processBranches tag i branches curr final).2) := by
  intro branches
  induction branches with
  | nil =>
    intro curr final vd child hmem
    cases hmem
  | cons b bs ih =>
    intro curr final vd child hmem hlen hsk hg
    rcases List.mem_cons.1 hmem with hb | hbs
    · have hb1 : b.1 = (tag.getD i ([], [])).1 := by
        rw [← hb]
      have hb2 : b.2 = vd := by
        rw [← hb]
      have hsk2 : skipCount (tag.drop i) b.1 = 0 := by
        rw [hb1]
        exact hsk
      have hA : ¬i + skipCount (tag.drop i) b.1 = tag.length := by
        rw [hsk2]
        omega
      have hB : ¬lexLt b.1 (tag.getD (i + skipCount (tag.drop i) b.1) ([], [])).1
          = true := by
        rw [hsk2, Nat.add_zero, hb1, lexLt_irrefl]
        simp
      have hg2 : getA b.2 (tag.getD (i + skipCount (tag.drop i) b.1) ([], [])).2
          = some child := by
        rw [hsk2, Nat.add_zero, hb2]
        exact hg
      rw [processBranches_cons_hit tag i b bs curr final child hA hB hg2]
      constructor
      · intro hC
        rw [if_pos (by rw [hsk2]; omega)]
        refine (processBranches_mono tag i bs _ final).1 _ ?_
        rw [hsk2, Nat.add_zero]
        exact List.mem_cons_self _ _
      · intro hC
        rw [if_neg (by rw [hsk2]; omega)]
        refine (processBranches_mono tag i bs curr _).2 _ ?_
        exact List.mem_cons_self _ _
    · by_cases hA : i + skipCount (tag.drop i) b.1 = tag.length
      · rw [processBranches_cons_skipAll tag i b bs curr final hA]
        exact ih _ _ vd child hbs hlen hsk hg
      · by_cases hB : lexLt b.1 (tag.getD (i + skipCount (tag.drop i) b.1) ([], [])).1
            = true
        · rw [processBranches_cons_lt tag i b bs curr final hA hB]
          exact ih _ _ vd child hbs hlen hsk hg
        · cases hg0 : getA b.2 (tag.getD (i + skipCount (tag.drop i) b.1) ([], [])).2 with
          | none =>
            rw [processBranches_cons_miss tag i b bs curr final hA hB hg0]
            exact ih _ _ vd child hbs hlen hsk hg
          | some child0 =>
            rw [processBranches_cons_hit tag i b bs curr final child0 hA hB hg0]
            by_cases hC : i + skipCount (tag.drop i) b.1 < tag.length - 1
            · rw [if_pos hC]
              exact ih _ _ vd child hbs hlen hsk hg
            · rw [if_neg hC]
              exact ih _ _ vd child hbs hlen hsk hg

theorem findLoop_pot_bound {t : Trie} (hc : CoreInv t) (tag : List (Str × Str)) :
    ∀ (fuel : Nat) (stack : List (Nat × Nat)) (final : List Nat),
      (∀ e ∈ stack, e.2 < t.nodes.length) → (∀ m ∈ final, m < t.nodes.length) →
      potC t (findLoop t tag fuel stack final) ≤ 2 * potF t stack + potC t final := by
  intro fuel
  induction fuel with
  | zero =>
    intro stack final hstack hfinal
    cases stack with
    | nil =>
      show potC t final ≤ _
      omega
    | cons e rest =>
      show potC t final ≤ _
      omega
  | succ f ih =>
    intro stack final hstack hfinal
    cases stack with
    | nil =>
      show potC t final ≤ _
      omega
    | cons e rest =>
      rw [findLoop_succ_cons]
      have hf1 : ∀ m ∈ (if (getNode t e.2).isEmpty then e.2 :: final else final),
          m < t.nodes.length := by
        by_cases hemp : (getNode t e.2).isEmpty
        · rw [if_pos hemp]
          intro m hm
          rcases List.mem_cons.1 hm with h1 | h2
          · rw [h1]
            exact hstack e (List.mem_cons_self _ _)
          · exact hfinal m h2
        · rw [if_neg hemp]
          exact hfinal
      have hb := processBranches_bound hc tag e.1 e.2 (getNode t e.2) (fun b hb => hb)
        rest _ (fun e2 h2 => hstack e2 (List.mem_cons_of_mem _ h2)) hf1
      have hstep := findLoop_step_pot hc tag e rest final
        (hstack e (List.mem_cons_self _ _))
      have hrec := ih _ _ hb.1 hb.2
      omega

theorem findLoop_final_bound {t : Trie} (hc : CoreInv t) (tag : List (Str × Str)) :
    ∀ (fuel : Nat) (stack : List (Nat × Nat)) (final : List Nat),
      (∀ e ∈ stack, e.2 < t.nodes.length) → (∀ m ∈ final, m < t.nodes.length) →
      ∀ m ∈ findLoop t tag fuel stack final, m < t.nodes.length := by
  intro fuel
  induction fuel with
  | zero =>
    intro stack final hstack hfinal m hm
    cases stack with
    | nil => exact hfinal m hm
    | cons e rest => exact hfinal m hm
  | succ f ih =>
    intro stack final hstack hfinal m hm
    cases stack with
    | nil => exact hfinal m hm
    | cons e rest =>
      rw [findLoop_succ_cons] at hm
      have hf1 : ∀ m2 ∈ (if (getNode t e.2).isEmpty then e.2 :: final else final),
          m2 < t.nodes.length := by
        by_cases hemp : (getNode t e.2).isEmpty
        · rw [if_pos hemp]
          intro m2 hm2
          rcases List.mem_cons.1 hm2 with h1 | h2
          · rw [h1]
            exact hstack e (List.mem_cons_self _ _)
          · exact hfinal m2 h2
        · rw [if_neg hemp]
          exact hfinal
      have hb := processBranches_bound hc tag e.1 e.2 (getNode t e.2) (fun b hb => hb)
        rest _ (fun e2 h2 => hstack e2 (List.mem_cons_of_mem _ h2)) hf1
      exact ih _ _ hb.1 hb.2 m hm

theorem findLoop_reaches {t : Trie} (hc : CoreInv t) (tag : List (Str × Str)) :
    ∀ (fuel : Nat) (stack : List (Nat × Nat)) (final : List Nat),
      (∀ e ∈ stack, e.2 < t.nodes.length) → (∀ m ∈ final, m < t.nodes.length) →
      2 * potF t stack + potC t final ≤ fuel →
      ∀ i n m, (i, n) ∈ stack → i < tag.length →
        followPath t n (tag.drop i) = some m →
        m ∈ findLoop t tag fuel stack final := by
  intro fuel
  induction fuel with
  | zero =>
    intro stack final hstack hfinal hpot i n m hmem hlen hfp
    exfalso
    have h1 := mem_potF_le t (i, n) stack hmem
    have h2 := one_le_pow_width t (t.nodes.length - (i, n).2)
    omega
  | succ f ih =>
    intro stack final hstack hfinal hpot i n m hmem hlen hfp
    cases stack with
    | nil => cases hmem
    | cons e rest =>
      rw [findLoop_succ_cons]
      have hf1 : ∀ m2 ∈ (if (getNode t e.2).isEmpty then e.2 :: final else final),
          m2 < t.nodes.length := by
        by_cases hemp : (getNode t e.2).isEmpty
        · rw [if_pos hemp]
          intro m2 hm2
          rcases List.mem_cons.1 hm2 with h1 | h2
          · rw [h1]
            exact hstack e (List.mem_cons_self _ _)
          · exact hfinal m2 h2
        · rw [if_neg hemp]
          exact hfinal
      have hb := processBranches_bound hc tag e.1 e.2 (getNode t e.2) (fun b hb => hb)
        rest _ (fun e2 h2 => hstack e2 (List.mem_cons_of_mem _ h2)) hf1
      have hstep := findLoop_step_pot hc tag e rest final
        (hstack e (List.mem_cons_self _ _))
      rcases List.mem_cons.1 hmem with he | hrest2
      · subst he
        have hdrop : tag.drop i = tag.getD i ([], []) :: tag.drop (i + 1) := by
          rw [List.drop_eq_getElem_cons hlen, getD_of_lt _ _ _ hlen]
        rw [hdrop] at hfp
        have hfp2 : (childAt t n (tag.getD i ([], [])).1 (tag.getD i ([], [])).2).bind
            (fun c => followPath t c (tag.drop (i + 1))) = some m := hfp
        cases hcc : childAt t n (tag.getD i ([], [])).1 (tag.getD i ([], [])).2 with
        | none =>
          rw [hcc] at hfp2
          cases hfp2
        | some child =>
          rw [hcc] at hfp2
          have hfp3 : followPath t child (tag.drop (i + 1)) = some m := hfp2
          rcases childAt_decomp hcc with ⟨vd, hvd, hga⟩
          have hvmem : ((tag.getD i ([], [])).1, vd) ∈ getNode t n := mem_of_getA hvd
          have hhit := processBranches_hitMem tag i (getNode t n) rest
            (if (getNode t n).isEmpty then n :: final else final) vd child hvmem hlen
            (skipCount_self tag i hlen) hga
          by_cases hC : i < tag.length - 1
          · exact ih _ _ hb.1 hb.2 (by omega) (i + 1) child m (hhit.1 hC)
              (by omega) hfp3
          · have hdone : tag.drop (i + 1) = [] := List.drop_eq_nil_of_le (by omega)
            rw [hdone] at hfp3
            have hm : m = child := (Option.some.inj hfp3).symm
            rw [hm]
            exact findLoop_final_subset t tag f _ _ child (hhit.2 hC)
      · have hmem2 : (i, n) ∈ (processBranches tag e.1 (getNode t e.2) rest
            (if (getNode t e.2).isEmpty then e.2 :: final else final)).1 :=
          (processBranches_mono tag e.1 (getNode t e.2) rest _).1 _ hrest2
        exact ih _ _ hb.1 hb.2 (by omega) i n m hmem2 hlen hfp

theorem collectLoop_reaches {t : Trie} (hc : CoreInv t) :
    ∀ (fuel : Nat) (stack answer : List Nat),
      (∀ n ∈ stack, n < t.nodes.length) →
      potC t stack ≤ fuel →
      ∀ n ∈ stack, ∀ Q m c, followPath t n Q = some m → dataAt t m = some c →
        c ∈ collectLoop t fuel stack answer := by
  intro fuel
  induction fuel with
  | zero =>
    intro stack answer hstack hpot n hn Q m c hfp hd
    exfalso
    have h1 := mem_potC_le t n stack hn
    have h2 := one_le_pow_width t (t.nodes.length - n)
    omega
  | succ f ih =>
    intro stack answer hstack hpot n hn Q m c hfp hd
    cases stack with
    | nil => cases hn
    | cons index rest =>
      rw [collectLoop_succ_cons]
      have hibound : index < t.nodes.length := hstack index (List.mem_cons_self _ _)
      have hstep := collectLoop_step_pot hc index rest hibound
      have hnewbound : ∀ x ∈ ((getNode t index).flatMap fun b =>
          b.2.map Prod.snd).reverse ++ rest, x < t.nodes.length := by
        intro x hx
        rcases List.mem_append.1 hx with h1 | h2
        · rw [List.mem_reverse] at h1
          exact (pushes_bound hc index x h1).2
        · exact hstack x (List.mem_cons_of_mem _ h2)
      rcases List.mem_cons.1 hn with h1 | h2
      · subst h1
        cases Q with
        | nil =>
          have hm : m = n := (Option.some.inj hfp).symm
          rw [hm] at hd
          refine collectLoop_answer_subset t f _ _ c ?_
          have heq : (match dataAt t n with
              | some c0 => answer ++ [c0] | none => answer) = answer ++ [c] := by
            rw [hd]
          rw [heq]
          exact List.mem_append_right _ (List.mem_singleton_self _)
        | cons q qs =>
          have hfp2 : (childAt t n q.1 q.2).bind
              (fun c2 => followPath t c2 qs) = some m := hfp
          cases hcc : childAt t n q.1 q.2 with
          | none =>
            rw [hcc] at hfp2
            cases hfp2
          | some c1 =>
            rw [hcc] at hfp2
            have hfp3 : followPath t c1 qs = some m := hfp2
            rcases childAt_decomp hcc with ⟨vd, hvd, hga⟩
            have hc1mem : c1 ∈ (getNode t n).flatMap fun b => b.2.map Prod.snd :=
              List.mem_flatMap.2 ⟨(q.1, vd), mem_of_getA hvd,
                List.mem_map.2 ⟨(q.2, c1), mem_of_getA hga, rfl⟩⟩
            refine ih _ _ hnewbound (by omega) c1 ?_ qs m c hfp3 hd
            exact List.mem_append_left _ (List.mem_reverse.2 hc1mem)
      · exact ih _ _ hnewbound (by omega) n (List.mem_append_right _ h2) Q m c hfp hd

theorem findLoop_nil (t : Trie) (tag : List (Str × Str)) (fuel : Nat)
    (final : List Nat) : findLoop t tag fuel [] final = final := by
  cases fuel with
  | zero => rfl
  | succ f => rfl

theorem potF_nil (t : Trie) : potF t [] = 0 := rfl

theorem potC_nil (t : Trie) : potC t [] = 0 := rfl

theorem two_pow_le_trieFuel (t : Trie) (r : Nat) :
    2 * trieWidth t ^ (t.nodes.length - r) ≤ trieFuel t := by
  have hW := trieWidth_ge_two t
  have h1 : trieWidth t ^ (t.nodes.length - r) ≤ trieWidth t ^ t.nodes.length :=
    pow_width_le t (Nat.sub_le _ _)
  have h2 : 2 * trieWidth t ^ (t.nodes.length - r) ≤
      trieWidth t * trieWidth t ^ t.nodes.length := Nat.mul_le_mul hW h1
  rw [trieFuel, pow_succ, Nat.mul_comm (trieWidth t ^ t.nodes.length) (trieWidth t)]
  exact h2

theorem queryTrie_wildcard_complete {t : Trie} {specs : List Spec}
    (hinv : TrieInv t specs) (pos : Str) (tag0 : List (Str × Str))
    (htag : preprocessTag tag0 = []) :
    ∀ F c, lastCodeFor specs pos F = some c → c ∈ queryTrie t pos tag0 := by
  intro F c hlast
  rcases hinv.pathEx pos F c hlast with ⟨r, nF, hr, hF⟩
  have hdata : dataAt t nF = some c := by
    rw [hinv.pathChar pos r F nF hr hF]
    exact hlast
  rw [queryTrie, hr]
  show c ∈ collectLoop t (trieFuel t)
    (findLoop t (preprocessTag tag0) (trieFuel t)
      (if (preprocessTag tag0).length > 0 then ([(0, r)], []) else ([], [r])).1
      (if (preprocessTag tag0).length > 0 then ([(0, r)], []) else ([], [r])).2) []
  rw [if_neg (by rw [htag]; simp)]
  show c ∈ collectLoop t (trieFuel t)
    (findLoop t (preprocessTag tag0) (trieFuel t) [] [r]) []
  rw [findLoop_nil]
  have hrN : r < t.nodes.length := (hinv.core.rootPos pos r hr).2
  have hpot : potC t [r] ≤ trieFuel t := by
    rw [potC_cons, potC_nil]
    have h2 := two_pow_le_trieFuel t r
    omega
  exact collectLoop_reaches hinv.core (trieFuel t) [r] []
    (fun x hx => by rw [show x = r from by simpa using hx]; exact hrN) hpot
    r (List.mem_singleton_self _) F nF c hF hdata

theorem queryTrie_exact_complete {t : Trie} {specs : List Spec}
    (hinv : TrieInv t specs) (pos : Str) (tag0 F : List (Str × Str)) (c : Nat)
    (hpre : preprocessTag tag0 = F) (hFne : F ≠ [])
    (hlast : lastCodeFor specs pos F = some c) :
    c ∈ queryTrie t pos tag0 := by
  rcases hinv.pathEx pos F c hlast with ⟨r, nF, hr, hF⟩
  have hdata : dataAt t nF = some c := by
    rw [hinv.pathChar pos r F nF hr hF]
    exact hlast
  have hrN : r < t.nodes.length := (hinv.core.rootPos pos r hr).2
  have hlen : 0 < (preprocessTag tag0).length := by
    rw [hpre]
    exact List.length_pos.2 hFne
  rw [queryTrie, hr]
  show c ∈ collectLoop t (trieFuel t)
    (findLoop t (preprocessTag tag0) (trieFuel t)
      (if (preprocessTag tag0).length > 0 then ([(0, r)], []) else ([], [r])).1
      (if (preprocessTag tag0).length > 0 then ([(0, r)], []) else ([], [r])).2) []
  rw [if_pos hlen]
  show c ∈ collectLoop t (trieFuel t)
    (findLoop t (preprocessTag tag0) (trieFuel t) [(0, r)] []) []
  have hstackb : ∀ e ∈ [((0 : Nat), r)], e.2 < t.nodes.length := by
    intro e he
    rw [show e = (0, r) from by simpa using he]
    exact hrN
  have hfinalb : ∀ m ∈ ([] : List Nat), m < t.nodes.length :=
    fun m hm => absurd hm (List.not_mem_nil m)
  have hpot0 : 2 * potF t [(0, r)] + potC t [] ≤ trieFuel t := by
    rw [potF_cons, potF_nil, potC_nil]
    show 2 * (trieWidth t ^ (t.nodes.length - r) + 0) + 0 ≤ trieFuel t
    have h2 := two_pow_le_trieFuel t r
    omega
  have hmemF : nF ∈ findLoop t (preprocessTag tag0) (trieFuel t) [(0, r)] [] := by
    refine findLoop_reaches hinv.core (preprocessTag tag0) (trieFuel t) [(0, r)] []
      hstackb hfinalb hpot0 0 r nF (List.mem_singleton_self _) hlen ?_
    rw [List.drop_zero, hpre]
    exact hF
  have hFLb := findLoop_final_bound hinv.core (preprocessTag tag0) (trieFuel t)
    [(0, r)] [] hstackb hfinalb
  have hFLpot : potC t (findLoop t (preprocessTag tag0) (trieFuel t) [(0, r)] [])
      ≤ trieFuel t := by
    have h1 := findLoop_pot_bound hinv.core (preprocessTag tag0) (trieFuel t)
      [(0, r)] [] hstackb hfinalb
    omega
  exact collectLoop_reaches hinv.core (trieFuel t) _ [] hFLb hFLpot nF hmemF
    [] nF c rfl hdata

theorem processBranches_ltMem (tag : List (Str × Str)) (i : Nat) :
    ∀ (branches : NodeMap) (curr : List (Nat × Nat)) (final : List Nat)
      (k : Str) (vd : List (Str × Nat)) (v : Str) (child : Nat),
      (k, vd) ∈ branches → i < tag.length →
      skipCount (tag.drop i) k = 0 →
      lexLt k (tag.getD i ([], [])).1 = true →
      (v, child) ∈ vd →
      (i, child) ∈ (processBranches tag i branches curr final).1 := by
  intro branches
  induction branches with
  | nil =>
    intro curr final k vd v child hmem
    cases hmem
  | cons b bs ih =>
    intro curr final k vd v child hmem hlen hsk hlt hv
    rcases List.mem_cons.1 hmem with hb | hbs
    · have hb1 : b.1 = k := by
        rw [← hb]
      have hb2 : b.2 = vd := by
        rw [← hb]
      have hsk2 : skipCount (tag.drop i) b.1 = 0 := by
        rw [hb1]
        exact hsk
      have hA : ¬i + skipCount (tag.drop i) b.1 = tag.length := by
        rw [hsk2]
        omega
      have hB : lexLt b.1 (tag.getD (i + skipCount (tag.drop i) b.1) ([], [])).1
          = true := by
        rw [hsk2, Nat.add_zero, hb1]
        exact hlt
      rw [processBranches_cons_lt tag i b bs curr final hA hB]
      refine (processBranches_mono tag i bs _ final).1 _ ?_
      refine List.mem_append_left _ ?_
      rw [List.mem_reverse]
      refine List.mem_map.2 ⟨(v, child), by rw [hb2]; exact hv, ?_⟩
      rw [hsk2, Nat.add_zero]
    · by_cases hA : i + skipCount (tag.drop i) b.1 = tag.length
      · rw [processBranches_cons_skipAll tag i b bs curr final hA]
        exact ih _ _ k vd v child hbs hlen hsk hlt hv
      · by_cases hB : lexLt b.1 (tag.getD (i + skipCount (tag.drop i) b.1) ([], [])).1
            = true
        · rw [processBranches_cons_lt tag i b bs curr final hA hB]
          exact ih _ _ k vd v child hbs hlen hsk hlt hv
        · cases hg0 : getA b.2 (tag.getD (i + skipCount (tag.drop i) b.1) ([], [])).2 with
          | none =>
            rw [processBranches_cons_miss tag i b bs curr final hA hB hg0]
            exact ih _ _ k vd v child hbs hlen hsk hlt hv
          | some child0 =>
            rw [processBranches_cons_hit tag i b bs curr final child0 hA hB hg0]
            by_cases hC : i + skipCount (tag.drop i) b.1 < tag.length - 1
            · rw [if_pos hC]
              exact ih _ _ k vd v child hbs hlen hsk hlt hv
            · rw [if_neg hC]
              exact ih _ _ k vd v child hbs hlen hsk hlt hv

theorem findLoop_subseq_reaches {t : Trie} (hc : CoreInv t) (tag : List (Str × Str)) :
    ∀ (fuel : Nat) (stack : List (Nat × Nat)) (final : List Nat),
      (∀ e ∈ stack, e.2 < t.nodes.length) → (∀ m ∈ final, m < t.nodes.length) →
      2 * potF t stack + potC t final ≤ fuel →
      ∀ i n Fsuf m, (i, n) ∈ stack → i < tag.length →
        followPath t n Fsuf = some m →
        List.Sublist (tag.drop i) Fsuf →
        StrictKeys Fsuf →
        ∃ a Q, a ∈ findLoop t tag fuel stack final ∧ followPath t a Q = some m := by
  intro fuel
  induction fuel with
  | zero =>
    intro stack final hstack hfinal hpot i n Fsuf m hmem hlen hfp hsub hstrict
    exfalso
    have h1 := mem_potF_le t (i, n) stack hmem
    have h2 := one_le_pow_width t (t.nodes.length - (i, n).2)
    omega
  | succ f ih =>
    intro stack final hstack hfinal hpot i n Fsuf m hmem hlen hfp hsub hstrict
    cases stack with
    | nil => cases hmem
    | cons e rest =>
      rw [findLoop_succ_cons]
      have hf1 : ∀ m2 ∈ (if (getNode t e.2).isEmpty then e.2 :: final else final),
          m2 < t.nodes.length := by
        by_cases hemp : (getNode t e.2).isEmpty
        · rw [if_pos hemp]
          intro m2 hm2
          rcases List.mem_cons.1 hm2 with h1 | h2
          · rw [h1]
            exact hstack e (List.mem_cons_self _ _)
          · exact hfinal m2 h2
        · rw [if_neg hemp]
          exact hfinal
      have hb := processBranches_bound hc tag e.1 e.2 (getNode t e.2) (fun b hb => hb)
        rest _ (fun e2 h2 => hstack e2 (List.mem_cons_of_mem _ h2)) hf1
      have hstep := findLoop_step_pot hc tag e rest final
        (hstack e (List.mem_cons_self _ _))
      rcases List.mem_cons.1 hmem with he | hrest2
      · subst he
        have hdrop : tag.drop i = tag.getD i ([], []) :: tag.drop (i + 1) := by
          rw [List.drop_eq_getElem_cons hlen, getD_of_lt _ _ _ hlen]
        cases Fsuf with
        | nil =>
          rw [hdrop] at hsub
          cases hsub
        | cons kv Fsuf2 =>
          have hfp2 : (childAt t n kv.1 kv.2).bind
              (fun c => followPath t c Fsuf2) = some m := hfp
          cases hcc : childAt t n kv.1 kv.2 with
          | none =>
            rw [hcc] at hfp2
            cases hfp2
          | some n2 =>
            rw [hcc] at hfp2
            have hfp3 : followPath t n2 Fsuf2 = some m := hfp2
            rcases childAt_decomp hcc with ⟨vd, hvd, hga⟩
            have hvmem : (kv.1, vd) ∈ getNode t n := mem_of_getA hvd
            have hstrict2 : StrictKeys Fsuf2 := strictKeys_tail hstrict
            rw [hdrop] at hsub
            cases hsub with
            | cons₂ _ hsub2 =>
              have hsk := skipCount_self tag i hlen
              have hhit := processBranches_hitMem tag i (getNode t n) rest
                (if (getNode t n).isEmpty then n :: final else final) vd n2 hvmem hlen
                hsk hga
              by_cases hC : i < tag.length - 1
              · exact ih _ _ hb.1 hb.2 (by omega) (i + 1) n2 Fsuf2 m (hhit.1 hC)
                  (by omega) hfp3 hsub2 hstrict2
              · refine ⟨n2, Fsuf2, ?_, hfp3⟩
                exact findLoop_final_subset t tag f _ _ n2 (hhit.2 hC)
            | cons _ hsub2 =>
              have hmem2 : tag.getD i ([], []) ∈ Fsuf2 :=
                hsub2.subset (List.mem_cons_self _ _)
              have hlt : lexLt kv.1 (tag.getD i ([], [])).1 = true := by
                have hp := strictKeys_pairwise hstrict
                rw [List.pairwise_cons] at hp
                exact hp.1 _ hmem2
              have hsk : skipCount (tag.drop i) kv.1 = 0 := by
                rw [hdrop]
                show (if lexLt (tag.getD i ([], [])).1 kv.1 = true then
                  1 + skipCount (tag.drop (i + 1)) kv.1 else 0) = 0
                rw [lexLt_asymm hlt]
                simp
              have hpush := processBranches_ltMem tag i (getNode t n) rest
                (if (getNode t n).isEmpty then n :: final else final) kv.1 vd kv.2 n2
                hvmem hlen hsk hlt (mem_of_getA hga)
              refine ih _ _ hb.1 hb.2 (by omega) i n2 Fsuf2 m hpush hlen hfp3 ?_ hstrict2
              rw [hdrop]
              exact hsub2
      · have hmem2 : (i, n) ∈ (processBranches tag e.1 (getNode t e.2) rest
            (if (getNode t e.2).isEmpty then e.2 :: final else final)).1 :=
          (processBranches_mono tag e.1 (getNode t e.2) rest _).1 _ hrest2
        exact ih _ _ hb.1 hb.2 (by omega) i n Fsuf m hmem2 hlen hfp hsub hstrict

theorem queryTrie_sublist_complete {t : Trie} {specs : List Spec}
    (hinv : TrieInv t specs) (pos : Str) (tag0 : List (Str × Str))
    (F : List (Str × Str)) (c : Nat)
    (hsub : List.Sublist (preprocessTag tag0) F)
    (hkeysF : StrictKeys F)
    (hlast : lastCodeFor specs pos F = some c) :
    c ∈ queryTrie t pos tag0 := by
  rcases hinv.pathEx pos F c hlast with ⟨r, nF, hr, hF⟩
  have hdata : dataAt t nF = some c := by
    rw [hinv.pathChar pos r F nF hr hF]
    exact hlast
  have hrN : r < t.nodes.length := (hinv.core.rootPos pos r hr).2
  by_cases hlen : (preprocessTag tag0).length > 0
  · rw [queryTrie, hr]
    show c ∈ collectLoop t (trieFuel t)
      (findLoop t (preprocessTag tag0) (trieFuel t)
        (if (preprocessTag tag0).length > 0 then ([(0, r)], []) else ([], [r])).1
        (if (preprocessTag tag0).length > 0 then ([(0, r)], []) else ([], [r])).2) []
    rw [if_pos hlen]
    show c ∈ collectLoop t (trieFuel t)
      (findLoop t (preprocessTag tag0) (trieFuel t) [(0, r)] []) []
    have hstackb : ∀ e ∈ [((0 : Nat), r)], e.2 < t.nodes.length := by
      intro e he
      rw [show e = (0, r) from by simpa using he]
      exact hrN
    have hfinalb : ∀ m ∈ ([] : List Nat), m < t.nodes.length :=
      fun m hm => absurd hm (List.not_mem_nil m)
    have hpot0 : 2 * potF t [(0, r)] + potC t [] ≤ trieFuel t := by
      rw [potF_cons, potF_nil, potC_nil]
      show 2 * (trieWidth t ^ (t.nodes.length - r) + 0) + 0 ≤ trieFuel t
      have h2 := two_pow_le_trieFuel t r
      omega
    rcases findLoop_subseq_reaches hinv.core (preprocessTag tag0) (trieFuel t)
      [(0, r)] [] hstackb hfinalb hpot0 0 r F nF (List.mem_singleton_self _) hlen hF
      (by rw [List.drop_zero]; exact hsub) hkeysF with ⟨a, Q, haFL, haQ⟩
    have hFLb := findLoop_final_bound hinv.core (preprocessTag tag0) (trieFuel t)
      [(0, r)] [] hstackb hfinalb
    have hFLpot : potC t (findLoop t (preprocessTag tag0) (trieFuel t) [(0, r)] [])
        ≤ trieFuel t := by
      have h1 := findLoop_pot_bound hinv.core (preprocessTag tag0) (trieFuel t)
        [(0, r)] [] hstackb hfinalb
      omega
    exact collectLoop_reaches hinv.core (trieFuel t) _ [] hFLb hFLpot a haFL
      Q nF c haQ hdata
  · refine queryTrie_wildcard_complete hinv pos tag0 ?_ F c hlast
    have h0 : (preprocessTag tag0).length = 0 := by omega
    exact List.length_eq_zero.1 h0

/-! ## The claims about `find_compatible` -/

def strictKeysB : List (Str × Str) → Bool
  | [] => true
  | [_] => true
  | a :: b :: rest => lexLt a.1 b.1 && strictKeysB (b :: rest)

theorem strictKeysB_iff : ∀ F, strictKeysB F = true ↔ StrictKeys F
  | [] => by
    simp only [strictKeysB]
    exact ⟨fun _ => List.chain'_nil, fun _ => trivial⟩
  | [a] => by
    simp only [strictKeysB]
    exact ⟨fun _ => List.chain'_singleton a, fun _ => trivial⟩
  | a :: b :: rest => by
    rw [show strictKeysB (a :: b :: rest) = (lexLt a.1 b.1 && strictKeysB (b :: rest))
      from rfl, Bool.and_eq_true, strictKeysB_iff (b :: rest)]
    constructor
    · rintro ⟨h1, h2⟩
      exact List.chain'_cons.2 ⟨h1, h2⟩
    · intro h
      exact ⟨(List.chain'_cons.1 h).1, (List.chain'_cons.1 h).2⟩

instance (F : List (Str × Str)) : Decidable (StrictKeys F) :=
  decidable_of_iff _ (strictKeysB_iff F)

theorem lastCodeFor_mem {specs : List Spec} {pos : Str} {F : List (Str × Str)} {c : Nat}
    (h : lastCodeFor specs pos F = some c) : ((pos, F), c) ∈ specs := by
  induction specs using List.reverseRecOn with
  | nil => cases h
  | append_singleton l e ih =>
    rw [lastCodeFor_append] at h
    by_cases he : e.1 = (pos, F)
    · rw [if_pos he] at h
      have hc : e.2 = c := Option.some.inj h
      rw [List.mem_append]
      right
      rw [show ((pos, F), c) = e from by rw [← he, ← hc]]
      exact List.mem_singleton_self _
    · rw [if_neg he] at h
      exact List.mem_append_left _ (ih h)

theorem lastCodeFor_eq (specs : List Spec) (pos : Str) (F : List (Str × Str)) :
    lastCodeFor specs pos F =
      ((specs.filter fun e => decide (e.1 = (pos, F))).getLast?).map fun e => e.2 := by
  induction specs using List.reverseRecOn with
  | nil => rfl
  | append_singleton l e ih =>
    rw [lastCodeFor_append, List.filter_append]
    by_cases he : e.1 = (pos, F)
    · rw [if_pos he]
      rw [show List.filter (fun e => decide (e.1 = (pos, F))) [e] = [e] from by
        simp [he]]
      rw [List.getLast?_concat]
      rfl
    · rw [if_neg he]
      rw [show List.filter (fun e => decide (e.1 = (pos, F))) [e] = [] from by
        simp [he]]
      rw [List.append_nil]
      exact ih

theorem tagSpecs_mem {i2t : List Str} {pos : Str} {F : List (Str × Str)} {c : Nat}
    (h : ((pos, F), c) ∈ tagSpecs i2t) :
    ∃ p ∈ makeT2i i2t, p.1 ∈ i2t ∧ parseBuildTag p.1 = (pos, F) ∧ p.2 = c := by
  rcases List.mem_map.1 h with ⟨p, hp, hpe⟩
  have h1 : parseBuildTag p.1 = (pos, F) := congrArg Prod.fst hpe
  have h2 : p.2 = c := congrArg Prod.snd hpe
  exact ⟨p, hp, makeT2i_key_mem i2t p hp, h1, h2⟩

theorem tagSpecs_strictKeys {i2t : List Str}
    (hkeys : ∀ s ∈ i2t, (((parseBuildTag s).2).map Prod.fst).Nodup)
    {pos : Str} {F : List (Str × Str)} {c : Nat}
    (h : ((pos, F), c) ∈ tagSpecs i2t) : StrictKeys F := by
  rcases tagSpecs_mem h with ⟨p, _, hmem, hparse, _⟩
  have h2 := parseBuildTag_strictKeys p.1 (hkeys p.1 hmem)
  rw [hparse] at h2
  exact h2

/-- Counterexample to claim C1: with vocabulary `NOUN,A=1` (code 0) and
`NOUN,A=1|B=2` (code 1), the query `NOUN B=2` should return both codes —
tag 0 does not define `B`, so it matches the constraint trivially — but the
traversal passes through tag 0's internal terminal node without collecting
it and returns only `[1]`. -/
theorem c1_counterexample :
    find_compatible (make_tag_trie [toL "NOUN,A=1", toL "NOUN,A=1|B=2"])
        (toL "NOUN B=2") = [1] ∧
    (parseBuildTag (toL "NOUN,A=1")).1 = (parseQueryTag (toL "NOUN B=2")).1 ∧
    Compat (parseBuildTag (toL "NOUN,A=1")).2
      (preprocessTag (parseQueryTag (toL "NOUN B=2")).2) ∧
    getA (makeT2i [toL "NOUN,A=1", toL "NOUN,A=1|B=2"]) (toL "NOUN,A=1") = some 0 ∧
    0 ∉ find_compatible (make_tag_trie [toL "NOUN,A=1", toL "NOUN,A=1|B=2"])
        (toL "NOUN B=2") := by decide

/-- Claim C1 (amended): `find_compatible` is sound but not exact.  A query
whose pos has no start node returns the empty list without error, and every
returned code is a surviving (last-wins) code of a vocabulary tag with the
query's pos whose feature list agrees with every preprocessed constraint
naming a key it defines; the converse inclusion fails (see the
counterexample: a compatible tag stored at an internal terminal is missed). -/
theorem c1_amended_partial_match_sound (i2t : List Str)
    (hkeys : ∀ s ∈ i2t, (((parseBuildTag s).2).map Prod.fst).Nodup)
    (s : Str)
    (hq : StrictKeys (preprocessTag (parseQueryTag s).2)) :
    (rootOf (make_tag_trie i2t) (parseQueryTag s).1 = none →
      find_compatible (make_tag_trie i2t) s = []) ∧
    ∀ c ∈ find_compatible (make_tag_trie i2t) s,
      ∃ F, lastCodeFor (tagSpecs i2t) (parseQueryTag s).1 F = some c ∧
        Compat F (preprocessTag (parseQueryTag s).2) := by
  have hinv := make_tag_trie_inv i2t hkeys
  constructor
  · intro hnone
    show queryTrie (make_tag_trie i2t) (parseQueryTag s).1 (parseQueryTag s).2 = []
    rw [queryTrie, hnone]
  · intro c hc
    have hc2 : c ∈ queryTrie (make_tag_trie i2t) (parseQueryTag s).1
        (parseQueryTag s).2 := hc
    rcases queryTrie_sound hinv _ _ hq c hc2 with ⟨F, hlast, hcomp⟩
    exact ⟨F, hlast, hcomp (tagSpecs_strictKeys hkeys (lastCodeFor_mem hlast))⟩

/-- Witness for C1's amended theorem: an unknown pos yields the empty list. -/
theorem c1_amended_partial_match_sound_witness :
    find_compatible (make_tag_trie [toL "NOUN,A=1"]) (toL "VERB") = [] :=
  (c1_amended_partial_match_sound [toL "NOUN,A=1"] (by decide) (toL "VERB")
    (by decide)).1 (by decide)

/-- Counterexample to claim C2: `VALUE_MAP` rewrites the query value `Ptan`
to `Plur` before matching, so the vocabulary tag `NOUN,Number=Ptan`
(code 0) fails to match its own full `(pos, features)` query. -/
theorem c2_counterexample :
    find_compatible (make_tag_trie [toL "NOUN,Number=Ptan"])
        (toL "NOUN Number=Ptan") = [] ∧
    getA (makeT2i [toL "NOUN,Number=Ptan"]) (toL "NOUN,Number=Ptan") = some 0 := by
  decide

/-- Claim C2 (amended): self-match holds for a tag whose preprocessed query
constraints form a subsequence of its stored feature list — constraint
preprocessing may drop pairs (the `USELESS_KEYS` filter removes `Abbr`
pairs) but must not alter one (no value in `VALUE_MAP`'s domain) — and
whose code survives the last-wins overwrite among vocabulary entries with
the same parse.  In particular a tag containing an `Abbr` key still matches
its own full query; only the `Ptan`/`Brev` value remap breaks self-match. -/
theorem c2_amended_self_match (i2t : List Str)
    (hkeys : ∀ s ∈ i2t, (((parseBuildTag s).2).map Prod.fst).Nodup)
    (q pos : Str) (F : List (Str × Str)) (c : Nat)
    (hpos : (parseQueryTag q).1 = pos)
    (hpre : List.Sublist (preprocessTag (parseQueryTag q).2) F)
    (hlast : lastCodeFor (tagSpecs i2t) pos F = some c) :
    c ∈ find_compatible (make_tag_trie i2t) q := by
  have hinv := make_tag_trie_inv i2t hkeys
  have hkeysF : StrictKeys F := tagSpecs_strictKeys hkeys (lastCodeFor_mem hlast)
  show c ∈ queryTrie (make_tag_trie i2t) (parseQueryTag q).1 (parseQueryTag q).2
  rw [hpos]
  exact queryTrie_sublist_complete hinv pos _ F c hpre hkeysF hlast

/-- Witness for C2's amended theorem at a tag containing an `Abbr` key: the
tag `NOUN,Abbr=Yes|B=1` matches its own full query `NOUN Abbr=Yes|B=1`
even though preprocessing drops the `Abbr` constraint. -/
theorem c2_amended_self_match_witness :
    0 ∈ find_compatible (make_tag_trie [toL "NOUN,Abbr=Yes|B=1"])
      (toL "NOUN Abbr=Yes|B=1") :=
  c2_amended_self_match [toL "NOUN,Abbr=Yes|B=1"] (by decide)
    (toL "NOUN Abbr=Yes|B=1") (toL "NOUN")
    [(toL "Abbr", toL "Yes"), (toL "B", toL "1")] 0 (by decide) (by decide) (by decide)

/-- Counterexample to claim C6: `NOUN,B=1|A=2` (code 0) and `NOUN,A=2|B=1`
(code 1) are distinct canonical tags under pos `NOUN` that parse to the same
sorted feature list, so the second build overwrites the first's terminal;
the wildcard query `NOUN` returns `[1]` and misses code 0 instead of
returning the codes of every canonical tag under `NOUN`. -/
theorem c6_counterexample :
    find_compatible (make_tag_trie [toL "NOUN,B=1|A=2", toL "NOUN,A=2|B=1"])
        (toL "NOUN") = [1] ∧
    (parseBuildTag (toL "NOUN,B=1|A=2")).1 = toL "NOUN" ∧
    getA (makeT2i [toL "NOUN,B=1|A=2", toL "NOUN,A=2|B=1"])
        (toL "NOUN,B=1|A=2") = some 0 ∧
    0 ∉ find_compatible (make_tag_trie [toL "NOUN,B=1|A=2", toL "NOUN,A=2|B=1"])
        (toL "NOUN") := by decide

/-- Claim C6 (amended): a wildcard query returns exactly the set of codes
stored at the trie terminals under that pos, i.e. for every feature list the
code of the last vocabulary entry parsing to it; codes of earlier duplicates
overwritten by the last-wins build are missing (see the counterexample). -/
theorem c6_amended_wildcard_exact (i2t : List Str)
    (hkeys : ∀ s ∈ i2t, (((parseBuildTag s).2).map Prod.fst).Nodup)
    (s pos : Str)
    (hq : parseQueryTag s = (pos, [])) :
    ∀ c, c ∈ find_compatible (make_tag_trie i2t) s ↔
      ∃ F, lastCodeFor (tagSpecs i2t) pos F = some c := by
  have hinv := make_tag_trie_inv i2t hkeys
  intro c
  have hfc : find_compatible (make_tag_trie i2t) s =
      queryTrie (make_tag_trie i2t) pos [] := by
    show queryTrie (make_tag_trie i2t) (parseQueryTag s).1 (parseQueryTag s).2 = _
    rw [hq]
  rw [hfc]
  constructor
  · intro hc
    rcases queryTrie_sound hinv pos [] (by exact List.chain'_nil) c hc with
      ⟨F, hlast, _⟩
    exact ⟨F, hlast⟩
  · rintro ⟨F, hlast⟩
    exact queryTrie_wildcard_complete hinv pos [] rfl F c hlast

/-- Witness for C6's amended theorem: the wildcard `NOUN` finds the only
tag's code. -/
theorem c6_amended_wildcard_exact_witness :
    0 ∈ find_compatible (make_tag_trie [toL "NOUN,A=1"]) (toL "NOUN") :=
  (c6_amended_wildcard_exact [toL "NOUN,A=1"] (by decide) (toL "NOUN") (toL "NOUN")
    (by decide) 0).2 ⟨[(toL "A", toL "1")], by decide⟩

/-- Claim C8: duplicate parses raise no error during `_make_tag_trie` — the
build is total, the path exists — and the terminal at the shared path holds
the code of the last `_t2i` entry parsing to it (last-wins overwrite of
`self._data[start] = code`). -/
theorem c8_duplicate_parse_last_wins (i2t : List Str)
    (hkeys : ∀ s ∈ i2t, (((parseBuildTag s).2).map Prod.fst).Nodup)
    (pos : Str) (F : List (Str × Str)) (eLast : Spec)
    (hlast : ((tagSpecs i2t).filter fun e => decide (e.1 = (pos, F))).getLast?
      = some eLast) :
    ∃ r n, rootOf (make_tag_trie i2t) pos = some r ∧
      followPath (make_tag_trie i2t) r F = some n ∧
      dataAt (make_tag_trie i2t) n = some eLast.2 := by
  have hinv := make_tag_trie_inv i2t hkeys
  have hl : lastCodeFor (tagSpecs i2t) pos F = some eLast.2 := by
    rw [lastCodeFor_eq, hlast]
    rfl
  rcases hinv.pathEx pos F eLast.2 hl with ⟨r, n, hr, hF⟩
  refine ⟨r, n, hr, hF, ?_⟩
  rw [hinv.pathChar pos r F n hr hF]
  exact hl

/-- Witness for C8: two distinct tag strings with the same parse, different
codes; the stored terminal holds the later code 1. -/
theorem c8_duplicate_parse_last_wins_witness :
    ∃ r n, rootOf (make_tag_trie [toL "NOUN,B=1|A=2", toL "NOUN,A=2|B=1"])
        (toL "NOUN") = some r ∧
      followPath (make_tag_trie [toL "NOUN,B=1|A=2", toL "NOUN,A=2|B=1"]) r
        [(toL "A", toL "2"), (toL "B", toL "1")] = some n ∧
      dataAt (make_tag_trie [toL "NOUN,B=1|A=2", toL "NOUN,A=2|B=1"]) n = some 1 :=
  c8_duplicate_parse_last_wins [toL "NOUN,B=1|A=2", toL "NOUN,A=2|B=1"] (by decide)
    (toL "NOUN") [(toL "A", toL "2"), (toL "B", toL "1")]
    ((toL "NOUN", [(toL "A", toL "2"), (toL "B", toL "1")]), 1) (by decide)

/-! ## Claim C7: batch tensor shape and content -/

theorem mapM_eq_map_of_some {α β : Type} (f : α → Option β) (g : α → β) :
    ∀ l : List α, (∀ x ∈ l, f x = some (g x)) → l.mapM f = some (l.map g) := by
  intro l
  induction l with
  | nil => intro _; rfl
  | cons a rest ih =>
    intro h
    rw [List.mapM_cons, h a (List.mem_cons_self _ _),
      ih (fun x hx => h x (List.mem_cons_of_mem _ hx))]
    rfl

theorem foldl_max_bounds (l : List Nat) :
    ∀ a, a ≤ l.foldl max a ∧ ∀ x ∈ l, x ≤ l.foldl max a := by
  induction l with
  | nil =>
    intro a
    exact ⟨le_refl _, fun x hx => absurd hx (List.not_mem_nil x)⟩
  | cons b rest ih =>
    intro a
    constructor
    · exact le_trans (Nat.le_max_left a b) (ih (max a b)).1
    · intro x hx
      rcases List.mem_cons.1 hx with h1 | h2
      · rw [h1]
        exact le_trans (Nat.le_max_right a b) (ih (max a b)).1
      · exact (ih (max a b)).2 x h2

theorem onesRow_length (dim : Nat) (idxs : List Nat) :
    (onesRow dim idxs).length = dim := by
  rw [onesRow, List.length_map, List.length_range]

theorem onesRow_getD (dim : Nat) (idxs : List Nat) (k : Nat) (hk : k < dim) :
    (onesRow dim idxs).getD k 0 = if idxs.contains k then 1 else 0 := by
  rw [onesRow, List.getD_eq_getElem?_getD, List.getElem?_map,
    List.getElem?_range hk]
  rfl

theorem onesRow_one_iff (dim : Nat) (idxs : List Nat) (k : Nat) (hk : k < dim) :
    ((onesRow dim idxs).getD k 0 = 1 ↔ k ∈ idxs) ∧
    ((onesRow dim idxs).getD k 0 = 1 ∨ (onesRow dim idxs).getD k 0 = 0) := by
  rw [onesRow_getD dim idxs k hk]
  by_cases h : idxs.contains k = true
  · rw [if_pos h]
    exact ⟨⟨fun _ => List.elem_iff.1 h, fun _ => rfl⟩, Or.inl rfl⟩
  · rw [if_neg h]
    exact ⟨⟨fun h0 => absurd h0 (by omega),
      fun hm => absurd (List.elem_iff.2 hm) h⟩, Or.inr rfl⟩

/-- The integer entries of a stored word entry set (the indexes that numpy
fancy assignment would set). -/
def entryCodes (entries : List (Sum Nat Str)) : List Nat :=
  entries.filterMap fun e => match e with | Sum.inl i => some i | Sum.inr _ => none

/-- The tensor the dictionary vectorizer's spec describes: one multi-hot row
per word, zero rows as right padding up to the longest sentence. -/
def dictExpected (minFreq : Nat) (unk : Option Str) (lbw : List (Str × List Str))
    (data : List (List Str)) : List (List (List Nat)) :=
  let s := dictTrain minFreq unk lbw
  let T := (data.map List.length).foldl max 0
  data.map fun sent =>
    (sent.map fun w => onesRow (dictDim s) (entryCodes (wtmGet unk s w))) ++
    List.replicate (T - sent.length) (List.replicate (dictDim s) 0)

theorem npAssignEntries_valid (dim : Nat) (entries : List (Sum Nat Str))
    (h : entries.all (fun e => match e with
      | Sum.inl i => decide (i < dim) | Sum.inr _ => false) = true) :
    npAssignEntries dim entries = some (onesRow dim (entryCodes entries)) := by
  rw [npAssignEntries, if_pos h]
  rfl

theorem dictCall_cons (minFreq : Nat) (unk : Option Str) (lbw : List (Str × List Str))
    (s0 : List Str) (rest : List (List Str)) :
    dictCall minFreq unk lbw (s0 :: rest) =
      (s0 :: rest).mapM (dictSentRows unk (dictTrain minFreq unk lbw)
        (((s0 :: rest).map List.length).foldl max 0)) := rfl

theorem npAssignNat_some {dim : Nat} {idxs : List Nat} {row : List Nat}
    (h : npAssignNat dim idxs = some row) :
    row = onesRow dim idxs ∧ ∀ i ∈ idxs, i < dim := by
  rw [npAssignNat] at h
  by_cases hc : idxs.all (fun i => decide (i < dim)) = true
  · rw [if_pos hc] at h
    refine ⟨(Option.some.inj h).symm, ?_⟩
    intro i hi
    exact of_decide_eq_true (List.all_eq_true.1 hc i hi)
  · rw [if_neg hc] at h
    cases h

theorem getD_replicate_lt {α : Type} (n : Nat) (a d : α) (i : Nat) (h : i < n) :
    (List.replicate n a).getD i d = a := by
  rw [List.getD_eq_getElem?_getD, List.getElem?_replicate, if_pos h]
  rfl

theorem pymSentRows_shape (dim : Nat) :
    ∀ (sent : List Str) (T : Nat) (v : PymorphyVectorizer) (rows : List (List Nat))
      (v' : PymorphyVectorizer),
      sent.length ≤ T →
      pymSentRows dim T v sent = (some rows, v') →
      rows.length = T ∧
      (∀ j, sent.length ≤ j → j < T → rows.getD j [] = List.replicate dim 0) ∧
      (∀ j, j < sent.length → ∃ idxs : List Nat,
        (∀ i ∈ idxs, i < dim) ∧ rows.getD j [] = onesRow dim idxs) := by
  intro sent
  induction sent with
  | nil =>
    intro T v rows v' _ heq
    have h1 : some (List.replicate T (List.replicate dim 0)) = some rows :=
      congrArg Prod.fst heq
    have h2 : rows = List.replicate T (List.replicate dim 0) :=
      (Option.some.inj h1).symm
    refine ⟨by rw [h2, List.length_replicate], ?_, ?_⟩
    · intro j _ hj
      rw [h2, getD_replicate_lt _ _ _ _ hj]
    · intro j hj
      cases hj
  | cons w ws ih =>
    intro T v rows v' hlen heq
    cases T with
    | zero =>
      rw [List.length_cons] at hlen
      omega
    | succ T0 =>
      have heq2 : (match npAssignNat dim (get_word_indexes v w).1 with
          | none => ((none : Option (List (List Nat))), (get_word_indexes v w).2)
          | some row =>
            match (pymSentRows dim (T0 + 1 - 1) (get_word_indexes v w).2 ws).1 with
            | some rows0 =>
              (some (row :: rows0),
                (pymSentRows dim (T0 + 1 - 1) (get_word_indexes v w).2 ws).2)
            | none => (none, (pymSentRows dim (T0 + 1 - 1) (get_word_indexes v w).2 ws).2))
          = (some rows, v') := heq
      cases hassign : npAssignNat dim (get_word_indexes v w).1 with
      | none =>
        rw [hassign] at heq2
        have h3 : (none : Option (List (List Nat))) = some rows :=
          congrArg Prod.fst heq2
        cases h3
      | some row =>
        rw [hassign] at heq2
        obtain ⟨hrow, hbound⟩ := npAssignNat_some hassign
        cases hrest : (pymSentRows dim (T0 + 1 - 1) (get_word_indexes v w).2 ws).1 with
        | none =>
          rw [hrest] at heq2
          have h3 : (none : Option (List (List Nat))) = some rows :=
            congrArg Prod.fst heq2
          cases h3
        | some rows0 =>
          rw [hrest] at heq2
          have h3 : some (row :: rows0) = some rows := congrArg Prod.fst heq2
          have h4 : rows = row :: rows0 := (Option.some.inj h3).symm
          have heqr : pymSentRows dim T0 (get_word_indexes v w).2 ws =
              (some rows0, (pymSentRows dim T0 (get_word_indexes v w).2 ws).2) := by
            have h5 : (pymSentRows dim T0 (get_word_indexes v w).2 ws).1
                = some rows0 := hrest
            rw [← h5]
          have hlen2 : ws.length ≤ T0 := by
            rw [List.length_cons] at hlen
            omega
          obtain ⟨ihl, ihpad, ihrange⟩ := ih T0 (get_word_indexes v w).2 rows0 _
            hlen2 heqr
          refine ⟨by rw [h4, List.length_cons, ihl], ?_, ?_⟩
          · intro j hj1 hj2
            rw [List.length_cons] at hj1
            cases j with
            | zero => omega
            | succ j0 =>
              rw [h4, List.getD_cons_succ]
              exact ihpad j0 (by omega) (by omega)
          · intro j hj
            cases j with
            | zero =>
              refine ⟨(get_word_indexes v w).1, hbound, ?_⟩
              rw [h4, List.getD_cons_zero, hrow]
            | succ j0 =>
              rw [h4, List.getD_cons_succ]
              rw [List.length_cons] at hj
              exact ihrange j0 (by omega)

theorem pymSentsLoop_shape (dim T : Nat) :
    ∀ (data : List (List Str)) (v : PymorphyVectorizer)
      (out : List (List (List Nat))) (v' : PymorphyVectorizer),
      (∀ sent ∈ data, sent.length ≤ T) →
      pymSentsLoop dim T v data = (some out, v') →
      out.length = data.length ∧
      ∀ b, b < data.length →
        (out.getD b []).length = T ∧
        (∀ j, (data.getD b []).length ≤ j → j < T →
          (out.getD b []).getD j [] = List.replicate dim 0) ∧
        (∀ j, j < (data.getD b []).length → ∃ idxs : List Nat,
          (∀ i ∈ idxs, i < dim) ∧ (out.getD b []).getD j [] = onesRow dim idxs) := by
  intro data
  induction data with
  | nil =>
    intro v out v' _ heq
    have h1 : some ([] : List (List (List Nat))) = some out := congrArg Prod.fst heq
    have h2 : out = [] := (Option.some.inj h1).symm
    refine ⟨by rw [h2]; rfl, ?_⟩
    intro b hb
    rw [List.length_nil] at hb
    omega
  | cons sent rest ih =>
    intro v out v' hlen heq
    have heq2 : (match (pymSentRows dim T v sent).1 with
        | none => ((none : Option (List (List (List Nat)))),
            (pymSentRows dim T v sent).2)
        | some rows =>
          match (pymSentsLoop dim T (pymSentRows dim T v sent).2 rest).1 with
          | some out0 =>
            (some (rows :: out0), (pymSentsLoop dim T (pymSentRows dim T v sent).2 rest).2)
          | none => (none, (pymSentsLoop dim T (pymSentRows dim T v sent).2 rest).2))
        = (some out, v') := heq
    cases hrows : (pymSentRows dim T v sent).1 with
    | none =>
      rw [hrows] at heq2
      have h3 : (none : Option (List (List (List Nat)))) = some out :=
        congrArg Prod.fst heq2
      cases h3
    | some rows =>
      rw [hrows] at heq2
      cases hrest : (pymSentsLoop dim T (pymSentRows dim T v sent).2 rest).1 with
      | none =>
        rw [hrest] at heq2
        have h3 : (none : Option (List (List (List Nat)))) = some out :=
          congrArg Prod.fst heq2
        cases h3
      | some out0 =>
        rw [hrest] at heq2
        have h3 : some (rows :: out0) = some out := congrArg Prod.fst heq2
        have h4 : out = rows :: out0 := (Option.some.inj h3).symm
        have hrloop : pymSentsLoop dim T (pymSentRows dim T v sent).2 rest =
            (some out0, (pymSentsLoop dim T (pymSentRows dim T v sent).2 rest).2) := by
          have h5 : (pymSentsLoop dim T (pymSentRows dim T v sent).2 rest).1
              = some out0 := hrest
          rw [← h5]
        have hrows2 : pymSentRows dim T v sent =
            (some rows, (pymSentRows dim T v sent).2) := by
          have h5 : (pymSentRows dim T v sent).1 = some rows := hrows
          rw [← h5]
        obtain ⟨rl, rpad, rrange⟩ := pymSentRows_shape dim sent T v rows _
          (hlen sent (List.mem_cons_self _ _)) hrows2
        obtain ⟨ihl, ihb⟩ := ih (pymSentRows dim T v sent).2 out0 _
          (fun s2 h2 => hlen s2 (List.mem_cons_of_mem _ h2)) hrloop
        refine ⟨by rw [h4, List.length_cons, ihl, List.length_cons], ?_⟩
        intro b hb
        cases b with
        | zero =>
          rw [h4, List.getD_cons_zero, List.getD_cons_zero]
          exact ⟨rl, rpad, rrange⟩
        | succ b0 =>
          rw [h4, List.getD_cons_succ, List.getD_cons_succ]
          rw [List.length_cons] at hb
          exact ihb b0 (by omega)

/-- Counterexample to claim C7: with an unknown token configured and no
training data, the word `w` resolves to the unknown-token string itself, and
numpy's fancy assignment with a string index raises — the call on this
non-empty batch fails instead of returning a `[1][1][dim]` tensor. -/
theorem c7_counterexample :
    ([[toL "w"]] : List (List Str)) ≠ [] ∧
    dictCall 1 (some (toL "UNK")) [] [[toL "w"]] = none := by decide

/-- Claim C7 (amended): when every resolved entry is an integer code below
`dim` the dictionary call returns exactly the spec's tensor — one multi-hot
row per in-range word, all-zero rows as right padding up to the longest
sentence; whenever the pymorphy call returns a tensor it has shape
`[B][T][dim]` with the same padding and per-word multi-hot rows; and a
multi-hot row holds 1 exactly at its index set and 0 elsewhere.  Without
the validity hypothesis the dictionary call can raise (see the
counterexample). -/
theorem c7_amended_tensor_shape :
    (∀ (minFreq : Nat) (unk : Option Str) (lbw : List (Str × List Str))
        (data : List (List Str)), data ≠ [] →
      (∀ sent ∈ data, ∀ w ∈ sent,
        (wtmGet unk (dictTrain minFreq unk lbw) w).all (fun e => match e with
          | Sum.inl i => decide (i < dictDim (dictTrain minFreq unk lbw))
          | Sum.inr _ => false) = true) →
      dictCall minFreq unk lbw data = some (dictExpected minFreq unk lbw data)) ∧
    (∀ (v : PymorphyVectorizer) (data : List (List Str))
        (out : List (List (List Nat))) (v' : PymorphyVectorizer),
      pymCall v data = (some out, v') →
      out.length = data.length ∧
      ∀ b, b < data.length →
        (out.getD b []).length = (data.map List.length).foldl max 0 ∧
        (∀ j, (data.getD b []).length ≤ j → j < (data.map List.length).foldl max 0 →
          (out.getD b []).getD j [] = List.replicate (makeT2i v.i2t).length 0) ∧
        (∀ j, j < (data.getD b []).length → ∃ idxs : List Nat,
          (∀ i ∈ idxs, i < (makeT2i v.i2t).length) ∧
          (out.getD b []).getD j [] = onesRow (makeT2i v.i2t).length idxs)) ∧
    (∀ (dim : Nat) (idxs : List Nat), (onesRow dim idxs).length = dim ∧
      ∀ k, k < dim → ((onesRow dim idxs).getD k 0 = 1 ↔ k ∈ idxs) ∧
        ((onesRow dim idxs).getD k 0 = 1 ∨ (onesRow dim idxs).getD k 0 = 0)) := by
  refine ⟨?_, ?_, ?_⟩
  · intro minFreq unk lbw data hne hvalid
    cases data with
    | nil => exact absurd rfl hne
    | cons s0 rest =>
      rw [dictCall_cons]
      show (s0 :: rest).mapM (dictSentRows unk (dictTrain minFreq unk lbw)
          (((s0 :: rest).map List.length).foldl max 0)) =
        some ((s0 :: rest).map fun sent =>
          (sent.map fun w => onesRow (dictDim (dictTrain minFreq unk lbw))
            (entryCodes (wtmGet unk (dictTrain minFreq unk lbw) w))) ++
          List.replicate ((((s0 :: rest).map List.length).foldl max 0) - sent.length)
            (List.replicate (dictDim (dictTrain minFreq unk lbw)) 0))
      refine mapM_eq_map_of_some _ _ _ (fun sent hsent => ?_)
      rw [dictSentRows]
      rw [mapM_eq_map_of_some
        (fun word => npAssignEntries (dictDim (dictTrain minFreq unk lbw))
          (wtmGet unk (dictTrain minFreq unk lbw) word))
        (fun word => onesRow (dictDim (dictTrain minFreq unk lbw))
          (entryCodes (wtmGet unk (dictTrain minFreq unk lbw) word)))
        sent (fun w hw => npAssignEntries_valid _ _ (hvalid sent hsent w hw))]
      rfl
  · intro v data out v' heq
    cases data with
    | nil =>
      have h3 : (none : Option (List (List (List Nat)))) = some out :=
        congrArg Prod.fst heq
      cases h3
    | cons s0 rest =>
      have heq2 : pymSentsLoop (makeT2i v.i2t).length
          (((s0 :: rest).map List.length).foldl max 0) v (s0 :: rest)
          = (some out, v') := heq
      exact pymSentsLoop_shape (makeT2i v.i2t).length
        (((s0 :: rest).map List.length).foldl max 0) (s0 :: rest) v out v'
        (fun sent hs =>
          (foldl_max_bounds ((s0 :: rest).map List.length) 0).2 sent.length
            (List.mem_map_of_mem List.length hs)) heq2
  · intro dim idxs
    exact ⟨onesRow_length dim idxs, fun k hk => onesRow_one_iff dim idxs k hk⟩

/-- Witness for C7's amended theorem at a concrete trained dictionary and a
one-sentence batch. -/
theorem c7_amended_tensor_shape_witness :
    dictCall 1 none [(toL "w", [toL "A"])] [[toL "w"]]
      = some (dictExpected 1 none [(toL "w", [toL "A"])] [[toL "w"]]) :=
  c7_amended_tensor_shape.1 1 none [(toL "w", [toL "A"])] [[toL "w"]]
    (by decide) (by decide)
